import Mathlib

/-!
# Verification development for `hw2_signer/signer.go` and `hw1_tree/main.go`

The signer is a concurrent Go program.  It is embedded here as an interleaving
semantics: every goroutine of the source is a small deterministic state
machine whose states are the program points between two synchronisation
operations, and a scheduler label picks the goroutine that performs its next
operation.  A step is `blocked` when the goroutine cannot proceed (full or
empty channel, held mutex, positive wait-group counter), `panic` when the Go
runtime would abort the program (send on a closed channel, closing a closed
channel, negative wait-group counter), and `next` otherwise.

Go strings are modelled by Lean strings; Go compares strings bytewise on their
UTF-8 encoding, which orders valid UTF-8 strings exactly as the code points do.
The two hash primitives `DataSignerCrc32` and `DataSignerMd5` and the constant
`MaxInputDataLen` are declared in a file that is not part of the sources at
hand (`common.go`); they are parameters of the development.
-/

namespace Signer

/-! ## Values, hash primitives, channels -/

/-- Result of asking one goroutine to perform its next operation. -/
inductive Step (α : Type) where
  | blocked
  | panic
  | next (a : α)
deriving DecidableEq, Repr

/-- Functorial action on the successor state of a step. -/
def Step.map {α β : Type} (f : α → β) : Step α → Step β
  | .blocked => .blocked
  | .panic => .panic
  | .next a => .next (f a)

/-- The dynamic values that travel through the `chan interface{}` queues:
the integers fed to the pipeline and the strings the stages produce. -/
inductive Item where
  | int (n : Int)
  | str (s : String)
deriving DecidableEq, Repr

/-- The string form `fmt.Sprintf("%v", data)` of an item. -/
def Item.format : Item → String
  | .int n => toString n
  | .str s => s

/-- The two externally supplied hash primitives (pure functions on strings). -/
structure Hashes where
  DataSignerCrc32 : String → String
  DataSignerMd5 : String → String

/-- A buffered channel of items.  `buf` holds the queued values, oldest first,
and `closed` records `close`.  `taken` is a history variable: the values that
have already been received, oldest first; it is never read by the program. -/
structure Chan where
  taken : List Item
  buf : List Item
  closed : Bool
deriving DecidableEq, Repr

/-- The channel returned by `make(chan interface{}, MaxInputDataLen)`. -/
def Chan.make : Chan := ⟨[], [], false⟩

/-- Every value ever sent on the channel, oldest first. -/
def Chan.hist (c : Chan) : List Item := c.taken ++ c.buf

/-- The operation `c <- x` on a buffered channel of capacity `cap` (the
constant `MaxInputDataLen` of the program, a positive number): it panics on a
closed channel and blocks on a full one. -/
def Chan.send (cap : Nat) (x : Item) (c : Chan) : Step Chan :=
  if c.closed then .panic
  else if c.buf.length < cap then .next { c with buf := c.buf ++ [x] }
  else .blocked

/-- One iteration test of `for data := range c`: `next (some x, c')` delivers
the oldest queued value, `next (none, c)` reports that the channel is closed
and drained, and the receive blocks on an empty open channel. -/
def Chan.recv (c : Chan) : Step (Option Item × Chan) :=
  match c.buf with
  | x :: rest => .next (some x, { c with taken := c.taken ++ [x], buf := rest })
  | [] => if c.closed then .next (none, c) else .blocked

/-- The operation `close(c)`. -/
def Chan.close (c : Chan) : Step Chan :=
  if c.closed then .panic else .next { c with closed := true }

/-- The operation `wg.Done()` on a wait-group counter. -/
def wgDone (wg : Nat) : Step Nat :=
  match wg with
  | 0 => .panic
  | n + 1 => .next n

/-- Scheduler choice inside one call of a hash closure: the goroutine running
the closure body, or the `n`-th goroutine it started. -/
inductive CallAct where
  | body
  | worker (n : Nat)
deriving DecidableEq, Repr

/-! ## The closure passed by `SingleHash` (signer.go 49-65) -/

/-- Goroutine of lines 51-53: `h1 <- DataSignerCrc32(data)`. -/
inductive SHW1 where
  | start
  | ready (v : String)
  | done
deriving DecidableEq, Repr

/-- Goroutine of lines 56-62.  `locked` is the program point after
`mux.Lock()` where the call `DataSignerMd5(data)` is in progress, `hashed` the
point after it returned and before `mux.Unlock()`, `unlocked` the point after
`mux.Unlock()`, `ready` the point where `h2 <- ...` waits for its receiver. -/
inductive SHW2 where
  | start
  | locked
  | hashed (m : String)
  | unlocked (m : String)
  | ready (v : String)
  | done
deriving DecidableEq, Repr

/-- The closure body at line 64: it receives from `h1`, then from `h2`
(operands are evaluated left to right), then returns the formatted string. -/
inductive SHBody where
  | recvH1
  | recvH2 (a : String)
  | returned (r : String)
deriving DecidableEq, Repr

/-- One call in progress of the closure of `SingleHash`. -/
structure SHCall where
  data : String
  w1 : SHW1
  w2 : SHW2
  body : SHBody
deriving DecidableEq, Repr

/-- State of the call right after both goroutines have been started. -/
def SHCall.init (data : String) : SHCall := ⟨data, .start, .start, .recvH1⟩

/-- The value returned by the call, once it has returned. -/
def SHCall.result (c : SHCall) : Option String :=
  match c.body with
  | .returned r => some r
  | _ => none

/-- One operation of one goroutine of the call.  The first component of the
state is the mutex `mux` of line 47 (`true` when held), which all calls of one
`SingleHash` invocation share.  `h1` and `h2` are unbuffered, so a send and
its receive happen together; that rendezvous is scheduled as a body step.
`mux.Lock()` blocks while the mutex is held; `mux.Unlock()` is only ever
reached by the goroutine that locked. -/
def SHCall.step (hs : Hashes) : CallAct → Bool × SHCall → Step (Bool × SHCall)
  | .worker 0, (mux, c) =>
    match c.w1 with
    | .start => .next (mux, { c with w1 := .ready (hs.DataSignerCrc32 c.data) })
    | _ => .blocked
  | .worker 1, (mux, c) =>
    match c.w2 with
    | .start => if mux then .blocked else .next (true, { c with w2 := .locked })
    | .locked => .next (mux, { c with w2 := .hashed (hs.DataSignerMd5 c.data) })
    | .hashed m => .next (false, { c with w2 := .unlocked m })
    | .unlocked m => .next (mux, { c with w2 := .ready (hs.DataSignerCrc32 m) })
    | _ => .blocked
  | .worker _, _ => .blocked
  | .body, (mux, c) =>
    match c.body, c.w1, c.w2 with
    | .recvH1, .ready v, _ => .next (mux, { c with w1 := .done, body := .recvH2 v })
    | .recvH2 a, _, .ready v =>
      .next (mux, { c with w2 := .done, body := .returned (a ++ "~" ++ v) })
    | _, _, _ => .blocked

/-- The call `DataSignerMd5(data)` of this closure call is in progress. -/
def SHCall.inMd5 (c : SHCall) : Bool :=
  match c.w2 with
  | .locked => true
  | _ => false

/-! ## The closure passed by `MultiHash` (signer.go 69-89) -/

/-- Goroutine of lines 77-84 for salt `n`: `hashed` after line 80, `locked`
after `mux.Lock()`, `wrote` after `multiHash[n] = hash`, `unlocked` after
`mux.Unlock()`, `done` after the deferred `wg.Done()`. -/
inductive MHW where
  | start
  | hashed (h : String)
  | locked (h : String)
  | wrote
  | unlocked
  | done
deriving DecidableEq, Repr

/-- The closure body: the loop of line 74 about to test index `i`, then
`wg.Wait()`, then returned with the joined string. -/
inductive MHBody where
  | loop (i : Nat)
  | waiting
  | returned (r : String)
deriving DecidableEq, Repr

/-- One call in progress of the closure of `MultiHash`, with its own slice
`multiHash`, mutex `mux` and wait group `wg` (lines 70-72). -/
structure MHCall where
  data : String
  multiHash : List String
  mux : Bool
  wg : Nat
  workers : List MHW
  body : MHBody
deriving DecidableEq, Repr

/-- State of the call after lines 70-72: `make([]string, 6)` is six empty
strings. -/
def MHCall.init (data : String) : MHCall :=
  ⟨data, List.replicate 6 "", false, 0, [], .loop 0⟩

/-- The value returned by the call, once it has returned. -/
def MHCall.result (c : MHCall) : Option String :=
  match c.body with
  | .returned r => some r
  | _ => none

/-- One operation of the `n`-th started goroutine of the call. -/
def MHCall.stepWorker (hs : Hashes) (n : Nat) (c : MHCall) : Step MHCall :=
  match c.workers[n]? with
  | none => .blocked
  | some .start =>
    .next { c with workers := c.workers.set n (.hashed (hs.DataSignerCrc32 (toString n ++ c.data))) }
  | some (.hashed h) =>
    if c.mux then .blocked
    else .next { c with mux := true, workers := c.workers.set n (.locked h) }
  | some (.locked h) =>
    if n < c.multiHash.length then
      .next { c with multiHash := c.multiHash.set n h, workers := c.workers.set n .wrote }
    else .panic
  | some .wrote => .next { c with mux := false, workers := c.workers.set n .unlocked }
  | some .unlocked =>
    (wgDone c.wg).map fun w => { c with wg := w, workers := c.workers.set n .done }
  | some .done => .blocked

/-- One operation of the closure body: a loop iteration (`wg.Add(1)` and the
`go` statement), the loop exit, or `wg.Wait()` followed by
`strings.Join(multiHash, "")`. -/
def MHCall.stepBody (c : MHCall) : Step MHCall :=
  match c.body with
  | .loop i =>
    if i < c.multiHash.length then
      .next { c with wg := c.wg + 1, workers := c.workers ++ [.start], body := .loop (i + 1) }
    else .next { c with body := .waiting }
  | .waiting => if c.wg = 0 then .next { c with body := .returned (String.join c.multiHash) }
    else .blocked
  | .returned _ => .blocked

/-- One operation of one goroutine of the call.  The closure of `MultiHash`
captures nothing shared, hence the environment component is `Unit`. -/
def MHCall.step (hs : Hashes) : CallAct → Unit × MHCall → Step (Unit × MHCall)
  | .body, (u, c) => (MHCall.stepBody c).map fun c' => (u, c')
  | .worker n, (u, c) => (MHCall.stepWorker hs n c).map fun c' => (u, c')


/-! ## `sendHashedStr` (signer.go 30-44) -/

/-- Executable model of a `func(string) string` value whose calls run
goroutines: `E` is the state of the variables the closure captures and shares
between its calls, `C` the state of one call in progress. -/
structure HashFn (E C : Type) where
  init : String → C
  step : CallAct → E × C → Step (E × C)
  result : C → Option String

/-- Goroutine of lines 36-40, started with argument `str`: `calling` while
`hashFn(str)` runs and until its value has been sent on `out`, `sent` after
the send, `done` after the deferred `wg.Done()`. -/
inductive Task (C : Type) where
  | calling (str : String) (c : C)
  | sent
  | done
deriving DecidableEq, Repr

/-- Program point of the goroutine that runs `sendHashedStr` itself: in the
`range` loop, in `wg.Wait()`, or returned. -/
inductive SendPhase where
  | ranging
  | waiting
  | returned
deriving DecidableEq, Repr

/-- State of one invocation of `sendHashedStr`: the captured variables of
`hashFn`, the program point, the counter of the wait group of line 31 and the
goroutines started so far, oldest first. -/
structure Send (E C : Type) where
  env : E
  phase : SendPhase
  wg : Nat
  tasks : List (Task C)
deriving DecidableEq, Repr

/-- Scheduler choice inside a task goroutine: an operation of the running
`hashFn` call, the send on `out`, or the deferred `wg.Done()`. -/
inductive TaskAct where
  | call (a : CallAct)
  | send
  | done
deriving DecidableEq, Repr

/-- Scheduler choice inside a job: the goroutine running the job function
itself, or the `k`-th goroutine it started. -/
inductive JobAct where
  | self
  | task (k : Nat) (a : TaskAct)
deriving DecidableEq, Repr

/-- A job state together with the two channels the job was given.  The input
of the first job of a pipeline is the nil channel, `none`. -/
structure Wired (σ : Type) where
  inp : Option Chan
  st : σ
  out : Chan
deriving DecidableEq, Repr

/-- One operation of the goroutine running `sendHashedStr`: one iteration of
the `range` loop (receive, `wg.Add(1)`, `go` with the formatted item) or its
exit when `in` is closed and drained, then `wg.Wait()`.  Receiving from the
nil channel blocks forever. -/
def sendHashedStr.stepSelf {E C : Type} (f : HashFn E C) (w : Wired (Send E C)) :
    Step (Wired (Send E C)) :=
  match w.st.phase with
  | .ranging =>
    match w.inp with
    | none => .blocked
    | some c =>
      match c.recv with
      | .next (some x, c') =>
        .next { w with
          inp := some c'
          st := { w.st with wg := w.st.wg + 1
                            tasks := w.st.tasks ++ [.calling x.format (f.init x.format)] } }
      | .next (none, _) => .next { w with st := { w.st with phase := .waiting } }
      | _ => .blocked
  | .waiting =>
    if w.st.wg = 0 then .next { w with st := { w.st with phase := .returned } } else .blocked
  | .returned => .blocked

/-- One operation of the `k`-th task goroutine of `sendHashedStr`. -/
def sendHashedStr.stepTask {E C : Type} (cap : Nat) (f : HashFn E C) (k : Nat) (a : TaskAct)
    (w : Wired (Send E C)) : Step (Wired (Send E C)) :=
  match w.st.tasks[k]?, a with
  | some (.calling str c), .call a' =>
    (f.step a' (w.st.env, c)).map fun ec =>
      { w with st := { w.st with env := ec.1, tasks := w.st.tasks.set k (.calling str ec.2) } }
  | some (.calling _ c), .send =>
    match f.result c with
    | some r =>
      (Chan.send cap (.str r) w.out).map fun o =>
        { w with out := o, st := { w.st with tasks := w.st.tasks.set k .sent } }
    | none => .blocked
  | some .sent, .done =>
    (wgDone w.st.wg).map fun n =>
      { w with st := { w.st with wg := n, tasks := w.st.tasks.set k .done } }
  | _, _ => .blocked

/-- One operation of one goroutine of `sendHashedStr(in, out, hashFn)`, for
output channels of capacity `cap`. -/
def sendHashedStr {E C : Type} (cap : Nat) (f : HashFn E C) :
    JobAct → Wired (Send E C) → Step (Wired (Send E C))
  | .self, w => sendHashedStr.stepSelf f w
  | .task k a, w => sendHashedStr.stepTask cap f k a w

/-- State of `sendHashedStr` on entry, for captured variables `e`. -/
def Send.init {E C : Type} (e : E) : Send E C := ⟨e, .ranging, 0, []⟩

/-! ## The three stages (signer.go 46-101) -/

/-- The closure that `SingleHash` passes to `sendHashedStr`. -/
def SingleHash.hashFn (hs : Hashes) : HashFn Bool SHCall :=
  ⟨SHCall.init, SHCall.step hs, SHCall.result⟩

/-- The closure that `MultiHash` passes to `sendHashedStr`. -/
def MultiHash.hashFn (hs : Hashes) : HashFn Unit MHCall :=
  ⟨MHCall.init, MHCall.step hs, MHCall.result⟩

/-- `SingleHash(in, out)`: a fresh unlocked mutex, then `sendHashedStr`. -/
def SingleHash (cap : Nat) (hs : Hashes) :
    JobAct → Wired (Send Bool SHCall) → Step (Wired (Send Bool SHCall)) :=
  sendHashedStr cap (SingleHash.hashFn hs)

/-- `MultiHash(in, out)`. -/
def MultiHash (cap : Nat) (hs : Hashes) :
    JobAct → Wired (Send Unit MHCall) → Step (Wired (Send Unit MHCall)) :=
  sendHashedStr cap (MultiHash.hashFn hs)

/-- Go's `<=` on strings: lexicographic comparison, character by character. -/
def strLe (a b : String) : Prop := a.toList ≤ b.toList

instance strLe.decidable : DecidableRel strLe :=
  fun a b => inferInstanceAs (Decidable (a.toList ≤ b.toList))

/-- `sort.Strings`: the ascending rearrangement of the slice.  The order is
total and antisymmetric, so the sorted slice does not depend on the sorting
algorithm; insertion sort stands for the library routine. -/
def sortStrings (l : List String) : List String :=
  l.insertionSort strLe

/-- The value `CombineResults` computes from the collected strings:
`sort.Strings` followed by `strings.Join(results, "_")`. -/
def CombineResults.value (results : List String) : String :=
  String.intercalate "_" (sortStrings results)

/-- Program point of `CombineResults`: in the `range` loop with the slice
`results` collected so far, about to send the joined string, or returned. -/
inductive Combine where
  | ranging (results : List String)
  | sending (v : String)
  | returned
deriving DecidableEq, Repr

/-- One operation of `CombineResults(in, out)`; it starts no goroutine. -/
def CombineResults (cap : Nat) : JobAct → Wired Combine → Step (Wired Combine)
  | .self, w =>
    match w.st with
    | .ranging results =>
      match w.inp with
      | none => .blocked
      | some c =>
        match c.recv with
        | .next (some x, c') =>
          .next { w with inp := some c', st := .ranging (results ++ [x.format]) }
        | .next (none, _) => .next { w with st := .sending (CombineResults.value results) }
        | _ => .blocked
    | .sending v =>
      (Chan.send cap (.str v) w.out).map fun o => { w with out := o, st := .returned }
    | .returned => .blocked
  | .task _ _, _ => .blocked

/-! ## Jobs and `ExecutePipeline` (signer.go 10-28) -/

/-- The jobs a pipeline is built from: the three stages of `signer.go` and
the job a caller puts first to feed a batch. -/
inductive Job where
  /-- Modelled from the spec: the source of the items that "enter" the
  pipeline, a job supplied by the caller that ignores its input, sends the
  items of a fixed batch on its output in order and returns. -/
  | feed (xs : List Item)
  | SingleHash
  | MultiHash
  | CombineResults
deriving DecidableEq, Repr

/-- State of a running job.  The feeding job is at index `i` of its batch. -/
inductive JobState where
  | feed (xs : List Item) (i : Nat)
  | singleHash (s : Send Bool SHCall)
  | multiHash (s : Send Unit MHCall)
  | combine (c : Combine)
deriving DecidableEq, Repr

/-- State of a job when its goroutine starts. -/
def Job.start : Job → JobState
  | .feed xs => .feed xs 0
  | .SingleHash => .singleHash (Send.init false)
  | .MultiHash => .multiHash (Send.init ())
  | .CombineResults => .combine (.ranging [])

/-- The job function has returned. -/
def JobState.returned : JobState → Bool
  | .feed xs i => decide (xs.length ≤ i)
  | .singleHash s => decide (s.phase = .returned)
  | .multiHash s => decide (s.phase = .returned)
  | .combine c => decide (c = .returned)

/-- One operation of one goroutine of a running job. -/
def JobState.step (cap : Nat) (hs : Hashes) (a : JobAct) (w : Wired JobState) :
    Step (Wired JobState) :=
  match w.st with
  | .feed xs i =>
    match a, xs[i]? with
    | .self, some x =>
      (Chan.send cap x w.out).map fun o => { w with out := o, st := .feed xs (i + 1) }
    | _, _ => .blocked
  | .singleHash s =>
    (SingleHash cap hs a ⟨w.inp, s, w.out⟩).map fun r => ⟨r.inp, .singleHash r.st, r.out⟩
  | .multiHash s =>
    (MultiHash cap hs a ⟨w.inp, s, w.out⟩).map fun r => ⟨r.inp, .multiHash r.st, r.out⟩
  | .combine c =>
    (CombineResults cap a ⟨w.inp, c, w.out⟩).map fun r => ⟨r.inp, .combine r.st, r.out⟩

/-- Program point of the goroutine of lines 19-24: `running` inside `j(in,
out)`, `closed` after the deferred `close(out)`, `finished` after the deferred
`wg.Done()` (deferred calls run last-in first-out). -/
inductive RunPhase where
  | running
  | closed
  | finished
deriving DecidableEq, Repr

/-- A stage goroutine of `ExecutePipeline`: its job and its program point. -/
structure Stage where
  job : JobState
  phase : RunPhase
deriving DecidableEq, Repr

/-- Scheduler choice inside a stage goroutine: an operation of the job, or
the next deferred call of the wrapper. -/
inductive StageAct where
  | job (a : JobAct)
  | exit
deriving DecidableEq, Repr

/-- What one stage goroutine can touch: the wait group of `ExecutePipeline`,
its input channel, its own state and its output channel. -/
structure Local where
  wg : Nat
  inp : Option Chan
  st : Stage
  out : Chan
deriving DecidableEq, Repr

/-- One operation of a stage goroutine (the `go func` of lines 19-24). -/
def Stage.step (cap : Nat) (hs : Hashes) : StageAct → Local → Step Local
  | .job a, l =>
    match l.st.phase with
    | .running =>
      (JobState.step cap hs a ⟨l.inp, l.st.job, l.out⟩).map fun r =>
        { l with inp := r.inp, st := { l.st with job := r.st }, out := r.out }
    | _ => .blocked
  | .exit, l =>
    match l.st.phase with
    | .running =>
      if l.st.job.returned then
        (Chan.close l.out).map fun o => { l with out := o, st := { l.st with phase := .closed } }
      else .blocked
    | .closed =>
      (wgDone l.wg).map fun n => { l with wg := n, st := { l.st with phase := .finished } }
    | .finished => .blocked

/-- A started stage: its goroutine and the channel made for its output. -/
structure Cell where
  st : Stage
  out : Chan
deriving DecidableEq, Repr

/-- The output channel of the most recently started stage, which is the
input of the stage started next; `nil` before the first stage. -/
def lastOut : List Cell → Option Chan
  | [] => none
  | c :: _ => some c.out

/-- Writes back the input channel of a stage into the cell of its producer. -/
def setLastOut : Option Chan → List Cell → List Cell
  | some o, c :: rest => { c with out := o } :: rest
  | _, cells => cells

/-- One operation of the stage with index `i` (the first job has index `0`).
The started stages are kept most recent first, so stage `i` is the cell with
`i` cells after it, and its input is the output of the cell that follows. -/
def stepCells (cap : Nat) (hs : Hashes) (a : StageAct) (i : Nat) (wg : Nat) :
    List Cell → Step (Nat × List Cell)
  | [] => .blocked
  | c :: rest =>
    if i = rest.length then
      (Stage.step cap hs a ⟨wg, lastOut rest, c.st, c.out⟩).map fun l =>
        (l.wg, ⟨l.st, l.out⟩ :: setLastOut l.inp rest)
    else
      (stepCells cap hs a i wg rest).map fun r => (r.1, c :: r.2)

/-- Program point of the goroutine that called `ExecutePipeline`: in the loop
of line 15 with the jobs still to start, in `wg.Wait()`, or returned. -/
inductive Main where
  | spawning (todo : List Job)
  | waiting
  | returned
deriving DecidableEq, Repr

/-- Global state of one run of `ExecutePipeline`. -/
structure Pipeline where
  main : Main
  wg : Nat
  cells : List Cell
  crashed : Bool
deriving DecidableEq, Repr

/-- Scheduler choice of a run: the caller of `ExecutePipeline`, or an
operation of the stage with index `i`. -/
inductive Label where
  | main
  | stage (i : Nat) (a : StageAct)
deriving DecidableEq, Repr

/-- State after lines 11-13 of `ExecutePipeline(jobs...)`: no channel, the
wait-group counter at `len(jobs)`, the loop about to start. -/
def ExecutePipeline (jobs : List Job) : Pipeline :=
  ⟨.spawning jobs, jobs.length, [], false⟩

/-- One operation of the goroutine that called `ExecutePipeline`: one loop
iteration (make the output channel, start the stage goroutine), the loop
exit, or `wg.Wait()`. -/
def Pipeline.stepMain (s : Pipeline) : Step Pipeline :=
  match s.main with
  | .spawning (j :: rest) =>
    .next { s with main := .spawning rest
                   cells := ⟨⟨j.start, .running⟩, Chan.make⟩ :: s.cells }
  | .spawning [] => .next { s with main := .waiting }
  | .waiting => if s.wg = 0 then .next { s with main := .returned } else .blocked
  | .returned => .blocked

/-- One scheduled operation of the whole program.  `none` when the chosen
goroutine cannot move or the program has crashed; a panic of any goroutine
crashes the program. -/
def Pipeline.step (cap : Nat) (hs : Hashes) (lb : Label) (s : Pipeline) : Option Pipeline :=
  if s.crashed then none
  else
    match lb with
    | .main =>
      match s.stepMain with
      | .next s' => some s'
      | .panic => some { s with crashed := true }
      | .blocked => none
    | .stage i a =>
      match stepCells cap hs a i s.wg s.cells with
      | .next r => some { s with wg := r.1, cells := r.2 }
      | .panic => some { s with crashed := true }
      | .blocked => none

/-- Runs a schedule of operations of one component on its own (a hash
closure call, a job between two given channels); `none` when some chosen
goroutine is blocked or panics. -/
def runSteps {α σ : Type} (step : α → σ → Step σ) : List α → σ → Option σ
  | [], s => some s
  | a :: rest, s =>
    match step a s with
    | .next s' => runSteps step rest s'
    | _ => none

/-- Runs a schedule; `none` when some chosen goroutine could not move. -/
def Pipeline.run (cap : Nat) (hs : Hashes) : List Label → Pipeline → Option Pipeline
  | [], s => some s
  | lb :: rest, s =>
    match Pipeline.step cap hs lb s with
    | some s' => Pipeline.run cap hs rest s'
    | none => none

/-! ## What the stages compute, and the invariants of a run -/

/-- The string `SingleHash` is to emit for an item of string form `s`. -/
def SingleHash.item (hs : Hashes) (s : String) : String :=
  hs.DataSignerCrc32 s ++ "~" ++ hs.DataSignerCrc32 (hs.DataSignerMd5 s)

/-- The string `MultiHash` is to emit for an item of string form `s`. -/
def MultiHash.item (hs : Hashes) (s : String) : String :=
  hs.DataSignerCrc32 ("0" ++ s) ++ hs.DataSignerCrc32 ("1" ++ s)
    ++ hs.DataSignerCrc32 ("2" ++ s) ++ hs.DataSignerCrc32 ("3" ++ s)
    ++ hs.DataSignerCrc32 ("4" ++ s) ++ hs.DataSignerCrc32 ("5" ++ s)

/-- A mutex as a number of holders. -/
def held (mux : Bool) : Nat := if mux then 1 else 0

/-- The worker of lines 56-62 holds the mutex. -/
def SHCall.holds (c : SHCall) : Nat :=
  match c.w2 with
  | .locked => 1
  | .hashed _ => 1
  | _ => 0

/-- Consistency of a call of the `SingleHash` closure on `s`: every value a
goroutine carries is the one computed from `s`, and the body has received
exactly from the workers that are done. -/
def SHCall.Ok (hs : Hashes) (s : String) (c : SHCall) : Prop :=
  c.data = s ∧
  (match c.w1 with
    | .ready v => v = hs.DataSignerCrc32 s
    | _ => True) ∧
  (match c.w2 with
    | .hashed m => m = hs.DataSignerMd5 s
    | .unlocked m => m = hs.DataSignerMd5 s
    | .ready v => v = hs.DataSignerCrc32 (hs.DataSignerMd5 s)
    | _ => True) ∧
  (match c.body with
    | .recvH1 => c.w1 ≠ .done ∧ c.w2 ≠ .done
    | .recvH2 a => a = hs.DataSignerCrc32 s ∧ c.w1 = .done ∧ c.w2 ≠ .done
    | .returned r => r = SingleHash.item hs s ∧ c.w1 = .done ∧ c.w2 = .done)

/-- Number of operations the goroutines of a `SingleHash` call still have to
perform. -/
def SHCall.todo (c : SHCall) : Nat :=
  (match c.w1 with
    | .start => 1
    | _ => 0) +
  (match c.w2 with
    | .start => 4
    | .locked => 3
    | .hashed _ => 2
    | .unlocked _ => 1
    | _ => 0) +
  (match c.body with
    | .recvH1 => 2
    | .recvH2 _ => 1
    | .returned _ => 0)

/-- A worker of `MultiHash` that has not run its deferred `wg.Done()`. -/
def MHW.live : MHW → Nat
  | .done => 0
  | _ => 1

/-- A worker of `MultiHash` that holds the mutex of its call. -/
def MHW.holds : MHW → Nat
  | .locked _ => 1
  | .wrote => 1
  | _ => 0

/-- Consistency of worker `n` of a `MultiHash` call on `s`: the hash it
carries is the one of salt `n`, and once it has written, slot `n` holds it. -/
def MHW.Ok (hs : Hashes) (s : String) (multiHash : List String) (n : Nat) : MHW → Prop
  | .start => True
  | .hashed h => h = hs.DataSignerCrc32 (toString n ++ s)
  | .locked h => h = hs.DataSignerCrc32 (toString n ++ s)
  | _ => multiHash[n]? = some (hs.DataSignerCrc32 (toString n ++ s))

/-- Consistency of a call of the `MultiHash` closure on `s`. -/
def MHCall.Ok (hs : Hashes) (s : String) (c : MHCall) : Prop :=
  c.data = s ∧ c.multiHash.length = 6 ∧
  c.wg = (c.workers.map MHW.live).sum ∧
  held c.mux = (c.workers.map MHW.holds).sum ∧
  (∀ (n : Nat) (w : MHW), c.workers[n]? = some w → w.Ok hs s c.multiHash n) ∧
  (match c.body with
    | .loop i => c.workers.length = i ∧ i ≤ 6
    | .waiting => c.workers.length = 6
    | .returned r => r = MultiHash.item hs s ∧ c.workers.length = 6 ∧ c.wg = 0)

/-- Number of operations a worker of `MultiHash` still has to perform. -/
def MHW.todo : MHW → Nat
  | .start => 5
  | .hashed _ => 4
  | .locked _ => 3
  | .wrote => 2
  | .unlocked => 1
  | .done => 0

/-- Number of operations the goroutines of a `MultiHash` call still have to
perform, those of the workers not yet started included. -/
def MHCall.todo (c : MHCall) : Nat :=
  (c.workers.map MHW.todo).sum +
  (match c.body with
    | .loop i => 6 * (c.multiHash.length - i) + 2
    | .waiting => 1
    | .returned _ => 0)

/-- What a hash closure is to compute and maintain: the string `item s` it
returns on `s`, the consistency `Inv s` of a call on `s`, and the accounting
of the mutex it captures (`held` for the captured variables, `holds` for a
call). -/
structure HashFn.Spec (E C : Type) where
  item : String → String
  Inv : String → C → Prop
  held : E → Nat
  holds : C → Nat

/-- A hash closure meets its specification: calls start consistent and stay
so, never panic, account for the mutex, return `item s`, and a call that has
not returned can move whenever the mutex is free or held by itself. -/
structure HashFn.Sound {E C : Type} (f : HashFn E C) (sp : HashFn.Spec E C) : Prop where
  init : ∀ s, sp.Inv s (f.init s) ∧ sp.holds (f.init s) = 0
  step : ∀ s a e c e' c', sp.Inv s c → sp.holds c ≤ sp.held e →
    f.step a (e, c) = .next (e', c') →
    sp.Inv s c' ∧ sp.held e' + sp.holds c = sp.held e + sp.holds c'
  safe : ∀ s a e c, sp.Inv s c → f.step a (e, c) ≠ .panic
  result : ∀ s c r, sp.Inv s c → f.result c = some r → r = sp.item s ∧ sp.holds c = 0
  bound : ∀ e, sp.held e ≤ 1
  progress : ∀ s e c, sp.Inv s c → sp.held e ≤ sp.holds c → f.result c = none →
    ∃ a x, f.step a (e, c) = .next x

/-- Specification of the closure of `SingleHash`. -/
def SingleHash.spec (hs : Hashes) : HashFn.Spec Bool SHCall :=
  ⟨SingleHash.item hs, SHCall.Ok hs, held, SHCall.holds⟩

/-- Specification of the closure of `MultiHash`; it captures no mutex. -/
def MultiHash.spec (hs : Hashes) : HashFn.Spec Unit MHCall :=
  ⟨MultiHash.item hs, MHCall.Ok hs, fun _ => 0, fun _ => 0⟩

/-- A task goroutine that has not run its deferred `wg.Done()`. -/
def Task.live {C : Type} : Task C → Nat
  | .done => 0
  | _ => 1

/-- Mutex accounting of a task goroutine. -/
def Task.holds {E C : Type} (sp : HashFn.Spec E C) : Task C → Nat
  | .calling _ c => sp.holds c
  | _ => 0

/-- The item a task goroutine has still to send. -/
def Task.pending {C : Type} (item : String → String) : Task C → Multiset Item
  | .calling s _ => {Item.str (item s)}
  | _ => 0

/-- Consistency of a task goroutine. -/
def Task.Ok {E C : Type} (sp : HashFn.Spec E C) : Task C → Prop
  | .calling s c => sp.Inv s c
  | _ => True

/-- The values a job has received from its input so far. -/
def takenOf : Option Chan → List Item
  | none => []
  | some c => c.taken

/-- The input is closed and every value sent on it has been received. -/
def Drained : Option Chan → Prop
  | none => False
  | some c => c.closed = true ∧ c.buf = []

/-- Invariant of `sendHashedStr` between its two channels: the wait-group
counter counts the live tasks, the mutex is held by one task or by none, the
images of the items received are the items sent together with those still to
send, the loop is left only when the input is drained, and the function
returns only with the counter at zero. -/
def Send.Ok {E C : Type} (sp : HashFn.Spec E C) (inp : Option Chan) (s : Send E C)
    (out : Chan) : Prop :=
  s.wg = (s.tasks.map Task.live).sum ∧
  sp.held s.env = (s.tasks.map (Task.holds sp)).sum ∧
  Multiset.ofList ((takenOf inp).map fun x => Item.str (sp.item x.format))
    = Multiset.ofList out.hist + (s.tasks.map (Task.pending sp.item)).sum ∧
  (∀ (k : Nat) (t : Task C), s.tasks[k]? = some t → t.Ok sp) ∧
  (s.phase ≠ .ranging → Drained inp) ∧
  (s.phase = .returned → s.wg = 0)

/-- Effect of an operation of its consumer on a channel: nothing but a
receive. -/
def Consumed : Option Chan → Option Chan → Prop
  | none, none => True
  | some c, some c' => c'.hist = c.hist ∧ c'.closed = c.closed ∧ (c.buf = [] → c' = c)
  | _, _ => False

/-- Effect of an operation of its producer on a channel: the received values
are untouched and a closed channel does not change. -/
def Produced (c c' : Chan) : Prop :=
  c'.taken = c.taken ∧ (c.closed = true → c' = c)

/-- Invariant of `CombineResults` between its two channels: the slice holds
the string forms of the items received, in order; the value is computed only
once the input is drained, and it is the only value ever sent. -/
def Combine.Ok (inp : Option Chan) : Combine → Chan → Prop
  | .ranging results, out => results = (takenOf inp).map Item.format ∧ out.hist = []
  | .sending v, out =>
    Drained inp ∧ v = CombineResults.value ((takenOf inp).map Item.format) ∧ out.hist = []
  | .returned, out =>
    Drained inp ∧ out.hist = [.str (CombineResults.value ((takenOf inp).map Item.format))]

/-- The job a job state is a run of. -/
def JobState.job : JobState → Job
  | .feed xs _ => .feed xs
  | .singleHash _ => .SingleHash
  | .multiHash _ => .MultiHash
  | .combine _ => .CombineResults

/-- Invariant of a running job between its two channels. -/
def JobState.Ok (hs : Hashes) (inp : Option Chan) : JobState → Chan → Prop
  | .feed xs i, out => out.hist = xs.take i
  | .singleHash s, out => Send.Ok (SingleHash.spec hs) inp s out
  | .multiHash s, out => Send.Ok (MultiHash.spec hs) inp s out
  | .combine c, out => Combine.Ok inp c out

/-- Invariant of a stage goroutine: its job is consistent, and its output is
closed exactly when the goroutine has left the job function, which has then
returned. -/
def Stage.Ok (hs : Hashes) (inp : Option Chan) (st : Stage) (out : Chan) : Prop :=
  st.job.Ok hs inp out ∧
  (match st.phase with
    | .running => out.closed = false
    | _ => out.closed = true ∧ st.job.returned = true)

/-- A stage goroutine that has not run its deferred `wg.Done()`. -/
def Stage.live (st : Stage) : Nat :=
  match st.phase with
  | .finished => 0
  | _ => 1

/-- Every started stage is consistent with its input and output channels. -/
def CellsOk (hs : Hashes) : List Cell → Prop
  | [] => True
  | c :: rest => Stage.Ok hs (lastOut rest) c.st c.out ∧ CellsOk hs rest

/-- Number of stage goroutines that have not run their `wg.Done()`. -/
def liveCells (cells : List Cell) : Nat :=
  (cells.map fun c => c.st.live).sum

/-- The jobs of the started stages, first job first. -/
def jobsOf (cells : List Cell) : List Job :=
  (cells.map fun c => c.st.job.job).reverse

/-- The jobs `ExecutePipeline` has still to start. -/
def Main.todo : Main → List Job
  | .spawning t => t
  | _ => []

/-- Invariant of a run of `ExecutePipeline(jobs...)`: no goroutine has
panicked, every stage is consistent, the wait-group counter counts the stages
not yet finished, the started stages are the first jobs in order, nothing has
been received from the output of the last started stage, and the caller has
returned only with the counter at zero. -/
def Pipeline.Ok (hs : Hashes) (jobs : List Job) (s : Pipeline) : Prop :=
  s.crashed = false ∧ CellsOk hs s.cells ∧
  s.wg = s.main.todo.length + liveCells s.cells ∧
  jobsOf s.cells ++ s.main.todo = jobs ∧
  takenOf (lastOut s.cells) = [] ∧
  (s.main = .returned → s.wg = 0)

/-- A state of `ExecutePipeline(jobs...)` reached under some schedule. -/
def Reachable (cap : Nat) (hs : Hashes) (jobs : List Job) (s : Pipeline) : Prop :=
  ∃ sched, Pipeline.run cap hs sched (ExecutePipeline jobs) = some s

/-- Number of calls of `DataSignerMd5` in progress in a task goroutine of
`SingleHash`: one or none. -/
def Task.md5Running : Task SHCall → Nat
  | .calling _ c => if c.inMd5 then 1 else 0
  | _ => 0

/-- Number of calls of `DataSignerMd5` in progress in a job. -/
def JobState.md5Running : JobState → Nat
  | .singleHash s => (s.tasks.map Task.md5Running).sum
  | _ => 0

/-- Number of calls of `DataSignerMd5` in progress in the whole program. -/
def Pipeline.md5Running (s : Pipeline) : Nat :=
  (s.cells.map fun c => c.st.job.md5Running).sum

/-- A channel on which `xs` has been sent and which has then been closed,
nothing having been received yet. -/
def Chan.closedWith (xs : List Item) : Chan := ⟨[], xs, true⟩

/-- `CombineResults` about to start on an input holding `xs`. -/
def Combine.fed (xs : List Item) : Wired Combine :=
  ⟨some (Chan.closedWith xs), .ranging [], Chan.make⟩

/-- The input of the cell that follows `pre` in the list of started stages. -/
def inputAfter (rest : List Cell) : Option Chan := lastOut rest

/-- Every value ever sent on the input of a job. -/
def histOf : Option Chan → List Item
  | none => []
  | some c => c.hist

/-- Every task goroutine of a hashing job has run to its end. -/
def Send.allDone {E C : Type} (s : Send E C) : Prop :=
  ∀ t ∈ s.tasks, t = Task.done

/-- Two sample primitives for concrete runs: they put a letter in front of
their argument. -/
def Hashes.sample : Hashes := ⟨fun s => "c" ++ s, fun s => "m" ++ s⟩

/-- A job is `SingleHash`. -/
def Job.isSingleHash : Job → Bool
  | .SingleHash => true
  | _ => false

/-! ## Schedules of complete runs, for concrete executions -/

/-- All operations of task `k` of the hashing stage `i` running the closure
of `SingleHash`: the md5 goroutine first, then the crc32 goroutine, the two
receives of the body, the send on `out` and `wg.Done()`. -/
def Sched.singleHashTask (i k : Nat) : List Label :=
  ([.worker 1, .worker 1, .worker 1, .worker 1, .worker 0, .body, .body].map
    fun a => Label.stage i (.job (.task k (.call a))))
  ++ [.stage i (.job (.task k .send)), .stage i (.job (.task k .done))]

/-- All operations of task `k` of the hashing stage `i` running the closure
of `MultiHash`: the loop starts the six goroutines and exits, the goroutines
run one after the other, highest salt first, then the body joins, the task
sends on `out` and runs `wg.Done()`. -/
def Sched.multiHashTask (i k : Nat) : List Label :=
  ((List.replicate 7 CallAct.body
      ++ ([5, 4, 3, 2, 1, 0].flatMap fun n => List.replicate 5 (CallAct.worker n))
      ++ [CallAct.body]).map
    fun a => Label.stage i (.job (.task k (.call a))))
  ++ [.stage i (.job (.task k .send)), .stage i (.job (.task k .done))]

/-- A complete run of `ExecutePipeline(feed [x], SingleHash, MultiHash,
CombineResults)`, stage after stage. -/
def Sched.signOne : List Label :=
  List.replicate 5 Label.main
  ++ [.stage 0 (.job .self), .stage 0 .exit, .stage 0 .exit]
  ++ [.stage 1 (.job .self)] ++ Sched.singleHashTask 1 0
  ++ [.stage 1 (.job .self), .stage 1 (.job .self), .stage 1 .exit, .stage 1 .exit]
  ++ [.stage 2 (.job .self)] ++ Sched.multiHashTask 2 0
  ++ [.stage 2 (.job .self), .stage 2 (.job .self), .stage 2 .exit, .stage 2 .exit]
  ++ [.stage 3 (.job .self), .stage 3 (.job .self), .stage 3 (.job .self),
      .stage 3 .exit, .stage 3 .exit]
  ++ [.main]

/-- A complete run of `ExecutePipeline(feed [x, y], SingleHash)` in which the
second item is hashed and sent before the first. -/
def Sched.hashTwo : List Label :=
  List.replicate 3 Label.main
  ++ [.stage 0 (.job .self), .stage 0 (.job .self), .stage 0 .exit, .stage 0 .exit]
  ++ [.stage 1 (.job .self), .stage 1 (.job .self)]
  ++ Sched.singleHashTask 1 1 ++ Sched.singleHashTask 1 0
  ++ [.stage 1 (.job .self), .stage 1 (.job .self), .stage 1 .exit, .stage 1 .exit]
  ++ [.main]

/-- A run of `ExecutePipeline(feed [x, y], SingleHash, SingleHash)` up to a
point where each of the two `SingleHash` stages has locked its own mutex and
is inside `DataSignerMd5`. -/
def Sched.overlap : List Label :=
  [.main, .main, .main,
   .stage 0 (.job .self), .stage 0 (.job .self),
   .stage 1 (.job .self), .stage 1 (.job .self)]
  ++ (Sched.singleHashTask 1 0).take 8
  ++ [.stage 2 (.job .self),
      .stage 2 (.job (.task 0 (.call (.worker 1)))),
      .stage 1 (.job (.task 1 (.call (.worker 1))))]

/-- The state in which the run `Sched.signOne` ends on the batch `[0]` with
the sample primitives. -/
def Sched.signOneEnd : Pipeline :=
  ⟨.returned, 0,
    [⟨⟨.combine .returned, .finished⟩,
        ⟨[], [.str "c0c0~cm0c1c0~cm0c2c0~cm0c3c0~cm0c4c0~cm0c5c0~cm0"], true⟩⟩,
      ⟨⟨.multiHash ⟨(), .returned, 0, [.done]⟩, .finished⟩,
        ⟨[.str "c0c0~cm0c1c0~cm0c2c0~cm0c3c0~cm0c4c0~cm0c5c0~cm0"], [], true⟩⟩,
      ⟨⟨.singleHash ⟨false, .returned, 0, [.done]⟩, .finished⟩, ⟨[.str "c0~cm0"], [], true⟩⟩,
      ⟨⟨.feed [.int 0] 1, .finished⟩, ⟨[.int 0], [], true⟩⟩],
    false⟩

/-- The state in which the run `Sched.hashTwo` ends on the batch `[1, "a"]`
with the sample primitives. -/
def Sched.hashTwoEnd : Pipeline :=
  ⟨.returned, 0,
    [⟨⟨.singleHash ⟨false, .returned, 0, [.done, .done]⟩, .finished⟩,
        ⟨[], [.str "ca~cma", .str "c1~cm1"], true⟩⟩,
      ⟨⟨.feed [.int 1, .str "a"] 2, .finished⟩, ⟨[.int 1, .str "a"], [], true⟩⟩],
    false⟩

/-- A short run of `ExecutePipeline(feed [1], SingleHash)` up to a point
inside `DataSignerMd5`. -/
def Sched.insideMd5 : List Label :=
  [.main, .main, .stage 0 (.job .self), .stage 1 (.job .self),
   .stage 1 (.job (.task 0 (.call (.worker 1))))]

/-- The state in which the run `Sched.insideMd5` ends. -/
def Sched.insideMd5End : Pipeline :=
  ⟨.spawning [], 2,
    [⟨⟨.singleHash ⟨true, .ranging, 1, [.calling "1" ⟨"1", .start, .locked, .recvH1⟩]⟩,
        .running⟩, ⟨[], [], false⟩⟩,
      ⟨⟨.feed [.int 1] 1, .running⟩, ⟨[.int 1], [], false⟩⟩],
    false⟩

/-- A run of `ExecutePipeline(feed [1], SingleHash)` up to the point where
the feeder has returned and its goroutine is about to close its output. -/
def Sched.beforeClose : List Label :=
  [.main, .main, .stage 0 (.job .self)]

/-- The state in which the run `Sched.beforeClose` ends. -/
def Sched.beforeCloseEnd : Pipeline :=
  ⟨.spawning [], 2,
    [⟨⟨.singleHash ⟨false, .ranging, 0, []⟩, .running⟩, ⟨[], [], false⟩⟩,
      ⟨⟨.feed [.int 1] 1, .running⟩, ⟨[], [.int 1], false⟩⟩],
    false⟩

/-! ## Progress and termination of a pipeline -/

/-- A job is a feeder. -/
def JobState.isFeed : JobState → Bool
  | .feed _ _ => true
  | _ => false

/-- A job is `CombineResults`. -/
def JobState.isCombine : JobState → Bool
  | .combine _ => true
  | _ => false

/-- The first started stage, and only that one, is a feeder. -/
def Fed : List Cell → Prop
  | [] => True
  | c :: rest => (rest = [] ↔ c.st.job.isFeed = true) ∧ Fed rest

/-- A stage goroutine that can only wait for room in its full output: it is
inside a job other than `CombineResults`, and its open output is full. -/
def Blocked (cap : Nat) (c : Cell) : Prop :=
  c.st.phase = .running ∧ c.out.closed = false ∧ cap ≤ c.out.buf.length
    ∧ c.st.job.isCombine = false

/-- A list of jobs that starts with a feeder, has no other feeder, and ends
with `CombineResults`. -/
def WellFormed (jobs : List Job) : Prop :=
  ∃ xs mid, jobs = .feed xs :: (mid ++ [.CombineResults]) ∧ ∀ j ∈ mid, ∀ ys, j ≠ .feed ys

/-- Operations a task goroutine has still to perform, given the number of
operations left in a call. -/
def Task.cost {C : Type} (todo : C → Nat) : Task C → Nat
  | .calling _ c => todo c + 2
  | .sent => 1
  | .done => 0

/-- A task goroutine that has not sent yet. -/
def Task.unsent {C : Type} : Task C → Nat
  | .calling _ _ => 1
  | _ => 0

/-- Operations left to the goroutines of `sendHashedStr`, the items still to
be received not counted. -/
def Send.cost {E C : Type} (todo : C → Nat) (s : Send E C) : Nat :=
  (s.tasks.map (Task.cost todo)).sum +
  (match s.phase with
    | .ranging => 2
    | .waiting => 1
    | .returned => 0)

/-- Operations left to a job, the items still to be received not counted. -/
def JobState.cost : JobState → Nat
  | .feed xs i => xs.length - i
  | .singleHash s => s.cost SHCall.todo
  | .multiHash s => s.cost MHCall.todo
  | .combine (.ranging _) => 2
  | .combine (.sending _) => 1
  | .combine .returned => 0

/-- Bound on the operations a job performs for one more item received. -/
def JobState.weight : JobState → Nat
  | .feed _ _ => 0
  | .singleHash _ => 10
  | .multiHash _ => 41
  | .combine _ => 1

/-- Bound on the items a job will still send, given a bound `incoming` on the
items it will still receive. -/
def JobState.unsent (incoming : Nat) : JobState → Nat
  | .feed xs i => xs.length - i
  | .singleHash s => (s.tasks.map Task.unsent).sum + incoming
  | .multiHash s => (s.tasks.map Task.unsent).sum + incoming
  | .combine .returned => 0
  | .combine _ => 1

/-- Number of items queued in a channel; none in the nil channel. -/
def bufLen : Option Chan → Nat
  | none => 0
  | some c => c.buf.length

/-- Bound on the items the consumer of the output of the last started stage
will still receive: those queued and those still to be sent. -/
def incoming : List Cell → Nat
  | [] => 0
  | c :: rest => c.out.buf.length + c.st.job.unsent (incoming rest)

/-- Operations left to a stage goroutine, the items still to be received not
counted. -/
def Stage.cost (st : Stage) : Nat :=
  st.job.cost +
  (match st.phase with
    | .running => 2
    | .closed => 1
    | .finished => 0)

/-- Bound on the number of operations the started stages can still perform. -/
def potential : List Cell → Nat
  | [] => 0
  | c :: rest => c.st.cost + c.st.job.weight * incoming rest + potential rest

/-- Bound on the items the last started stage will still send. -/
def upstream : List Cell → Nat
  | [] => 0
  | c :: rest => c.st.job.unsent (incoming rest)

/-- Every stage goroutine has finished and its output is closed. -/
def AllFinished (cells : List Cell) : Prop :=
  ∀ c ∈ cells, c.st.phase = .finished ∧ c.out.closed = true ∧ c.st.job.returned = true

end Signer

/-! # The directory printer of `hw1_tree/main.go` -/

namespace DirTree

/-- What the printer reads of an `os.FileInfo`. -/
structure FileInfo where
  Name : String
  IsDir : Bool
  Size : Int
deriving DecidableEq, Repr

/-- Node of the directory tree (main.go 11-14). -/
inductive Node where
  | mk (File : FileInfo) (Children : List Node)

/-- Field `File` of a node. -/
def Node.File : Node → FileInfo
  | .mk f _ => f

/-- Field `Children` of a node. -/
def Node.Children : Node → List Node
  | .mk _ ch => ch

/-- `Node.Size` (main.go 26-32): `fmt.Sprintf("%db", size)` or `"empty"`. -/
def Node.Size (n : Node) : String :=
  if n.File.Size > 0 then toString n.File.Size ++ "b" else "empty"

/-- `Node.Name` (main.go 17-23): `fmt.Sprintf("%s (%s)", name, size)` for a
file. -/
def Node.Name (n : Node) : String :=
  if n.File.IsDir then n.File.Name else n.File.Name ++ " (" ++ n.Size ++ ")"

mutual
/-- Body of the loop of `printNodes` for one node, after the test of line 70:
the `Fprint` of line 75 and the recursive call of line 78, which is
`printNodes` on the children (see `printNodes_children`).  The result is the
text written to `out`. -/
def printNode (node : Node) (pre childPrefix parentPrefix : String) : String :=
  match node with
  | .mk f ch =>
    parentPrefix ++ pre ++ (Node.mk f ch).Name ++ "\n"
      ++ (if f.IsDir then
            printLoop ch ((ch.length : Int) - 1) 0 "├───" "│\t" (parentPrefix ++ childPrefix)
          else "")
termination_by structural node
/-- The loop of lines 69-80 from index `i` on, with the current values of the
variables `prefix` (here `pre`) and `childPrefix`. -/
def printLoop (nodes : List Node) (lastID : Int) (i : Nat) (pre childPrefix parentPrefix : String) :
    String :=
  match nodes with
  | [] => ""
  | node :: rest =>
    let pre1 := if (i : Int) = lastID then "└───" else pre
    let childPrefix1 := if (i : Int) = lastID then "\t" else childPrefix
    printNode node pre1 childPrefix1 parentPrefix
      ++ printLoop rest lastID (i + 1) pre1 childPrefix1 parentPrefix
termination_by structural nodes
end

/-- `printNodes(out, nodes, parentPrefix)` (main.go 66-81); the result is the
text written to `out`. -/
def printNodes (nodes : List Node) (parentPrefix : String) : String :=
  printLoop nodes ((nodes.length : Int) - 1) 0 "├───" "│\t" parentPrefix

/-- Connector of the sibling at index `i` of a list of length `n`. -/
def Spec.connector (i n : Nat) : String :=
  if i = n - 1 then "└───" else "├───"

/-- Prefix under which the children of the sibling at index `i` of a list of
length `n` are printed. -/
def Spec.childPrefix (parentPrefix : String) (i n : Nat) : String :=
  if i = n - 1 then parentPrefix ++ "\t" else parentPrefix ++ "│\t"

/-- Displayed name: the bare name of a directory, `name (Nb)` for a file of
positive size `N`, `name (empty)` for any other file. -/
def Spec.name (f : FileInfo) : String :=
  if f.IsDir then f.Name
  else if f.Size > 0 then f.Name ++ " (" ++ toString f.Size ++ "b)"
  else f.Name ++ " (empty)"

mutual
/-- Specification: the lines of the sibling `node` at index `i` of a list of
length `n`, its own line first and then, for a directory only, the lines of
its children. -/
def Spec.nodeLines (node : Node) (i n : Nat) (parentPrefix : String) : List String :=
  match node with
  | .mk f ch =>
    (parentPrefix ++ Spec.connector i n ++ Spec.name f ++ "\n")
      :: (if f.IsDir then Spec.siblingLines ch 0 ch.length (Spec.childPrefix parentPrefix i n)
          else [])
termination_by structural node
/-- Specification: the lines of the siblings `nodes`, the first of which has
index `i` in its list of length `n`. -/
def Spec.siblingLines (nodes : List Node) (i n : Nat) (parentPrefix : String) : List String :=
  match nodes with
  | [] => []
  | node :: rest =>
    Spec.nodeLines node i n parentPrefix ++ Spec.siblingLines rest (i + 1) n parentPrefix
termination_by structural nodes
end

/-- Specification: the lines printed for a forest. -/
def Spec.lines (nodes : List Node) (parentPrefix : String) : List String :=
  Spec.siblingLines nodes 0 nodes.length parentPrefix

mutual
/-- Number of nodes the printer visits below and including `node`: the
children of a non-directory are not visited. -/
def Node.visited (node : Node) : Nat :=
  match node with
  | .mk f ch => 1 + (if f.IsDir then visitedAll ch else 0)
termination_by structural node
/-- Number of nodes the printer visits in a forest. -/
def visitedAll (nodes : List Node) : Nat :=
  match nodes with
  | [] => 0
  | node :: rest => node.visited + visitedAll rest
termination_by structural nodes
end

end DirTree

/-! # Theorems on the signer -/

namespace Signer

/-! ## Steps -/

@[simp] theorem Step_map_eq_next {α β : Type} (f : α → β) (x : Step α) (y : β) :
    Step.map f x = .next y ↔ ∃ a, x = .next a ∧ f a = y := by
  cases x <;> simp [Step.map]

@[simp] theorem Step_map_eq_panic {α β : Type} (f : α → β) (x : Step α) :
    Step.map f x = .panic ↔ x = .panic := by
  cases x <;> simp [Step.map]

@[simp] theorem Step_map_eq_blocked {α β : Type} (f : α → β) (x : Step α) :
    Step.map f x = .blocked ↔ x = .blocked := by
  cases x <;> simp [Step.map]

theorem wgDone_eq_next (wg n : Nat) : wgDone wg = .next n ↔ wg = n + 1 := by
  cases wg <;> simp [wgDone]

theorem wgDone_eq_panic (wg : Nat) : wgDone wg = .panic ↔ wg = 0 := by
  cases wg <;> simp [wgDone]

/-! ## The closure of `SingleHash` -/

theorem SHCall_init_ok (hs : Hashes) (s : String) : (SHCall.init s).Ok hs s := by
  simp [SHCall.init, SHCall.Ok]

theorem SHCall_step_ok (hs : Hashes) (s : String) (a : CallAct) (mux mux' : Bool) (c c' : SHCall)
    (hok : c.Ok hs s) (h : SHCall.step hs a (mux, c) = .next (mux', c')) : c'.Ok hs s := by
  obtain ⟨d, w1, w2, b⟩ := c
  cases a with
  | body =>
    cases b <;> cases w1 <;> cases w2 <;> simp [SHCall.step] at h <;>
      obtain ⟨-, rfl⟩ := h <;> simp_all [SHCall.Ok, SingleHash.item]
  | worker n =>
    match n with
    | 0 =>
      cases w1 <;> simp [SHCall.step] at h
      obtain ⟨-, rfl⟩ := h
      cases b <;> simp_all [SHCall.Ok]
    | 1 =>
      cases w2 <;> cases mux <;> simp [SHCall.step] at h <;>
        obtain ⟨-, rfl⟩ := h <;> cases b <;> simp_all [SHCall.Ok]
    | n + 2 => simp [SHCall.step] at h

theorem SHCall_step_ne_panic (hs : Hashes) (a : CallAct) (x : Bool × SHCall) :
    SHCall.step hs a x ≠ .panic := by
  obtain ⟨mux, d, w1, w2, b⟩ := x
  cases a with
  | body => cases b <;> cases w1 <;> cases w2 <;> simp [SHCall.step]
  | worker n =>
    match n with
    | 0 => cases w1 <;> simp [SHCall.step]
    | 1 => cases w2 <;> cases mux <;> simp [SHCall.step]
    | n + 2 => simp [SHCall.step]

theorem SHCall_step_holds (hs : Hashes) (a : CallAct) (mux mux' : Bool) (c c' : SHCall)
    (hm : c.holds ≤ held mux) (h : SHCall.step hs a (mux, c) = .next (mux', c')) :
    held mux' + c.holds = held mux + c'.holds := by
  obtain ⟨d, w1, w2, b⟩ := c
  cases a with
  | body =>
    cases b <;> cases w1 <;> cases w2 <;> simp [SHCall.step] at h <;>
      obtain ⟨rfl, rfl⟩ := h <;> simp_all [SHCall.holds]
  | worker n =>
    match n with
    | 0 =>
      cases w1 <;> simp [SHCall.step] at h
      obtain ⟨rfl, rfl⟩ := h
      simp [SHCall.holds]
    | 1 =>
      cases w2 <;> cases mux <;> simp [SHCall.step] at h <;>
        obtain ⟨rfl, rfl⟩ := h <;> simp_all [SHCall.holds, held]
    | n + 2 => simp [SHCall.step] at h

theorem SHCall_step_todo (hs : Hashes) (a : CallAct) (mux mux' : Bool) (c c' : SHCall)
    (h : SHCall.step hs a (mux, c) = .next (mux', c')) : c'.todo < c.todo := by
  obtain ⟨d, w1, w2, b⟩ := c
  cases a with
  | body =>
    cases b <;> cases w1 <;> cases w2 <;> simp [SHCall.step] at h <;>
      obtain ⟨rfl, rfl⟩ := h <;> simp_all [SHCall.todo]
  | worker n =>
    match n with
    | 0 =>
      cases w1 <;> simp [SHCall.step] at h
      obtain ⟨rfl, rfl⟩ := h
      simp [SHCall.todo]
    | 1 =>
      cases w2 <;> cases mux <;> simp [SHCall.step] at h <;>
        obtain ⟨rfl, rfl⟩ := h <;> simp_all [SHCall.todo]
    | n + 2 => simp [SHCall.step] at h

theorem SHCall_result_ok (hs : Hashes) (s : String) (c : SHCall) (r : String)
    (hok : c.Ok hs s) (h : c.result = some r) : r = SingleHash.item hs s ∧ c.holds = 0 := by
  obtain ⟨d, w1, w2, b⟩ := c
  cases b <;> simp [SHCall.result] at h
  subst h
  simp_all [SHCall.Ok, SHCall.holds]

theorem SHCall_progress (hs : Hashes) (s : String) (mux : Bool) (c : SHCall)
    (hok : c.Ok hs s) (hm : held mux ≤ c.holds) (hr : c.result = none) :
    ∃ a x, SHCall.step hs a (mux, c) = .next x := by
  obtain ⟨d, w1, w2, b⟩ := c
  cases b with
  | returned r => simp [SHCall.result] at hr
  | recvH1 =>
    cases w1 with
    | start => exact ⟨.worker 0, _, rfl⟩
    | ready v => exact ⟨.body, _, rfl⟩
    | done => simp [SHCall.Ok] at hok
  | recvH2 a =>
    cases w2 with
    | start =>
      cases mux with
      | false => exact ⟨.worker 1, _, rfl⟩
      | true => simp [held, SHCall.holds] at hm
    | locked => exact ⟨.worker 1, _, rfl⟩
    | hashed m => exact ⟨.worker 1, _, rfl⟩
    | unlocked m => exact ⟨.worker 1, _, rfl⟩
    | ready v => cases w1 <;> exact ⟨.body, _, rfl⟩
    | done => simp [SHCall.Ok] at hok

/-! ## Sums over a list with one element replaced -/

theorem sum_map_set {α M : Type} [AddCommMonoid M] (f : α → M) :
    ∀ (l : List α) (k : Nat) (a b : α), l[k]? = some a →
      ((l.set k b).map f).sum + f a = (l.map f).sum + f b
  | [], k, a, b, h => by simp at h
  | x :: l, 0, a, b, h => by
    simp at h
    subst h
    simp [add_comm, add_left_comm]
  | x :: l, k + 1, a, b, h => by
    simp at h
    have ih := sum_map_set f l k a b h
    simp only [List.set_cons_succ, List.map_cons, List.sum_cons, add_assoc, ih]

theorem sum_map_set_same {α M : Type} [AddCommMonoid M] [IsCancelAdd M] (f : α → M)
    (l : List α) (k : Nat) (a b : α) (h : l[k]? = some a) (hf : f b = f a) :
    ((l.set k b).map f).sum = (l.map f).sum := by
  have := sum_map_set f l k a b h
  rw [hf] at this
  exact add_right_cancel this

theorem le_sum_map {α : Type} (f : α → Nat) :
    ∀ (l : List α) (k : Nat) (a : α), l[k]? = some a → f a ≤ (l.map f).sum
  | [], k, a, h => by simp at h
  | x :: l, 0, a, h => by
    simp at h
    subst h
    simp
  | x :: l, k + 1, a, h => by
    simp at h
    have := le_sum_map f l k a h
    simp only [List.map_cons, List.sum_cons]
    omega

theorem sum_map_eq_zero {α : Type} (f : α → Nat) (l : List α) (h : (l.map f).sum = 0)
    (k : Nat) (a : α) (hk : l[k]? = some a) : f a = 0 := by
  have := le_sum_map f l k a hk
  omega

theorem exists_of_sum_pos {α : Type} (f : α → Nat) :
    ∀ (l : List α), 0 < (l.map f).sum → ∃ (k : Nat) (a : α), l[k]? = some a ∧ 0 < f a
  | [], h => by simp at h
  | x :: l, h => by
    by_cases hx : 0 < f x
    · exact ⟨0, x, by simp, hx⟩
    · simp only [List.map_cons, List.sum_cons] at h
      obtain ⟨k, a, hk, ha⟩ := exists_of_sum_pos f l (by omega)
      exact ⟨k + 1, a, by simpa using hk, ha⟩

/-! ## The closure of `MultiHash` -/

theorem MHW_ok_of_slot (hs : Hashes) (s : String) (mh mh' : List String) (n : Nat) (w : MHW)
    (h : mh'[n]? = mh[n]?) (hok : w.Ok hs s mh n) : w.Ok hs s mh' n := by
  cases w <;> simp_all [MHW.Ok]

theorem MHCall_init_ok (hs : Hashes) (s : String) : (MHCall.init s).Ok hs s := by
  simp [MHCall.init, MHCall.Ok, held]

theorem MultiHash_join_eq (hs : Hashes) (s : String) (mh : List String) (hl : mh.length = 6)
    (h : ∀ n, n < 6 → mh[n]? = some (hs.DataSignerCrc32 (toString n ++ s))) :
    String.join mh = MultiHash.item hs s := by
  match mh, hl with
  | [a, b, c, d, e, f], _ =>
    have h0 := h 0 (by omega)
    have h1 := h 1 (by omega)
    have h2 := h 2 (by omega)
    have h3 := h 3 (by omega)
    have h4 := h 4 (by omega)
    have h5 := h 5 (by omega)
    simp at h0 h1 h2 h3 h4 h5
    subst h0 h1 h2 h3 h4 h5
    simp [String.join, MultiHash.item]
    rfl

theorem MHCall_stepBody_ok (hs : Hashes) (s : String) (c c' : MHCall)
    (hok : c.Ok hs s) (h : c.stepBody = .next c') : c'.Ok hs s := by
  obtain ⟨hd, hl, hwg, hmx, hw, hb⟩ := hok
  unfold MHCall.stepBody at h
  split at h
  · rename_i i hbody
    rw [hbody] at hb
    split at h
    · rename_i hi
      simp only [Step.next.injEq] at h
      subst h
      refine ⟨hd, hl, ?_, ?_, ?_, ?_⟩
      · simp [hwg, MHW.live]
      · simpa [MHW.holds] using hmx
      · intro n w hn
        simp only [List.getElem?_append] at hn
        split at hn
        · exact hw n w hn
        · rename_i hlt
          have : w = .start := by
            revert hn
            cases hq : n - c.workers.length <;> simp_all
          subst this
          trivial
      · simp only [List.length_append, List.length_singleton]
        omega
    · rename_i hi
      simp only [Step.next.injEq] at h
      subst h
      exact ⟨hd, hl, hwg, hmx, hw, by simp only; omega⟩
  · rename_i hbody
    rw [hbody] at hb
    split at h
    · rename_i hz
      simp only [Step.next.injEq] at h
      subst h
      refine ⟨hd, hl, hwg, hmx, hw, ?_, hb, hz⟩
      apply MultiHash_join_eq hs s c.multiHash hl
      intro n hn
      have hlen : n < c.workers.length := by omega
      have hget : c.workers[n]? = some c.workers[n] := List.getElem?_eq_getElem hlen
      have hlive := sum_map_eq_zero MHW.live c.workers (by omega) n _ hget
      have hwn := hw n _ hget
      revert hlive hwn
      cases c.workers[n] <;> simp [MHW.live, MHW.Ok]
    · simp at h
  · simp at h

theorem MHCall_workers_ok_set (hs : Hashes) (s : String) (ws : List MHW) (mh mh' : List String)
    (n : Nat) (x : MHW)
    (hw : ∀ (m : Nat) (w : MHW), ws[m]? = some w → w.Ok hs s mh m)
    (hmh : ∀ m, m ≠ n → mh'[m]? = mh[m]?) (hx : x.Ok hs s mh' n) :
    ∀ (m : Nat) (w : MHW), (ws.set n x)[m]? = some w → w.Ok hs s mh' m := by
  intro m w hm
  rw [List.getElem?_set] at hm
  split at hm
  · rename_i hnm
    subst hnm
    split at hm
    · simp only [Option.some.injEq] at hm
      subst hm
      exact hx
    · simp at hm
  · rename_i hnm
    exact MHW_ok_of_slot hs s mh mh' m w (hmh m (fun h => hnm h.symm)) (hw m w hm)

theorem held_le (b : Bool) : held b ≤ 1 := by
  cases b <;> simp [held]

@[simp] theorem held_false : held false = 0 := rfl

@[simp] theorem held_true : held true = 1 := rfl

theorem MHCall_stepWorker_ok (hs : Hashes) (s : String) (n : Nat) (c c' : MHCall)
    (hok : c.Ok hs s) (h : c.stepWorker hs n = .next c') : c'.Ok hs s := by
  obtain ⟨hd, hl, hwg, hmx, hw, hb⟩ := hok
  have hle := held_le c.mux
  unfold MHCall.stepWorker at h
  split at h
  · simp at h
  · rename_i hget
    simp only [Step.next.injEq] at h
    subst h
    refine ⟨hd, hl, ?_, ?_, ?_, ?_⟩
    · exact hwg.trans (sum_map_set_same MHW.live _ n _ (MHW.hashed _) hget rfl).symm
    · exact hmx.trans (sum_map_set_same MHW.holds _ n _ (MHW.hashed _) hget rfl).symm
    · exact MHCall_workers_ok_set hs s _ _ _ n _ hw (fun _ _ => rfl) (by simp [MHW.Ok, hd])
    · cases hbody : c.body <;> simp_all
  · rename_i hh hget
    split at h
    · simp at h
    · rename_i hmux
      simp only [Step.next.injEq] at h
      subst h
      have h1 := sum_map_set MHW.holds c.workers n _ (MHW.locked hh) hget
      have h2 := hw n _ hget
      refine ⟨hd, hl, ?_, ?_, ?_, ?_⟩
      · exact hwg.trans (sum_map_set_same MHW.live _ n _ (MHW.locked hh) hget rfl).symm
      · show held true = (List.map MHW.holds (c.workers.set n (MHW.locked hh))).sum
        simp only [Bool.not_eq_true] at hmux
        rw [hmux, held_false] at hmx
        simp only [MHW.holds] at h1
        rw [held_true]
        omega
      · exact MHCall_workers_ok_set hs s _ _ _ n _ hw (fun _ _ => rfl) (by simpa [MHW.Ok] using h2)
      · cases hbody : c.body <;> simp_all
  · rename_i hh hget
    split at h
    · rename_i hn
      simp only [Step.next.injEq] at h
      subst h
      have h2 := hw n _ hget
      refine ⟨hd, by simpa using hl, ?_, ?_, ?_, ?_⟩
      · exact hwg.trans (sum_map_set_same MHW.live _ n _ MHW.wrote hget rfl).symm
      · exact hmx.trans (sum_map_set_same MHW.holds _ n _ MHW.wrote hget rfl).symm
      · apply MHCall_workers_ok_set hs s _ c.multiHash _ n _ hw
        · intro m hm
          simp [List.getElem?_set, Ne.symm hm]
        · simp only [MHW.Ok] at h2 ⊢
          simp [List.getElem?_set, hn, h2]
      · cases hbody : c.body <;> simp_all
    · simp at h
  · rename_i hget
    simp only [Step.next.injEq] at h
    subst h
    have h1 := sum_map_set MHW.holds c.workers n _ MHW.unlocked hget
    have h2 := hw n _ hget
    refine ⟨hd, hl, ?_, ?_, ?_, ?_⟩
    · exact hwg.trans (sum_map_set_same MHW.live _ n _ MHW.unlocked hget rfl).symm
    · show held false = (List.map MHW.holds (c.workers.set n MHW.unlocked)).sum
      simp only [MHW.holds] at h1
      rw [held_false]
      omega
    · exact MHCall_workers_ok_set hs s _ _ _ n _ hw (fun _ _ => rfl) (by simpa [MHW.Ok] using h2)
    · cases hbody : c.body <;> simp_all
  · rename_i hget
    simp only [Step_map_eq_next, wgDone_eq_next] at h
    obtain ⟨w, hwq, rfl⟩ := h
    have h1 := sum_map_set MHW.live c.workers n _ MHW.done hget
    have h2 := hw n _ hget
    refine ⟨hd, hl, ?_, ?_, ?_, ?_⟩
    · show w = (List.map MHW.live (c.workers.set n MHW.done)).sum
      simp only [MHW.live] at h1
      omega
    · exact hmx.trans (sum_map_set_same MHW.holds _ n _ MHW.done hget rfl).symm
    · exact MHCall_workers_ok_set hs s _ _ _ n _ hw (fun _ _ => rfl) (by simpa [MHW.Ok] using h2)
    · cases hbody : c.body <;> simp_all
  · simp at h

theorem MHCall_step_ok (hs : Hashes) (s : String) (a : CallAct) (u u' : Unit) (c c' : MHCall)
    (hok : c.Ok hs s) (h : MHCall.step hs a (u, c) = .next (u', c')) : c'.Ok hs s := by
  cases a with
  | body =>
    simp only [MHCall.step, Step_map_eq_next, Prod.mk.injEq] at h
    obtain ⟨x, hx, -, rfl⟩ := h
    exact MHCall_stepBody_ok hs s c x hok hx
  | worker n =>
    simp only [MHCall.step, Step_map_eq_next, Prod.mk.injEq] at h
    obtain ⟨x, hx, -, rfl⟩ := h
    exact MHCall_stepWorker_ok hs s n c x hok hx

theorem MHCall_step_ne_panic (hs : Hashes) (s : String) (a : CallAct) (u : Unit) (c : MHCall)
    (hok : c.Ok hs s) : MHCall.step hs a (u, c) ≠ .panic := by
  obtain ⟨hd, hl, hwg, hmx, hw, hb⟩ := hok
  cases a with
  | body =>
    simp only [MHCall.step, ne_eq, Step_map_eq_panic, MHCall.stepBody]
    split
    · split <;> simp
    · split <;> simp
    · simp
  | worker n =>
    simp only [MHCall.step, ne_eq, Step_map_eq_panic, MHCall.stepWorker]
    split
    · simp
    · simp
    · split <;> simp
    · rename_i hh hget
      have hn : n < c.workers.length := by
        by_contra hcon
        rw [List.getElem?_eq_none (by omega)] at hget
        simp at hget
      have : c.workers.length ≤ 6 := by
        revert hb
        cases c.body <;> simp <;> omega
      simp only [hl]
      rw [if_pos (by omega)]
      simp
    · simp
    · rename_i hget
      have := le_sum_map MHW.live c.workers n _ hget
      simp only [MHW.live] at this
      rw [Step_map_eq_panic, wgDone_eq_panic]
      omega
    · simp

theorem MHCall_result_ok (hs : Hashes) (s : String) (c : MHCall) (r : String)
    (hok : c.Ok hs s) (h : c.result = some r) : r = MultiHash.item hs s := by
  obtain ⟨hd, hl, hwg, hmx, hw, hb⟩ := hok
  unfold MHCall.result at h
  split at h
  · rename_i r' hbody
    simp only [Option.some.injEq] at h
    subst h
    rw [hbody] at hb
    exact hb.1
  · simp at h

theorem MHCall_progress (hs : Hashes) (s : String) (u : Unit) (c : MHCall)
    (hok : c.Ok hs s) (hr : c.result = none) :
    ∃ a x, MHCall.step hs a (u, c) = .next x := by
  have hnp := fun a => MHCall_step_ne_panic hs s a u c hok
  obtain ⟨hd, hl, hwg, hmx, hw, hb⟩ := hok
  cases hbody : c.body with
  | returned r => simp [MHCall.result, hbody] at hr
  | loop i =>
    refine ⟨.body, ?_⟩
    simp only [MHCall.step, MHCall.stepBody, hbody]
    split <;> exact ⟨_, rfl⟩
  | waiting =>
    by_cases hz : c.wg = 0
    · refine ⟨.body, ?_⟩
      simp only [MHCall.step, MHCall.stepBody, hbody, hz, if_true]
      exact ⟨_, rfl⟩
    · obtain ⟨k, w, hk, hlive⟩ := exists_of_sum_pos MHW.live c.workers (by omega)
      have key : ∀ (n : Nat) (w : MHW), c.workers[n]? = some w → 0 < w.live →
          (∀ h, w ≠ .hashed h) → ∃ x, MHCall.step hs (.worker n) (u, c) = .next x := by
        intro n w hn hl' hne
        have hp := hnp (.worker n)
        simp only [MHCall.step, ne_eq, Step_map_eq_panic] at hp
        cases hstep : MHCall.stepWorker hs n c with
        | next x => exact ⟨(u, x), by simp only [MHCall.step, hstep, Step.map]⟩
        | panic => exact absurd hstep hp
        | blocked =>
          exfalso
          unfold MHCall.stepWorker at hstep
          rw [hn] at hstep
          cases w <;> simp [MHW.live] at hl' hstep hne
          · split at hstep <;> simp at hstep
          · cases hq : c.wg <;> simp [hq, wgDone] at hstep
      by_cases hh : ∃ h, w = .hashed h
      · obtain ⟨h, rfl⟩ := hh
        cases hmux : c.mux with
        | false =>
          refine ⟨.worker k, ?_⟩
          simp only [MHCall.step, MHCall.stepWorker, hk, hmux]
          exact ⟨_, rfl⟩
        | true =>
          rw [hmux, held_true] at hmx
          obtain ⟨k', w', hk', hholds⟩ := exists_of_sum_pos MHW.holds c.workers (by omega)
          obtain ⟨x, hx⟩ := key k' w' hk' (by cases w' <;> simp [MHW.holds, MHW.live] at hholds ⊢)
            (by cases w' <;> simp [MHW.holds] at hholds ⊢)
          exact ⟨.worker k', x, hx⟩
      · obtain ⟨x, hx⟩ := key k w hk hlive (fun h heq => hh ⟨h, heq⟩)
        exact ⟨.worker k, x, hx⟩

theorem MHCall_step_todo (hs : Hashes) (a : CallAct) (u u' : Unit) (c c' : MHCall)
    (h : MHCall.step hs a (u, c) = .next (u', c')) : c'.todo < c.todo := by
  cases a with
  | body =>
    simp only [MHCall.step, Step_map_eq_next, Prod.mk.injEq] at h
    obtain ⟨x, hx, -, rfl⟩ := h
    unfold MHCall.stepBody at hx
    split at hx
    · rename_i i hbody
      split at hx
      · simp only [Step.next.injEq] at hx
        subst hx
        simp only [MHCall.todo, hbody, List.map_append, List.sum_append, List.map_cons,
          List.map_nil, List.sum_cons, List.sum_nil, MHW.todo]
        omega
      · simp only [Step.next.injEq] at hx
        subst hx
        simp only [MHCall.todo, hbody]
        omega
    · rename_i hbody
      split at hx
      · simp only [Step.next.injEq] at hx
        subst hx
        simp only [MHCall.todo, hbody]
        omega
      · simp at hx
    · simp at hx
  | worker n =>
    simp only [MHCall.step, Step_map_eq_next, Prod.mk.injEq] at h
    obtain ⟨x, hx, -, rfl⟩ := h
    unfold MHCall.stepWorker at hx
    split at hx
    · simp at hx
    · rename_i hget
      simp only [Step.next.injEq] at hx
      subst hx
      have := sum_map_set MHW.todo c.workers n _ (MHW.hashed (hs.DataSignerCrc32 (toString n ++ c.data))) hget
      simp only [MHCall.todo, MHW.todo] at this ⊢
      omega
    · rename_i hh hget
      split at hx
      · simp at hx
      · simp only [Step.next.injEq] at hx
        subst hx
        have := sum_map_set MHW.todo c.workers n _ (MHW.locked hh) hget
        simp only [MHCall.todo, MHW.todo] at this ⊢
        omega
    · rename_i hh hget
      split at hx
      · simp only [Step.next.injEq] at hx
        subst hx
        have := sum_map_set MHW.todo c.workers n _ MHW.wrote hget
        simp only [MHCall.todo, MHW.todo, List.length_set] at this ⊢
        omega
      · simp at hx
    · rename_i hget
      simp only [Step.next.injEq] at hx
      subst hx
      have := sum_map_set MHW.todo c.workers n _ MHW.unlocked hget
      simp only [MHCall.todo, MHW.todo] at this ⊢
      omega
    · rename_i hget
      simp only [Step_map_eq_next] at hx
      obtain ⟨w, -, rfl⟩ := hx
      have := sum_map_set MHW.todo c.workers n _ MHW.done hget
      simp only [MHCall.todo, MHW.todo] at this ⊢
      omega
    · simp at hx

/-! ## Channels -/

theorem Chan_recv_some (c c' : Chan) (x : Item) (h : c.recv = .next (some x, c')) :
    c.buf = x :: c'.buf ∧ c'.taken = c.taken ++ [x] ∧ c'.closed = c.closed := by
  unfold Chan.recv at h
  split at h
  · simp only [Step.next.injEq, Prod.mk.injEq, Option.some.injEq] at h
    obtain ⟨rfl, rfl⟩ := h
    simp_all
  · split at h <;> simp at h

theorem Chan_recv_none (c c' : Chan) (h : c.recv = .next (none, c')) :
    c' = c ∧ c.closed = true ∧ c.buf = [] := by
  unfold Chan.recv at h
  split at h
  · simp at h
  · split at h <;> simp_all

theorem Chan_recv_ne_panic (c : Chan) : c.recv ≠ .panic := by
  unfold Chan.recv
  split
  · simp
  · split <;> simp

theorem Chan_send_next (cap : Nat) (x : Item) (c c' : Chan) (h : c.send cap x = .next c') :
    c.closed = false ∧ c'.closed = false ∧ c'.taken = c.taken ∧ c'.buf = c.buf ++ [x]
      ∧ c'.hist = c.hist ++ [x] := by
  unfold Chan.send at h
  split at h
  · simp at h
  · split at h
    · simp only [Step.next.injEq] at h
      subst h
      simp_all [Chan.hist]
    · simp at h

theorem Chan_send_panic (cap : Nat) (x : Item) (c : Chan) :
    c.send cap x = .panic ↔ c.closed = true := by
  unfold Chan.send
  split
  · simp_all
  · split <;> simp_all

theorem Chan_close_next (c c' : Chan) (h : c.close = .next c') :
    c.closed = false ∧ c'.closed = true ∧ c'.taken = c.taken ∧ c'.buf = c.buf
      ∧ c'.hist = c.hist := by
  unfold Chan.close at h
  split at h
  · simp at h
  · simp only [Step.next.injEq] at h
    subst h
    simp_all [Chan.hist]

theorem Chan_close_panic (c : Chan) : c.close = .panic ↔ c.closed = true := by
  unfold Chan.close
  split <;> simp_all

theorem Consumed_refl (c : Option Chan) : Consumed c c := by
  cases c <;> simp [Consumed]

theorem Consumed_recv (c c' : Chan) (x : Item) (h : c.recv = .next (some x, c')) :
    Consumed (some c) (some c') := by
  obtain ⟨h1, h2, h3⟩ := Chan_recv_some c c' x h
  simp [Consumed, Chan.hist, h1, h2, h3]

theorem Produced_refl (c : Chan) : Produced c c := by
  simp [Produced]

theorem Produced_send (cap : Nat) (x : Item) (c c' : Chan) (h : c.send cap x = .next c') :
    Produced c c' := by
  obtain ⟨h1, h2, h3, h4, h5⟩ := Chan_send_next cap x c c' h
  simp [Produced, h1, h3]

theorem Produced_close (c c' : Chan) (h : c.close = .next c') : Produced c c' := by
  obtain ⟨h1, h2, h3, h4, h5⟩ := Chan_close_next c c' h
  simp [Produced, h1, h3]

theorem Drained_consumed (c c' : Option Chan) (h : Consumed c c') (hd : Drained c) : c' = c := by
  cases c <;> cases c' <;> simp_all [Consumed, Drained]

theorem forall_getElem?_set {α : Type} (P : α → Prop) (l : List α) (n : Nat) (x : α)
    (hl : ∀ (m : Nat) (w : α), l[m]? = some w → P w) (hx : P x) :
    ∀ (m : Nat) (w : α), (l.set n x)[m]? = some w → P w := by
  intro m w hm
  rw [List.getElem?_set] at hm
  split at hm
  · split at hm
    · simp only [Option.some.injEq] at hm
      subst hm
      exact hx
    · simp at hm
  · exact hl m w hm

theorem forall_getElem?_append {α : Type} (P : α → Prop) (l : List α) (x : α)
    (hl : ∀ (m : Nat) (w : α), l[m]? = some w → P w) (hx : P x) :
    ∀ (m : Nat) (w : α), (l ++ [x])[m]? = some w → P w := by
  intro m w hm
  simp only [List.getElem?_append] at hm
  split at hm
  · exact hl m w hm
  · have : w = x := by
      revert hm
      cases hq : m - l.length <;> simp_all
    subst this
    exact hx

/-! ## `sendHashedStr` -/

theorem SingleHash_sound (hs : Hashes) : (SingleHash.hashFn hs).Sound (SingleHash.spec hs) where
  init s := ⟨SHCall_init_ok hs s, rfl⟩
  step s a e c e' c' hi hh h :=
    ⟨SHCall_step_ok hs s a e e' c c' hi h, SHCall_step_holds hs a e e' c c' hh h⟩
  safe _ a e c _ := SHCall_step_ne_panic hs a (e, c)
  result s c r hi h := SHCall_result_ok hs s c r hi h
  bound e := held_le e
  progress s e c hi hh hr := SHCall_progress hs s e c hi hh hr

theorem MultiHash_sound (hs : Hashes) : (MultiHash.hashFn hs).Sound (MultiHash.spec hs) where
  init s := ⟨MHCall_init_ok hs s, rfl⟩
  step s a e c e' c' hi _ h := ⟨MHCall_step_ok hs s a e e' c c' hi h, rfl⟩
  safe s a e c hi := MHCall_step_ne_panic hs s a e c hi
  result s c r hi h := ⟨MHCall_result_ok hs s c r hi h, rfl⟩
  bound _ := Nat.zero_le 1
  progress s e c hi _ hr := MHCall_progress hs s e c hi hr

theorem Send_init_ok {E C : Type} (sp : HashFn.Spec E C) (e : E) (inp : Option Chan) (out : Chan)
    (he : sp.held e = 0) (hi : takenOf inp = []) (ho : out.hist = []) :
    Send.Ok sp inp (Send.init e : Send E C) out := by
  simp [Send.Ok, Send.init, he, hi, ho]

theorem sendHashedStr_stepSelf_ok {E C : Type} (f : HashFn E C) (sp : HashFn.Spec E C)
    (hf : f.Sound sp) (w w' : Wired (Send E C)) (hok : Send.Ok sp w.inp w.st w.out)
    (h : sendHashedStr.stepSelf f w = .next w') :
    Send.Ok sp w'.inp w'.st w'.out ∧ Consumed w.inp w'.inp ∧ w'.out = w.out := by
  obtain ⟨hwg, hmx, hperm, htasks, hdr, hret⟩ := hok
  unfold sendHashedStr.stepSelf at h
  split at h
  · rename_i hphase
    split at h
    · simp at h
    · rename_i c hinp
      split at h
      · rename_i x c' hrecv
        simp only [Step.next.injEq] at h
        subst h
        obtain ⟨h1, h2, h3⟩ := Chan_recv_some c c' x hrecv
        refine ⟨⟨?_, ?_, ?_, ?_, ?_, ?_⟩, ?_, rfl⟩
        · simp [hwg, Task.live]
        · simp [hmx, Task.holds, (hf.init x.format).2]
        · rw [hinp] at hperm
          simp only [takenOf] at hperm ⊢
          simp only [h2, List.map_append, List.map_cons, List.map_nil, List.sum_append,
            List.sum_cons, List.sum_nil, Task.pending, add_zero, ← Multiset.coe_add, hperm,
            ← Multiset.coe_singleton]
          rw [add_assoc]
        · exact forall_getElem?_append _ _ _ htasks (hf.init x.format).1
        · simp [hphase]
        · simp [hphase]
        · rw [hinp]
          exact Consumed_recv c c' x hrecv
      · rename_i c' hrecv
        simp only [Step.next.injEq] at h
        subst h
        obtain ⟨h1, h2, h3⟩ := Chan_recv_none c c' hrecv
        refine ⟨⟨hwg, hmx, hperm, htasks, ?_, ?_⟩, Consumed_refl _, rfl⟩
        · simp [hinp, Drained, h2, h3]
        · simp
      · simp at h
  · rename_i hphase
    split at h
    · rename_i hz
      simp only [Step.next.injEq] at h
      subst h
      refine ⟨⟨hwg, hmx, hperm, htasks, ?_, ?_⟩, Consumed_refl _, rfl⟩
      · intro _
        exact hdr (by simp [hphase])
      · intro _
        exact hz
    · simp at h
  · simp at h

theorem sendHashedStr_stepTask_ok {E C : Type} (cap : Nat) (f : HashFn E C)
    (sp : HashFn.Spec E C) (hf : f.Sound sp) (k : Nat) (a : TaskAct) (w w' : Wired (Send E C))
    (hok : Send.Ok sp w.inp w.st w.out) (h : sendHashedStr.stepTask cap f k a w = .next w') :
    Send.Ok sp w'.inp w'.st w'.out ∧ w'.inp = w.inp ∧ Produced w.out w'.out
      ∧ w'.st.phase = w.st.phase ∧ w'.out.closed = w.out.closed := by
  obtain ⟨hwg, hmx, hperm, htasks, hdr, hret⟩ := hok
  unfold sendHashedStr.stepTask at h
  split at h
  · rename_i str c a' hget
    simp only [Step_map_eq_next] at h
    obtain ⟨⟨e', c'⟩, hstep, rfl⟩ := h
    have hinv := htasks k _ hget
    have hle := le_sum_map (Task.holds sp) w.st.tasks k _ hget
    have h1 := sum_map_set (Task.holds sp) w.st.tasks k _ (Task.calling str c') hget
    simp only [Task.holds] at hle h1
    obtain ⟨hinv', hacc⟩ := hf.step str a' w.st.env c e' c' hinv (by omega) hstep
    refine ⟨⟨?_, ?_, ?_, ?_, hdr, hret⟩, rfl, Produced_refl _, rfl, rfl⟩
    · exact hwg.trans (sum_map_set_same Task.live _ k _ (Task.calling str c') hget rfl).symm
    · show sp.held e' = (List.map (Task.holds sp) (w.st.tasks.set k (Task.calling str c'))).sum
      omega
    · exact hperm.trans (congrArg _
        (sum_map_set_same (Task.pending sp.item) _ k _ (Task.calling str c') hget rfl).symm)
    · exact forall_getElem?_set _ _ _ _ htasks hinv'
  · rename_i str c hget
    split at h
    · rename_i r hres
      simp only [Step_map_eq_next] at h
      obtain ⟨o, hsend, rfl⟩ := h
      obtain ⟨s1, s2, s3, s4, s5⟩ := Chan_send_next cap _ _ _ hsend
      have hinv := htasks k _ hget
      obtain ⟨hr, hz⟩ := hf.result str c r hinv hres
      have h1 := sum_map_set (Task.holds sp) w.st.tasks k _ (Task.sent : Task C) hget
      have h2 := sum_map_set (Task.pending sp.item) w.st.tasks k _ (Task.sent : Task C) hget
      simp only [Task.holds, Task.pending, hz, add_zero] at h1 h2
      refine ⟨⟨?_, ?_, ?_, ?_, hdr, hret⟩, rfl, Produced_send cap _ _ _ hsend, rfl,
        by rw [s1, s2]⟩
      · exact hwg.trans (sum_map_set_same Task.live _ k _ (Task.sent : Task C) hget rfl).symm
      · exact hmx.trans h1.symm
      · show _ = Multiset.ofList o.hist + (List.map (Task.pending sp.item) (w.st.tasks.set k Task.sent)).sum
        rw [hperm, ← h2, s5, hr, ← Multiset.coe_add, Multiset.coe_singleton]
        abel
      · exact forall_getElem?_set _ _ _ _ htasks trivial
    · simp at h
  · rename_i hget
    simp only [Step_map_eq_next, wgDone_eq_next] at h
    obtain ⟨n, hn, rfl⟩ := h
    have h1 := sum_map_set Task.live w.st.tasks k _ (Task.done : Task C) hget
    simp only [Task.live] at h1
    refine ⟨⟨?_, ?_, ?_, ?_, hdr, ?_⟩, rfl, Produced_refl _, rfl, rfl⟩
    · show n = (List.map Task.live (w.st.tasks.set k Task.done)).sum
      omega
    · exact hmx.trans (sum_map_set_same (Task.holds sp) _ k _ (Task.done : Task C) hget rfl).symm
    · exact hperm.trans (congrArg _
        (sum_map_set_same (Task.pending sp.item) _ k _ (Task.done : Task C) hget rfl).symm)
    · exact forall_getElem?_set _ _ _ _ htasks trivial
    · intro hp
      have := hret hp
      omega
  · simp at h

theorem sendHashedStr_ok {E C : Type} (cap : Nat) (f : HashFn E C) (sp : HashFn.Spec E C)
    (hf : f.Sound sp) (a : JobAct) (w w' : Wired (Send E C))
    (hok : Send.Ok sp w.inp w.st w.out) (h : sendHashedStr cap f a w = .next w') :
    Send.Ok sp w'.inp w'.st w'.out ∧ Consumed w.inp w'.inp ∧ Produced w.out w'.out
      ∧ w'.out.closed = w.out.closed := by
  cases a with
  | self =>
    obtain ⟨h1, h2, h3⟩ := sendHashedStr_stepSelf_ok f sp hf w w' hok h
    exact ⟨h1, h2, h3 ▸ Produced_refl _, by rw [h3]⟩
  | task k a =>
    obtain ⟨h1, h2, h3, -, h5⟩ := sendHashedStr_stepTask_ok cap f sp hf k a w w' hok h
    exact ⟨h1, h2 ▸ Consumed_refl _, h3, h5⟩

theorem sendHashedStr_ne_panic {E C : Type} (cap : Nat) (f : HashFn E C) (sp : HashFn.Spec E C)
    (hf : f.Sound sp) (a : JobAct) (w : Wired (Send E C))
    (hok : Send.Ok sp w.inp w.st w.out) (hopen : w.out.closed = false) :
    sendHashedStr cap f a w ≠ .panic := by
  obtain ⟨hwg, hmx, hperm, htasks, hdr, hret⟩ := hok
  cases a with
  | self =>
    simp only [sendHashedStr, sendHashedStr.stepSelf]
    split
    · split
      · simp
      · split <;> simp
    · split <;> simp
    · simp
  | task k a =>
    simp only [sendHashedStr, sendHashedStr.stepTask]
    split
    · rename_i str c a' hget
      rw [ne_eq, Step_map_eq_panic]
      exact hf.safe str a' w.st.env c (htasks k _ hget)
    · split
      · rw [ne_eq, Step_map_eq_panic, Chan_send_panic, hopen]
        simp
      · simp
    · rename_i hget
      have := le_sum_map Task.live w.st.tasks k _ hget
      simp only [Task.live] at this
      rw [ne_eq, Step_map_eq_panic, wgDone_eq_panic]
      omega
    · simp

/-! ## Jobs and stage goroutines -/

theorem Send_ok_consumed {E C : Type} (sp : HashFn.Spec E C) (inp : Option Chan) (s : Send E C)
    (out out' : Chan) (hh : out'.hist = out.hist) (hok : Send.Ok sp inp s out) :
    Send.Ok sp inp s out' := by
  unfold Send.Ok at hok ⊢
  rw [hh]
  exact hok

theorem takenOf_produced (c c' : Chan) (h : Produced c c') :
    takenOf (some c') = takenOf (some c) := h.1

theorem Drained_produced (c c' : Chan) (h : Produced c c') (hd : Drained (some c)) :
    Drained (some c') := by
  have := h.2 hd.1
  rw [this]
  exact hd

theorem Send_ok_produced {E C : Type} (sp : HashFn.Spec E C) (c c' : Chan) (s : Send E C)
    (out : Chan) (hp : Produced c c') (hok : Send.Ok sp (some c) s out) :
    Send.Ok sp (some c') s out := by
  unfold Send.Ok at hok ⊢
  rw [takenOf_produced c c' hp]
  obtain ⟨h1, h2, h3, h4, h5, h6⟩ := hok
  exact ⟨h1, h2, h3, h4, fun h => Drained_produced c c' hp (h5 h), h6⟩

theorem Combine_ok_consumed (inp : Option Chan) (s : Combine) (out out' : Chan)
    (hh : out'.hist = out.hist) (hok : Combine.Ok inp s out) : Combine.Ok inp s out' := by
  cases s <;> simp_all [Combine.Ok]

theorem Combine_ok_produced (c c' : Chan) (s : Combine) (out : Chan) (hp : Produced c c')
    (hok : Combine.Ok (some c) s out) : Combine.Ok (some c') s out := by
  have ht := takenOf_produced c c' hp
  have hd := Drained_produced c c' hp
  cases s <;> simp_all [Combine.Ok]

theorem JobState_ok_consumed (hs : Hashes) (inp : Option Chan) (j : JobState) (out out' : Chan)
    (hh : out'.hist = out.hist) (hok : j.Ok hs inp out) : j.Ok hs inp out' := by
  cases j with
  | feed xs i => simpa [JobState.Ok, hh] using hok
  | singleHash s => exact Send_ok_consumed _ inp s out out' hh hok
  | multiHash s => exact Send_ok_consumed _ inp s out out' hh hok
  | combine c => exact Combine_ok_consumed inp c out out' hh hok

theorem JobState_ok_produced (hs : Hashes) (c c' : Chan) (j : JobState) (out : Chan)
    (hp : Produced c c') (hok : j.Ok hs (some c) out) : j.Ok hs (some c') out := by
  cases j with
  | feed xs i => exact hok
  | singleHash s => exact Send_ok_produced _ c c' s out hp hok
  | multiHash s => exact Send_ok_produced _ c c' s out hp hok
  | combine s => exact Combine_ok_produced c c' s out hp hok

theorem CombineResults_ok (cap : Nat) (a : JobAct) (w w' : Wired Combine)
    (hok : Combine.Ok w.inp w.st w.out) (h : CombineResults cap a w = .next w') :
    Combine.Ok w'.inp w'.st w'.out ∧ Consumed w.inp w'.inp ∧ Produced w.out w'.out
      ∧ w'.out.closed = w.out.closed := by
  cases a with
  | task k a => simp [CombineResults] at h
  | self =>
    unfold CombineResults at h
    simp only at h
    split at h
    · rename_i results hst
      rw [hst] at hok
      split at h
      · simp at h
      · rename_i c hinp
        split at h
        · rename_i x c' hrecv
          simp only [Step.next.injEq] at h
          subst h
          obtain ⟨h1, h2, h3⟩ := Chan_recv_some c c' x hrecv
          refine ⟨?_, hinp ▸ Consumed_recv c c' x hrecv, Produced_refl _, rfl⟩
          simp_all [Combine.Ok, takenOf]
        · rename_i c' hrecv
          simp only [Step.next.injEq] at h
          subst h
          obtain ⟨h1, h2, h3⟩ := Chan_recv_none c c' hrecv
          refine ⟨?_, Consumed_refl _, Produced_refl _, rfl⟩
          simp_all [Combine.Ok, takenOf, Drained]
        · simp at h
    · rename_i v hst
      rw [hst] at hok
      simp only [Step_map_eq_next] at h
      obtain ⟨o, hsend, rfl⟩ := h
      obtain ⟨s1, s2, s3, s4, s5⟩ := Chan_send_next cap _ _ _ hsend
      refine ⟨?_, Consumed_refl _, Produced_send cap _ _ _ hsend, by rw [s1, s2]⟩
      simp_all [Combine.Ok]
    · simp at h

theorem JobState_step_ok (cap : Nat) (hs : Hashes) (a : JobAct) (w w' : Wired JobState)
    (hok : w.st.Ok hs w.inp w.out) (h : JobState.step cap hs a w = .next w') :
    w'.st.Ok hs w'.inp w'.out ∧ Consumed w.inp w'.inp ∧ Produced w.out w'.out
      ∧ w'.out.closed = w.out.closed ∧ w'.st.job = w.st.job := by
  unfold JobState.step at h
  split at h
  · rename_i xs i hst
    rw [hst] at hok
    split at h
    · rename_i x hget
      simp only [Step_map_eq_next] at h
      obtain ⟨o, hsend, rfl⟩ := h
      obtain ⟨s1, s2, s3, s4, s5⟩ := Chan_send_next cap _ _ _ hsend
      refine ⟨?_, Consumed_refl _, Produced_send cap _ _ _ hsend, by rw [s1, s2], by rw [hst]; rfl⟩
      simp only [JobState.Ok] at hok ⊢
      rw [s5, hok, List.take_succ, hget]
      rfl
    · simp at h
  · rename_i s hst
    rw [hst] at hok
    simp only [Step_map_eq_next] at h
    obtain ⟨r, hstep, rfl⟩ := h
    obtain ⟨h1, h2, h3, h4⟩ :=
      sendHashedStr_ok cap _ _ (SingleHash_sound hs) a ⟨w.inp, s, w.out⟩ r hok hstep
    exact ⟨h1, h2, h3, h4, by rw [hst]; rfl⟩
  · rename_i s hst
    rw [hst] at hok
    simp only [Step_map_eq_next] at h
    obtain ⟨r, hstep, rfl⟩ := h
    obtain ⟨h1, h2, h3, h4⟩ :=
      sendHashedStr_ok cap _ _ (MultiHash_sound hs) a ⟨w.inp, s, w.out⟩ r hok hstep
    exact ⟨h1, h2, h3, h4, by rw [hst]; rfl⟩
  · rename_i s hst
    rw [hst] at hok
    simp only [Step_map_eq_next] at h
    obtain ⟨r, hstep, rfl⟩ := h
    obtain ⟨h1, h2, h3, h4⟩ := CombineResults_ok cap a ⟨w.inp, s, w.out⟩ r hok hstep
    exact ⟨h1, h2, h3, h4, by rw [hst]; rfl⟩

theorem JobState_step_ne_panic (cap : Nat) (hs : Hashes) (a : JobAct) (w : Wired JobState)
    (hok : w.st.Ok hs w.inp w.out) (hopen : w.out.closed = false) :
    JobState.step cap hs a w ≠ .panic := by
  unfold JobState.step
  split
  · split
    · rw [ne_eq, Step_map_eq_panic, Chan_send_panic, hopen]
      simp
    · simp
  · rename_i s hst
    rw [hst] at hok
    rw [ne_eq, Step_map_eq_panic]
    exact sendHashedStr_ne_panic cap _ _ (SingleHash_sound hs) a ⟨w.inp, s, w.out⟩ hok hopen
  · rename_i s hst
    rw [hst] at hok
    rw [ne_eq, Step_map_eq_panic]
    exact sendHashedStr_ne_panic cap _ _ (MultiHash_sound hs) a ⟨w.inp, s, w.out⟩ hok hopen
  · rename_i s hst
    rw [ne_eq, Step_map_eq_panic]
    cases a with
    | task k a => simp [CombineResults]
    | self =>
      simp only [CombineResults]
      split
      · split
        · simp
        · split <;> simp
      · rw [Step_map_eq_panic, Chan_send_panic, hopen]
        simp
      · simp

theorem Stage_step_ok (cap : Nat) (hs : Hashes) (a : StageAct) (l l' : Local)
    (hok : Stage.Ok hs l.inp l.st l.out) (h : Stage.step cap hs a l = .next l') :
    Stage.Ok hs l'.inp l'.st l'.out ∧ Consumed l.inp l'.inp ∧ Produced l.out l'.out
      ∧ l'.st.job.job = l.st.job.job ∧ l'.wg + l.st.live = l.wg + l'.st.live := by
  obtain ⟨hjob, hph⟩ := hok
  cases a with
  | job a =>
    simp only [Stage.step] at h
    split at h
    · rename_i hphase
      rw [hphase] at hph
      simp only [Step_map_eq_next] at h
      obtain ⟨r, hstep, rfl⟩ := h
      obtain ⟨h1, h2, h3, h4, h5⟩ := JobState_step_ok cap hs a ⟨l.inp, l.st.job, l.out⟩ r hjob hstep
      refine ⟨⟨h1, ?_⟩, h2, h3, h5, ?_⟩
      · simp only [hphase]
        rw [h4]
        exact hph
      · simp [Stage.live, hphase]
    · simp at h
  | exit =>
    simp only [Stage.step] at h
    split at h
    · rename_i hphase
      rw [hphase] at hph
      split at h
      · rename_i hret
        simp only [Step_map_eq_next] at h
        obtain ⟨o, hclose, rfl⟩ := h
        obtain ⟨c1, c2, c3, c4, c5⟩ := Chan_close_next _ _ hclose
        refine ⟨⟨JobState_ok_consumed hs _ _ _ _ c5 hjob, ?_⟩, Consumed_refl _,
          Produced_close _ _ hclose, rfl, ?_⟩
        · simp [c2, hret]
        · simp [Stage.live, hphase]
      · simp at h
    · rename_i hphase
      rw [hphase] at hph
      simp only [Step_map_eq_next, wgDone_eq_next] at h
      obtain ⟨n, hn, rfl⟩ := h
      refine ⟨⟨hjob, ?_⟩, Consumed_refl _, Produced_refl _, rfl, ?_⟩
      · simpa using hph
      · simp only [Stage.live, hphase]
        omega
    · simp at h

theorem Stage_step_ne_panic (cap : Nat) (hs : Hashes) (a : StageAct) (l : Local)
    (hok : Stage.Ok hs l.inp l.st l.out) (hwg : l.st.live ≤ l.wg) :
    Stage.step cap hs a l ≠ .panic := by
  obtain ⟨hjob, hph⟩ := hok
  cases a with
  | job a =>
    simp only [Stage.step]
    split
    · rename_i hphase
      rw [hphase] at hph
      rw [ne_eq, Step_map_eq_panic]
      exact JobState_step_ne_panic cap hs a ⟨l.inp, l.st.job, l.out⟩ hjob hph
    · simp
  | exit =>
    simp only [Stage.step]
    split
    · rename_i hphase
      rw [hphase] at hph
      split
      · rw [ne_eq, Step_map_eq_panic, Chan_close_panic, hph]
        simp
      · simp
    · rename_i hphase
      simp only [Stage.live, hphase] at hwg
      rw [ne_eq, Step_map_eq_panic, wgDone_eq_panic]
      omega
    · simp

theorem Stage_ok_consumed (hs : Hashes) (inp : Option Chan) (st : Stage) (out out' : Chan)
    (hc : Consumed (some out) (some out')) (hok : Stage.Ok hs inp st out) :
    Stage.Ok hs inp st out' := by
  obtain ⟨h1, h2, -⟩ := hc
  exact ⟨JobState_ok_consumed hs inp st.job out out' h1 hok.1, by rw [h2]; exact hok.2⟩

theorem Stage_ok_produced (hs : Hashes) (c c' : Chan) (st : Stage) (out : Chan)
    (hp : Produced c c') (hok : Stage.Ok hs (some c) st out) : Stage.Ok hs (some c') st out :=
  ⟨JobState_ok_produced hs c c' st.job out hp hok.1, hok.2⟩

/-! ## The pipeline -/

theorem lastOut_setLastOut (o : Option Chan) (cells : List Cell)
    (h : Consumed (lastOut cells) o) : lastOut (setLastOut o cells) = o := by
  cases cells with
  | nil => cases o <;> simp_all [Consumed, lastOut, setLastOut]
  | cons c rest => cases o <;> simp_all [Consumed, lastOut, setLastOut]

theorem CellsOk_of_consumed (hs : Hashes) (o : Option Chan) (cells : List Cell)
    (h : Consumed (lastOut cells) o) (hok : CellsOk hs cells) :
    CellsOk hs (setLastOut o cells) := by
  cases cells with
  | nil => cases o <;> simp_all [setLastOut]
  | cons c rest =>
    cases o with
    | none => simp [Consumed, lastOut] at h
    | some o =>
      simp only [Signer.setLastOut, CellsOk]
      exact ⟨Stage_ok_consumed hs _ c.st c.out o h hok.1, hok.2⟩

theorem liveCells_setLastOut (o : Option Chan) (cells : List Cell) :
    liveCells (setLastOut o cells) = liveCells cells := by
  cases cells <;> cases o <;> simp [setLastOut, liveCells]

theorem jobsOf_setLastOut (o : Option Chan) (cells : List Cell) :
    jobsOf (setLastOut o cells) = jobsOf cells := by
  cases cells <;> cases o <;> simp [setLastOut, jobsOf]

theorem length_setLastOut (o : Option Chan) (cells : List Cell) :
    (setLastOut o cells).length = cells.length := by
  cases cells <;> cases o <;> simp [setLastOut]

theorem liveCells_cons (c : Cell) (rest : List Cell) :
    liveCells (c :: rest) = c.st.live + liveCells rest := by
  simp [liveCells]

theorem jobsOf_cons (c : Cell) (rest : List Cell) :
    jobsOf (c :: rest) = jobsOf rest ++ [c.st.job.job] := by
  simp [jobsOf]

theorem stepCells_ok (cap : Nat) (hs : Hashes) (a : StageAct) (i : Nat) :
    ∀ (cells : List Cell) (wg wg' : Nat) (cells' : List Cell),
      CellsOk hs cells → stepCells cap hs a i wg cells = .next (wg', cells') →
      CellsOk hs cells' ∧ wg' + liveCells cells = wg + liveCells cells'
        ∧ jobsOf cells' = jobsOf cells ∧ cells'.length = cells.length
        ∧ (∀ c, lastOut cells = some c → ∃ c', lastOut cells' = some c' ∧ Produced c c')
  | [], wg, wg', cells', _, h => by simp [stepCells] at h
  | c :: rest, wg, wg', cells', hok, h => by
    simp only [stepCells] at h
    split at h
    · simp only [Step_map_eq_next, Prod.mk.injEq] at h
      obtain ⟨l, hstep, rfl, rfl⟩ := h
      obtain ⟨h1, h2, h3, h4, h5⟩ :=
        Stage_step_ok cap hs a ⟨wg, lastOut rest, c.st, c.out⟩ l hok.1 hstep
      simp only at h1 h2 h3 h4 h5
      refine ⟨⟨?_, CellsOk_of_consumed hs _ _ h2 hok.2⟩, ?_, ?_, ?_, ?_⟩
      · rw [lastOut_setLastOut _ _ h2]
        exact h1
      · rw [liveCells_cons, liveCells_cons, liveCells_setLastOut]
        simp only
        omega
      · rw [jobsOf_cons, jobsOf_cons, jobsOf_setLastOut]
        simp only [h4]
      · simp [length_setLastOut]
      · intro c0 hc0
        simp only [lastOut, Option.some.injEq] at hc0
        subst hc0
        exact ⟨l.out, rfl, h3⟩
    · simp only [Step_map_eq_next, Prod.mk.injEq] at h
      obtain ⟨⟨w1, r1⟩, hstep, rfl, rfl⟩ := h
      obtain ⟨h1, h2, h3, h4, h5⟩ := stepCells_ok cap hs a i rest wg w1 r1 hok.2 hstep
      refine ⟨⟨?_, h1⟩, ?_, ?_, ?_, ?_⟩
      · cases hlo : lastOut rest with
        | none =>
          have : rest = [] := by
            cases rest <;> simp_all [lastOut]
          subst this
          simp [stepCells] at hstep
        | some c0 =>
          obtain ⟨c0', hc0', hp⟩ := h5 c0 hlo
          simp only [hc0']
          have := hok.1
          rw [hlo] at this
          exact Stage_ok_produced hs c0 c0' c.st c.out hp this
      · rw [liveCells_cons, liveCells_cons]
        simp only at h2 ⊢
        omega
      · rw [jobsOf_cons, jobsOf_cons, h3]
      · simp [h4]
      · intro c0 hc0
        simp only [lastOut, Option.some.injEq] at hc0
        subst hc0
        exact ⟨c.out, rfl, Produced_refl _⟩

theorem stepCells_ne_panic (cap : Nat) (hs : Hashes) (a : StageAct) (i : Nat) :
    ∀ (cells : List Cell) (wg : Nat), CellsOk hs cells → liveCells cells ≤ wg →
      stepCells cap hs a i wg cells ≠ .panic
  | [], wg, _, _ => by simp [stepCells]
  | c :: rest, wg, hok, hwg => by
    rw [liveCells_cons] at hwg
    simp only [stepCells]
    split
    · rw [ne_eq, Step_map_eq_panic]
      exact Stage_step_ne_panic cap hs a ⟨wg, lastOut rest, c.st, c.out⟩ hok.1 (by simp only; omega)
    · rw [ne_eq, Step_map_eq_panic]
      exact stepCells_ne_panic cap hs a i rest wg hok.2 (by omega)

theorem JobState_start_ok (hs : Hashes) (j : Job) (inp : Option Chan) (hi : takenOf inp = []) :
    j.start.Ok hs inp Chan.make ∧ j.start.job = j := by
  cases j with
  | feed xs => simp [Job.start, JobState.Ok, JobState.job, Chan.make, Chan.hist]
  | SingleHash =>
    exact ⟨Send_init_ok (SingleHash.spec hs) false inp Chan.make rfl hi rfl, rfl⟩
  | MultiHash =>
    exact ⟨Send_init_ok (MultiHash.spec hs) () inp Chan.make rfl hi rfl, rfl⟩
  | CombineResults => simp [Job.start, JobState.Ok, JobState.job, Combine.Ok, Chan.make, Chan.hist, hi]

theorem ExecutePipeline_ok (hs : Hashes) (jobs : List Job) :
    Pipeline.Ok hs jobs (ExecutePipeline jobs) := by
  simp [Pipeline.Ok, ExecutePipeline, CellsOk, Main.todo, liveCells, jobsOf, lastOut, takenOf]

theorem Stage_step_wg (cap : Nat) (hs : Hashes) (a : StageAct) (l l' : Local)
    (h : Stage.step cap hs a l = .next l') : l'.wg ≤ l.wg := by
  cases a with
  | job a =>
    simp only [Stage.step] at h
    split at h
    · simp only [Step_map_eq_next] at h
      obtain ⟨r, -, rfl⟩ := h
      exact Nat.le_refl _
    · simp at h
  | exit =>
    simp only [Stage.step] at h
    split at h
    · split at h
      · simp only [Step_map_eq_next] at h
        obtain ⟨o, -, rfl⟩ := h
        exact Nat.le_refl _
      · simp at h
    · simp only [Step_map_eq_next, wgDone_eq_next] at h
      obtain ⟨n, hn, rfl⟩ := h
      simp only
      omega
    · simp at h

theorem stepCells_wg (cap : Nat) (hs : Hashes) (a : StageAct) (i : Nat) :
    ∀ (cells : List Cell) (wg : Nat) (r : Nat × List Cell),
      stepCells cap hs a i wg cells = .next r → r.1 ≤ wg
  | [], wg, r, h => by simp [stepCells] at h
  | c :: rest, wg, r, h => by
    simp only [stepCells] at h
    split at h
    · simp only [Step_map_eq_next] at h
      obtain ⟨l, hstep, rfl⟩ := h
      exact Stage_step_wg cap hs a _ l hstep
    · simp only [Step_map_eq_next] at h
      obtain ⟨x, hstep, rfl⟩ := h
      exact stepCells_wg cap hs a i rest wg x hstep

theorem Pipeline_stepMain_ok (hs : Hashes) (jobs : List Job) (s s' : Pipeline)
    (hok : Pipeline.Ok hs jobs s) (h : s.stepMain = .next s') : Pipeline.Ok hs jobs s' := by
  obtain ⟨hcr, hcells, hwg, hjobs, hlast, -⟩ := hok
  unfold Pipeline.stepMain at h
  split at h
  · rename_i j rest hmain
    simp only [Step.next.injEq] at h
    subst h
    rw [hmain] at hwg hjobs
    obtain ⟨hs1, hs2⟩ := JobState_start_ok hs j (lastOut s.cells) hlast
    refine ⟨hcr, ⟨⟨hs1, rfl⟩, hcells⟩, ?_, ?_, rfl, by simp⟩
    · simp only [Main.todo, List.length_cons, liveCells_cons, Stage.live] at hwg ⊢
      omega
    · simp only [Main.todo, jobsOf_cons, hs2] at hjobs ⊢
      simpa using hjobs
  · rename_i hmain
    simp only [Step.next.injEq] at h
    subst h
    rw [hmain] at hwg hjobs
    exact ⟨hcr, hcells, by simpa [Main.todo] using hwg, by simpa [Main.todo] using hjobs, hlast,
      by simp⟩
  · rename_i hmain
    rw [hmain] at hwg hjobs
    split at h
    · rename_i hz
      simp only [Step.next.injEq] at h
      subst h
      exact ⟨hcr, hcells, by simpa [Main.todo] using hwg, by simpa [Main.todo] using hjobs, hlast,
        fun _ => hz⟩
    · simp at h
  · simp at h

theorem Pipeline_stepMain_ne_panic (s : Pipeline) : s.stepMain ≠ .panic := by
  unfold Pipeline.stepMain
  split
  · simp
  · simp
  · split <;> simp
  · simp

theorem Pipeline_step_ok (cap : Nat) (hs : Hashes) (jobs : List Job) (lb : Label)
    (s s' : Pipeline) (hok : Pipeline.Ok hs jobs s) (h : Pipeline.step cap hs lb s = some s') :
    Pipeline.Ok hs jobs s' := by
  have hok' := hok
  obtain ⟨hcr, hcells, hwg, hjobs, hlast, hret⟩ := hok
  unfold Pipeline.step at h
  rw [if_neg (by simp [hcr])] at h
  cases lb with
  | main =>
    simp only at h
    split at h
    · rename_i s1 hstep
      simp only [Option.some.injEq] at h
      subst h
      exact Pipeline_stepMain_ok hs jobs s s1 hok' hstep
    · rename_i hstep
      exact absurd hstep (Pipeline_stepMain_ne_panic s)
    · simp at h
  | stage i a =>
    have hnp := stepCells_ne_panic cap hs a i s.cells s.wg hcells (by omega)
    simp only at h
    split at h
    · rename_i r hstep
      simp only [Option.some.injEq] at h
      subst h
      obtain ⟨h1, h2, h3, h4, h5⟩ := stepCells_ok cap hs a i s.cells s.wg r.1 r.2 hcells hstep
      have hle := stepCells_wg cap hs a i s.cells s.wg r hstep
      refine ⟨hcr, h1, ?_, ?_, ?_, fun hm => by have := hret hm; simp only; omega⟩
      · simp only
        omega
      · simp only [h3]
        exact hjobs
      · simp only
        cases hlo : lastOut s.cells with
        | none =>
          have : s.cells = [] := by
            cases hc : s.cells <;> simp_all [lastOut]
          rw [this] at h4
          have : r.2 = [] := by simpa using h4
          rw [this]
          rfl
        | some c0 =>
          obtain ⟨c0', hc0', hp⟩ := h5 c0 hlo
          rw [hc0', takenOf_produced c0 c0' hp, ← hlo]
          exact hlast
    · rename_i hstep
      exact absurd hstep hnp
    · simp at h

theorem Pipeline_run_ok (cap : Nat) (hs : Hashes) (jobs : List Job) :
    ∀ (sched : List Label) (s s' : Pipeline), Pipeline.Ok hs jobs s →
      Pipeline.run cap hs sched s = some s' → Pipeline.Ok hs jobs s'
  | [], s, s', hok, h => by
    simp only [Pipeline.run, Option.some.injEq] at h
    exact h ▸ hok
  | lb :: rest, s, s', hok, h => by
    simp only [Pipeline.run] at h
    split at h
    · rename_i s1 hstep
      exact Pipeline_run_ok cap hs jobs rest s1 s' (Pipeline_step_ok cap hs jobs lb s s1 hok hstep) h
    · simp at h

theorem Reachable_ok (cap : Nat) (hs : Hashes) (jobs : List Job) (s : Pipeline)
    (h : Reachable cap hs jobs s) : Pipeline.Ok hs jobs s := by
  obtain ⟨sched, hrun⟩ := h
  exact Pipeline_run_ok cap hs jobs sched _ s (ExecutePipeline_ok hs jobs) hrun

theorem CellsOk_split (hs : Hashes) :
    ∀ (pre : List Cell) (c : Cell) (rest : List Cell), CellsOk hs (pre ++ c :: rest) →
      Stage.Ok hs (lastOut rest) c.st c.out
  | [], _, _, h => h.1
  | _ :: pre, c, rest, h => CellsOk_split hs pre c rest h.2

theorem jobsOf_eq_nil (cells : List Cell) (h : jobsOf cells = []) : cells = [] := by
  cases cells with
  | nil => rfl
  | cons c rest => simp [jobsOf] at h

/-! ## Sorting and joining -/

theorem strLe_total (a b : String) : strLe a b ∨ strLe b a := le_total a.toList b.toList

theorem strLe_trans (a b c : String) (h1 : strLe a b) (h2 : strLe b c) : strLe a c :=
  le_trans (α := List Char) h1 h2

theorem strLe_antisymm (a b : String) (h1 : strLe a b) (h2 : strLe b a) : a = b :=
  String.ext (le_antisymm h1 h2)

theorem sortStrings_sorted (l : List String) : (sortStrings l).Sorted strLe := by
  have : IsTotal String strLe := ⟨strLe_total⟩
  have : IsTrans String strLe := ⟨strLe_trans⟩
  exact List.sorted_insertionSort strLe l

theorem sortStrings_perm (l : List String) : (sortStrings l).Perm l :=
  List.perm_insertionSort strLe l

theorem sortStrings_congr (xs ys : List String) (h : xs.Perm ys) :
    sortStrings xs = sortStrings ys := by
  have : IsAntisymm String strLe := ⟨strLe_antisymm⟩
  exact List.eq_of_perm_of_sorted
    ((sortStrings_perm xs).trans (h.trans (sortStrings_perm ys).symm))
    (sortStrings_sorted xs) (sortStrings_sorted ys)

theorem CombineResults_value_congr (xs ys : List String) (h : xs.Perm ys) :
    CombineResults.value xs = CombineResults.value ys := by
  simp only [CombineResults.value, sortStrings_congr xs ys h]

/-! ## `CombineResults` on its own -/

theorem runSteps_append {α σ : Type} (step : α → σ → Step σ) :
    ∀ (l₁ l₂ : List α) (s : σ),
      runSteps step (l₁ ++ l₂) s = (runSteps step l₁ s).bind (runSteps step l₂)
  | [], l₂, s => rfl
  | a :: l₁, l₂, s => by
    simp only [List.cons_append, runSteps]
    cases step a s with
    | next s' => exact runSteps_append step l₁ l₂ s'
    | blocked => rfl
    | panic => rfl

theorem CombineResults_run_ranging (cap : Nat) :
    ∀ (xs taken : List Item) (results : List String) (out : Chan),
      runSteps (CombineResults cap) (List.replicate xs.length .self)
          ⟨some ⟨taken, xs, true⟩, .ranging results, out⟩
        = some ⟨some ⟨taken ++ xs, [], true⟩, .ranging (results ++ xs.map Item.format), out⟩
  | [], taken, results, out => by simp [runSteps]
  | x :: xs, taken, results, out => by
    simp only [List.length_cons, List.replicate_succ, runSteps, CombineResults, Chan.recv]
    rw [CombineResults_run_ranging cap xs (taken ++ [x]) (results ++ [x.format]) out]
    simp

theorem CombineResults_run_fed (cap : Nat) (hcap : 0 < cap) (xs : List Item) :
    runSteps (CombineResults cap) (List.replicate (xs.length + 2) .self) (Combine.fed xs)
      = some ⟨some ⟨xs, [], true⟩, .returned,
          ⟨[], [.str (CombineResults.value (xs.map Item.format))], false⟩⟩ := by
  have h := CombineResults_run_ranging cap xs [] [] Chan.make
  rw [show xs.length + 2 = xs.length + (1 + 1) by rfl, List.replicate_add, runSteps_append]
  simp only [Combine.fed, Chan.closedWith, h, List.nil_append, Option.bind]
  simp [runSteps, CombineResults, Chan.recv, Chan.send, Chan.make, hcap, Step.map]

theorem CombineResults_run_ok (cap : Nat) :
    ∀ (sched : List JobAct) (w w' : Wired Combine), Combine.Ok w.inp w.st w.out →
      runSteps (CombineResults cap) sched w = some w' →
      Combine.Ok w'.inp w'.st w'.out ∧ histOf w'.inp = histOf w.inp
  | [], w, w', hok, h => by
    simp only [runSteps, Option.some.injEq] at h
    subst h
    exact ⟨hok, rfl⟩
  | a :: rest, w, w', hok, h => by
    simp only [runSteps] at h
    split at h
    · rename_i w1 hstep
      obtain ⟨h1, h2, -, -⟩ := CombineResults_ok cap a w w1 hok hstep
      obtain ⟨h3, h4⟩ := CombineResults_run_ok cap rest w1 w' h1 h
      refine ⟨h3, h4.trans ?_⟩
      revert h2
      cases w.inp <;> cases w1.inp <;> simp [Consumed, histOf]
      intro hh _ _
      exact hh
    · simp at h

theorem CombineResults_fed_hist (cap : Nat) (xs : List Item) (sched : List JobAct)
    (w : Wired Combine) (h : runSteps (CombineResults cap) sched (Combine.fed xs) = some w) :
    w.out.hist = [] ∨
      w.out.hist = [.str (CombineResults.value (xs.map Item.format))] := by
  obtain ⟨hok, hh⟩ := CombineResults_run_ok cap sched (Combine.fed xs) w
    (by simp [Combine.fed, Combine.Ok, Chan.closedWith, takenOf, Chan.make, Chan.hist]) h
  cases hst : w.st with
  | ranging r =>
    rw [hst] at hok
    exact Or.inl hok.2
  | sending v =>
    rw [hst] at hok
    exact Or.inl hok.2.2
  | returned =>
    rw [hst] at hok
    right
    obtain ⟨hd, ho⟩ := hok
    cases hinp : w.inp with
    | none => simp [hinp, Drained] at hd
    | some c =>
      rw [hinp] at hd hh ho
      simp only [Drained] at hd
      simp only [histOf, Combine.fed, Chan.closedWith, Chan.hist, hd.2, List.append_nil,
        List.nil_append] at hh
      simp only [takenOf, hh] at ho
      exact ho

/-! ## Runs of one closure call on its own -/

theorem SHCall_run_ok (hs : Hashes) (s : String) :
    ∀ (sched : List CallAct) (e e' : Bool) (c c' : SHCall), c.Ok hs s → held e = c.holds →
      runSteps (SHCall.step hs) sched (e, c) = some (e', c') →
      c'.Ok hs s ∧ held e' = c'.holds ∧ sched.length + c'.todo ≤ c.todo
  | [], e, e', c, c', hok, hh, h => by
    simp only [runSteps, Option.some.injEq, Prod.mk.injEq] at h
    obtain ⟨rfl, rfl⟩ := h
    exact ⟨hok, hh, by simp⟩
  | a :: rest, e, e', c, c', hok, hh, h => by
    simp only [runSteps] at h
    split at h
    · rename_i x hstep
      obtain ⟨e1, c1⟩ := x
      have h1 := SHCall_step_ok hs s a e e1 c c1 hok hstep
      have h2 := SHCall_step_holds hs a e e1 c c1 (by omega) hstep
      have h3 := SHCall_step_todo hs a e e1 c c1 hstep
      obtain ⟨h4, h5, h6⟩ := SHCall_run_ok hs s rest e1 e' c1 c' h1 (by omega) h
      exact ⟨h4, h5, by simp only [List.length_cons]; omega⟩
    · simp at h

theorem MHCall_run_ok (hs : Hashes) (s : String) :
    ∀ (sched : List CallAct) (u u' : Unit) (c c' : MHCall), c.Ok hs s →
      runSteps (MHCall.step hs) sched (u, c) = some (u', c') →
      c'.Ok hs s ∧ sched.length + c'.todo ≤ c.todo
  | [], u, u', c, c', hok, h => by
    simp only [runSteps, Option.some.injEq, Prod.mk.injEq] at h
    obtain ⟨-, rfl⟩ := h
    exact ⟨hok, by simp⟩
  | a :: rest, u, u', c, c', hok, h => by
    simp only [runSteps] at h
    split at h
    · rename_i x hstep
      obtain ⟨u1, c1⟩ := x
      have h1 := MHCall_step_ok hs s a u u1 c c1 hok hstep
      have h3 := MHCall_step_todo hs a u u1 c c1 hstep
      obtain ⟨h4, h6⟩ := MHCall_run_ok hs s rest u1 u' c1 c' h1 h
      exact ⟨h4, by simp only [List.length_cons]; omega⟩
    · simp at h

theorem Send_mem_hist {E C : Type} (sp : HashFn.Spec E C) (inp : Option Chan) (s : Send E C)
    (out : Chan) (hok : Send.Ok sp inp s out) (v : Item) (hv : v ∈ out.hist) :
    ∃ x ∈ takenOf inp, v = .str (sp.item x.format) := by
  have h := hok.2.2.1
  have hm : v ∈ (Multiset.ofList out.hist + (s.tasks.map (Task.pending sp.item)).sum) :=
    Multiset.mem_add.mpr (Or.inl (by simpa using hv))
  rw [← h] at hm
  simp only [Multiset.mem_coe, List.mem_map] at hm
  obtain ⟨x, hx, rfl⟩ := hm
  exact ⟨x, hx, rfl⟩

/-! ## Consequences of the invariants for a hashing stage -/

theorem Task_live_eq_zero {C : Type} (t : Task C) (h : t.live = 0) : t = .done := by
  cases t <;> simp [Task.live] at h ⊢

theorem Send_returned_done {E C : Type} (sp : HashFn.Spec E C) (inp : Option Chan)
    (s : Send E C) (out : Chan) (hok : Send.Ok sp inp s out) (hret : s.phase = .returned) :
    s.allDone ∧ Drained inp := by
  obtain ⟨hwg, -, -, -, hdr, hz⟩ := hok
  refine ⟨?_, hdr (by simp [hret])⟩
  intro t ht
  obtain ⟨k, hk, hget⟩ := List.getElem_of_mem ht
  have h0 : (s.tasks.map Task.live).sum = 0 := by
    rw [← hwg]
    exact hz hret
  exact Task_live_eq_zero t
    (sum_map_eq_zero Task.live s.tasks h0 k t (by rw [List.getElem?_eq_getElem hk, hget]))

theorem sum_pending_eq_zero {C : Type} (item : String → String) :
    ∀ (l : List (Task C)), (∀ t ∈ l, t = Task.done) → (l.map (Task.pending item)).sum = 0
  | [], _ => rfl
  | t :: l, h => by
    have ht : t = Task.done := h t (List.mem_cons_self _ _)
    subst ht
    simp only [List.map_cons, List.sum_cons, Task.pending, zero_add]
    exact sum_pending_eq_zero item l (fun t ht => h t (List.mem_cons_of_mem _ ht))

theorem Drained_taken_eq (inp : Option Chan) (h : Drained inp) : takenOf inp = histOf inp := by
  cases inp with
  | none => rfl
  | some c => simp [takenOf, histOf, Chan.hist, h.2]

theorem Send_subperm {E C : Type} (sp : HashFn.Spec E C) (inp : Option Chan) (s : Send E C)
    (out : Chan) (hok : Send.Ok sp inp s out) :
    out.hist.Subperm ((takenOf inp).map fun x => Item.str (sp.item x.format)) := by
  rw [← Multiset.coe_le, hok.2.2.1]
  exact Multiset.le_add_right _ _

theorem Send_returned_perm {E C : Type} (sp : HashFn.Spec E C) (inp : Option Chan)
    (s : Send E C) (out : Chan) (hok : Send.Ok sp inp s out) (hret : s.phase = .returned) :
    out.hist.Perm ((histOf inp).map fun x => Item.str (sp.item x.format)) := by
  obtain ⟨hdone, hdr⟩ := Send_returned_done sp inp s out hok hret
  have h := hok.2.2.1
  rw [sum_pending_eq_zero sp.item s.tasks hdone, add_zero, Drained_taken_eq inp hdr] at h
  exact (Multiset.coe_eq_coe.mp h).symm

theorem sum_le_sum_map {α : Type} (f g : α → Nat) :
    ∀ (l : List α), (∀ a ∈ l, f a ≤ g a) → (l.map f).sum ≤ (l.map g).sum
  | [], _ => by simp
  | a :: l, h => by
    have h1 := h a (List.mem_cons_self _ _)
    have h2 := sum_le_sum_map f g l (fun b hb => h b (List.mem_cons_of_mem _ hb))
    simp only [List.map_cons, List.sum_cons]
    omega

theorem JobState_md5Running_le (hs : Hashes) (inp : Option Chan) (j : JobState) (out : Chan)
    (hok : j.Ok hs inp out) :
    j.md5Running ≤ (if j.job.isSingleHash then 1 else 0) := by
  cases j with
  | singleHash s =>
    have hmx := hok.2.1
    have hle := held_le s.env
    change held s.env = _ at hmx
    have : (s.tasks.map Task.md5Running).sum
        ≤ (s.tasks.map (Task.holds (SingleHash.spec hs))).sum := by
      apply sum_le_sum_map
      intro t _
      cases t with
      | calling str c =>
        obtain ⟨d, w1, w2, b⟩ := c
        cases w2 <;> simp [Task.md5Running, Task.holds, SingleHash.spec, SHCall.holds, SHCall.inMd5]
      | sent => simp [Task.md5Running]
      | done => simp [Task.md5Running]
    simp only [JobState.md5Running, JobState.job, Job.isSingleHash, if_true]
    omega
  | feed xs i => simp [JobState.md5Running]
  | multiHash s => simp [JobState.md5Running]
  | combine c => simp [JobState.md5Running]

theorem md5Running_cells_le (hs : Hashes) :
    ∀ (cells : List Cell), CellsOk hs cells →
      (cells.map fun c => c.st.job.md5Running).sum
        ≤ ((jobsOf cells).filter Job.isSingleHash).length
  | [], _ => by simp [jobsOf]
  | c :: rest, hok => by
    have h1 := JobState_md5Running_le hs _ c.st.job c.out hok.1.1
    have h2 := md5Running_cells_le hs rest hok.2
    rw [jobsOf_cons, List.filter_append, List.length_append]
    simp only [List.map_cons, List.sum_cons, List.filter_cons, List.filter_nil]
    split at h1 <;> simp_all
    omega

/-! ## Consequences of the invariants for a closed stage -/

theorem Stage_closed_returned (hs : Hashes) (inp : Option Chan) (st : Stage) (out : Chan)
    (hok : Stage.Ok hs inp st out) (hc : out.closed = true) :
    st.phase ≠ .running ∧ st.job.returned = true := by
  have h := hok.2
  cases hp : st.phase <;> rw [hp] at h <;> simp_all

theorem Stage_closed_iff (hs : Hashes) (inp : Option Chan) (st : Stage) (out : Chan)
    (hok : Stage.Ok hs inp st out) : out.closed = true ↔ st.phase ≠ .running := by
  have h := hok.2
  cases hp : st.phase <;> rw [hp] at h <;> simp_all

theorem Stage_singleHash_closed (hs : Hashes) (inp : Option Chan) (st : Stage) (out : Chan)
    (s : Send Bool SHCall) (hok : Stage.Ok hs inp st out) (hj : st.job = .singleHash s)
    (hc : out.closed = true) :
    out.hist.Perm ((histOf inp).map fun x => Item.str (SingleHash.item hs x.format))
      ∧ s.allDone ∧ Drained inp := by
  have hr := (Stage_closed_returned hs inp st out hok hc).2
  have hj' := hok.1
  rw [hj] at hr hj'
  simp only [JobState.returned, decide_eq_true_eq] at hr
  exact ⟨Send_returned_perm (SingleHash.spec hs) inp s out hj' hr,
    Send_returned_done (SingleHash.spec hs) inp s out hj' hr⟩

theorem Stage_multiHash_closed (hs : Hashes) (inp : Option Chan) (st : Stage) (out : Chan)
    (s : Send Unit MHCall) (hok : Stage.Ok hs inp st out) (hj : st.job = .multiHash s)
    (hc : out.closed = true) :
    out.hist.Perm ((histOf inp).map fun x => Item.str (MultiHash.item hs x.format))
      ∧ s.allDone ∧ Drained inp := by
  have hr := (Stage_closed_returned hs inp st out hok hc).2
  have hj' := hok.1
  rw [hj] at hr hj'
  simp only [JobState.returned, decide_eq_true_eq] at hr
  exact ⟨Send_returned_perm (MultiHash.spec hs) inp s out hj' hr,
    Send_returned_done (MultiHash.spec hs) inp s out hj' hr⟩

theorem Stage_feed_closed (hs : Hashes) (inp : Option Chan) (st : Stage) (out : Chan)
    (xs : List Item) (hok : Stage.Ok hs inp st out) (hj : st.job.job = .feed xs)
    (hc : out.closed = true) : out.hist = xs := by
  have hr := (Stage_closed_returned hs inp st out hok hc).2
  have hj' := hok.1
  cases hjs : st.job with
  | feed ys i =>
    rw [hjs] at hr hj' hj
    simp only [JobState.job, Job.feed.injEq] at hj
    subst hj
    simp only [JobState.returned, decide_eq_true_eq] at hr
    simp only [JobState.Ok] at hj'
    rw [hj', List.take_of_length_le hr]
  | singleHash s => simp [hjs, JobState.job] at hj
  | multiHash s => simp [hjs, JobState.job] at hj
  | combine s => simp [hjs, JobState.job] at hj

theorem JobState_job_singleHash (j : JobState) (h : j.job = .SingleHash) :
    ∃ s, j = .singleHash s := by
  cases j <;> simp [JobState.job] at h
  exact ⟨_, rfl⟩

theorem JobState_job_multiHash (j : JobState) (h : j.job = .MultiHash) :
    ∃ s, j = .multiHash s := by
  cases j <;> simp [JobState.job] at h
  exact ⟨_, rfl⟩

theorem JobState_job_combine (j : JobState) (h : j.job = .CombineResults) :
    ∃ s, j = .combine s := by
  cases j <;> simp [JobState.job] at h
  exact ⟨_, rfl⟩

theorem cells_of_combine (xs : List Item) (cells : List Cell) (todo : List Job)
    (hjobs : jobsOf cells ++ todo = [.feed xs, .SingleHash, .MultiHash, .CombineResults])
    (c : Cell) (hc : c ∈ cells) (hj : c.st.job.job = .CombineResults) :
    ∃ c2 c1 c0, cells = [c, c2, c1, c0] ∧ c2.st.job.job = .MultiHash
      ∧ c1.st.job.job = .SingleHash ∧ c0.st.job.job = .feed xs := by
  match cells, hjobs, hc with
  | [], _, hc => simp at hc
  | [a], hjobs, hc =>
    simp [jobsOf] at hjobs hc
    subst hc
    rw [hj] at hjobs
    simp at hjobs
  | [a, b], hjobs, hc =>
    simp [jobsOf] at hjobs hc
    rcases hc with rfl | rfl <;> simp_all
  | [a, b, d], hjobs, hc =>
    simp [jobsOf] at hjobs hc
    rcases hc with rfl | rfl | rfl <;> simp_all
  | [a, b, d, e], hjobs, hc =>
    simp [jobsOf] at hjobs hc
    rcases hc with rfl | rfl | rfl | rfl
    · exact ⟨b, d, e, rfl, hjobs.2.2.1, hjobs.2.1, hjobs.1⟩
    · rw [hj] at hjobs
      simp at hjobs
    · rw [hj] at hjobs
      simp at hjobs
    · rw [hj] at hjobs
      simp at hjobs
  | a :: b :: d :: e :: f :: rest, hjobs, _ =>
    have := congrArg List.length hjobs
    simp [jobsOf] at this
    omega

theorem map_format_str (f : Item → String) (l : List Item) :
    (l.map fun x => Item.str (f x)).map Item.format = l.map f := by
  simp [Function.comp_def, Item.format]

theorem pipeline_value (hs : Hashes) (xs : List Item) (c c2 c1 c0 : Cell)
    (hok : CellsOk hs [c, c2, c1, c0]) (h2 : c2.st.job.job = .MultiHash)
    (h1 : c1.st.job.job = .SingleHash) (h0 : c0.st.job.job = .feed xs)
    (hd : Drained (some c2.out)) :
    CombineResults.value (c2.out.taken.map Item.format)
      = CombineResults.value
          (xs.map fun x => MultiHash.item hs (SingleHash.item hs x.format)) := by
  obtain ⟨-, ok2, ok1, ok0, -⟩ := hok
  obtain ⟨s2, hs2⟩ := JobState_job_multiHash _ h2
  obtain ⟨s1, hs1⟩ := JobState_job_singleHash _ h1
  obtain ⟨p2, -, d1⟩ := Stage_multiHash_closed hs _ c2.st c2.out s2 ok2 hs2 hd.1
  simp only [lastOut] at d1 p2
  obtain ⟨p1, -, d0⟩ := Stage_singleHash_closed hs _ c1.st c1.out s1 ok1 hs1 d1.1
  simp only [lastOut] at d0 p1
  have e0 := Stage_feed_closed hs _ c0.st c0.out xs ok0 h0 d0.1
  apply CombineResults_value_congr
  have t2 : c2.out.taken = c2.out.hist := by simp [Chan.hist, hd.2]
  rw [t2]
  simp only [histOf, e0] at p1 p2
  have q2 := (p2.map Item.format)
  rw [map_format_str] at q2
  refine q2.trans ?_
  have q1 := (p1.map Item.format)
  rw [map_format_str] at q1
  have q3 := q1.map (MultiHash.item hs)
  simp only [List.map_map, Function.comp_def] at q3 ⊢
  exact q3

theorem Pipeline_run_append (cap : Nat) (hs : Hashes) :
    ∀ (l₁ l₂ : List Label) (s : Pipeline),
      Pipeline.run cap hs (l₁ ++ l₂) s = (Pipeline.run cap hs l₁ s).bind (Pipeline.run cap hs l₂)
  | [], l₂, s => rfl
  | a :: l₁, l₂, s => by
    simp only [List.cons_append, Pipeline.run]
    cases Pipeline.step cap hs a s with
    | some s' => exact Pipeline_run_append cap hs l₁ l₂ s'
    | none => rfl

theorem Reachable_step (cap : Nat) (hs : Hashes) (jobs : List Job) (p p' : Pipeline)
    (lb : Label) (hr : Reachable cap hs jobs p) (h : Pipeline.step cap hs lb p = some p') :
    Reachable cap hs jobs p' := by
  obtain ⟨sched, hrun⟩ := hr
  refine ⟨sched ++ [lb], ?_⟩
  rw [Pipeline_run_append, hrun]
  simp [Pipeline.run, h]

theorem CellsOk_mem (hs : Hashes) (cells : List Cell) (hok : CellsOk hs cells) (c : Cell)
    (hc : c ∈ cells) : ∃ inp, Stage.Ok hs inp c.st c.out := by
  obtain ⟨pre, rest, rfl⟩ := List.append_of_mem hc
  exact ⟨_, CellsOk_split hs pre c rest hok⟩


/-! ## Progress: a stage that is not finished can move, or waits for room -/

theorem sendHashedStr_can_recv {E C : Type} (cap : Nat) (f : HashFn E C)
    (w : Wired (Send E C)) (c : Chan) (hphase : w.st.phase = .ranging) (hinp : w.inp = some c)
    (hbuf : c.buf ≠ [] ∨ c.closed = true) : ∃ w', sendHashedStr cap f .self w = .next w' := by
  simp only [sendHashedStr, sendHashedStr.stepSelf, hphase, hinp, Chan.recv]
  cases hb : c.buf with
  | cons x rest => exact ⟨_, rfl⟩
  | nil =>
    rcases hbuf with h | h
    · exact absurd hb h
    · simp only [h, if_true]
      exact ⟨_, rfl⟩

theorem Task_holds_pos {E C : Type} (sp : HashFn.Spec E C) (t : Task C)
    (h : 0 < Task.holds sp t) : ∃ str c, t = .calling str c ∧ 0 < sp.holds c := by
  cases t with
  | calling str c => exact ⟨str, c, rfl, h⟩
  | sent => simp [Task.holds] at h
  | done => simp [Task.holds] at h

theorem sendHashedStr_progress {E C : Type} (cap : Nat) (f : HashFn E C) (sp : HashFn.Spec E C)
    (hf : f.Sound sp) (w : Wired (Send E C)) (hok : Send.Ok sp w.inp w.st w.out)
    (hopen : w.out.closed = false) (hnr : w.st.phase ≠ .returned)
    (hin : ∃ c, w.inp = some c ∧ c.closed = true) :
    (∃ a w', sendHashedStr cap f a w = .next w') ∨ cap ≤ w.out.buf.length := by
  obtain ⟨hwg, hmx, hperm, htasks, hdr, hret⟩ := hok
  obtain ⟨c, hinp, hcl⟩ := hin
  cases hphase : w.st.phase with
  | returned => exact absurd hphase hnr
  | ranging =>
    obtain ⟨w', hw'⟩ := sendHashedStr_can_recv cap f w c hphase hinp (Or.inr hcl)
    exact Or.inl ⟨.self, w', hw'⟩
  | waiting =>
    by_cases hz : w.st.wg = 0
    · left
      refine ⟨.self, ?_⟩
      simp only [sendHashedStr, sendHashedStr.stepSelf, hphase, hz, if_true]
      exact ⟨_, rfl⟩
    · obtain ⟨k, t, hk, hlive⟩ := exists_of_sum_pos Task.live w.st.tasks (by omega)
      have callStep : ∀ (k : Nat) (str : String) (c : C),
          w.st.tasks[k]? = some (.calling str c) → sp.held w.st.env ≤ sp.holds c →
          f.result c = none → ∃ a w', sendHashedStr cap f a w = .next w' := by
        intro k str c hk hh hr
        obtain ⟨a, x, hx⟩ := hf.progress str w.st.env c (htasks k _ hk) hh hr
        refine ⟨.task k (.call a), ?_⟩
        simp only [sendHashedStr, sendHashedStr.stepTask, hk, hx, Step.map]
        exact ⟨_, rfl⟩
      cases t with
      | done => simp [Task.live] at hlive
      | sent =>
        left
        obtain ⟨n, hn⟩ : ∃ n, w.st.wg = n + 1 := ⟨w.st.wg - 1, by omega⟩
        refine ⟨.task k .done, ?_⟩
        simp only [sendHashedStr, sendHashedStr.stepTask, hk, hn, wgDone, Step.map]
        exact ⟨_, rfl⟩
      | calling str c0 =>
        cases hres : f.result c0 with
        | some r =>
          by_cases hroom : w.out.buf.length < cap
          · left
            refine ⟨.task k .send, ?_⟩
            simp only [sendHashedStr, sendHashedStr.stepTask, hk, hres, Chan.send, hopen,
              hroom, if_true, Step.map]
            exact ⟨_, rfl⟩
          · right
            omega
        | none =>
          left
          by_cases hh : sp.held w.st.env ≤ sp.holds c0
          · exact callStep k str c0 hk hh hres
          · obtain ⟨k', t', hk', hpos⟩ :=
              exists_of_sum_pos (Task.holds sp) w.st.tasks (by omega)
            obtain ⟨str', c', rfl, hc'⟩ := Task_holds_pos sp t' hpos
            have hb := hf.bound w.st.env
            have hr' : f.result c' = none := by
              cases hq : f.result c' with
              | none => rfl
              | some r =>
                have := (hf.result str' c' r (htasks k' _ hk') hq).2
                omega
            exact callStep k' str' c' hk' (by omega) hr'

theorem CombineResults_can_recv (cap : Nat) (w : Wired Combine) (c : Chan) (r : List String)
    (hst : w.st = .ranging r) (hinp : w.inp = some c) (hbuf : c.buf ≠ [] ∨ c.closed = true) :
    ∃ w', CombineResults cap .self w = .next w' := by
  simp only [CombineResults, hst, hinp, Chan.recv]
  cases hb : c.buf with
  | cons x rest => exact ⟨_, rfl⟩
  | nil =>
    rcases hbuf with h | h
    · exact absurd hb h
    · simp only [h, if_true]
      exact ⟨_, rfl⟩

theorem CombineResults_progress (cap : Nat) (hcap : 0 < cap) (w : Wired Combine)
    (hok : Combine.Ok w.inp w.st w.out) (hopen : w.out.closed = false)
    (hnr : w.st ≠ .returned) (hin : ∃ c, w.inp = some c ∧ c.closed = true) :
    ∃ w', CombineResults cap .self w = .next w' := by
  obtain ⟨c, hinp, hcl⟩ := hin
  cases hst : w.st with
  | returned => exact absurd hst hnr
  | ranging r => exact CombineResults_can_recv cap w c r hst hinp (Or.inr hcl)
  | sending v =>
    rw [hst] at hok
    have hh := hok.2.2
    have hb : w.out.buf = [] := by
      simp only [Chan.hist, List.append_eq_nil] at hh
      exact hh.2
    simp only [CombineResults, hst, Chan.send, hopen, hb, List.length_nil, hcap, if_true]
    exact ⟨_, rfl⟩

theorem JobState_can_recv (cap : Nat) (hs : Hashes) (c : Chan) (j : JobState) (out : Chan)
    (hok : j.Ok hs (some c) out) (hnf : j.isFeed = false) (hopen : c.closed = false)
    (hbuf : c.buf ≠ []) : ∃ a w', JobState.step cap hs a ⟨some c, j, out⟩ = .next w' := by
  cases j with
  | feed xs i => simp [JobState.isFeed] at hnf
  | singleHash s =>
    have hph : s.phase = .ranging := by
      by_contra hne
      have := (hok.2.2.2.2.1 hne).1
      simp [hopen] at this
    obtain ⟨w', hw'⟩ := sendHashedStr_can_recv cap (SingleHash.hashFn hs) ⟨some c, s, out⟩ c
      hph rfl (Or.inl hbuf)
    refine ⟨.self, ?_⟩
    simp only [JobState.step, SingleHash, hw', Step.map]
    exact ⟨_, rfl⟩
  | multiHash s =>
    have hph : s.phase = .ranging := by
      by_contra hne
      have := (hok.2.2.2.2.1 hne).1
      simp [hopen] at this
    obtain ⟨w', hw'⟩ := sendHashedStr_can_recv cap (MultiHash.hashFn hs) ⟨some c, s, out⟩ c
      hph rfl (Or.inl hbuf)
    refine ⟨.self, ?_⟩
    simp only [JobState.step, MultiHash, hw', Step.map]
    exact ⟨_, rfl⟩
  | combine st =>
    cases st with
    | ranging r =>
      obtain ⟨w', hw'⟩ := CombineResults_can_recv cap ⟨some c, .ranging r, out⟩ c r rfl rfl
        (Or.inl hbuf)
      refine ⟨.self, ?_⟩
      simp only [JobState.step, hw', Step.map]
      exact ⟨_, rfl⟩
    | sending v =>
      have := hok.1.1
      simp [hopen] at this
    | returned =>
      have := hok.1.1
      simp [hopen] at this

theorem JobState_progress (cap : Nat) (hcap : 0 < cap) (hs : Hashes) (inp : Option Chan)
    (j : JobState) (out : Chan) (hok : j.Ok hs inp out) (hopen : out.closed = false)
    (hnr : j.returned = false)
    (hin : j.isFeed = true ∨ ∃ c, inp = some c ∧ c.closed = true) :
    (∃ a w', JobState.step cap hs a ⟨inp, j, out⟩ = .next w')
      ∨ (cap ≤ out.buf.length ∧ j.isCombine = false) := by
  cases j with
  | feed xs i =>
    simp only [JobState.returned, decide_eq_false_iff_not, not_le] at hnr
    by_cases hroom : out.buf.length < cap
    · left
      refine ⟨.self, ?_⟩
      simp only [JobState.step, List.getElem?_eq_getElem hnr, Chan.send, hopen, hroom,
        if_true, Step.map]
      exact ⟨_, rfl⟩
    · right
      exact ⟨by omega, rfl⟩
  | singleHash s =>
    have hin' : ∃ c, inp = some c ∧ c.closed = true := by
      rcases hin with h | h
      · simp [JobState.isFeed] at h
      · exact h
    simp only [JobState.returned, decide_eq_false_iff_not] at hnr
    rcases sendHashedStr_progress cap _ _ (SingleHash_sound hs) ⟨inp, s, out⟩ hok hopen hnr hin'
      with ⟨a, w', hw'⟩ | h
    · left
      refine ⟨a, ?_⟩
      simp only [JobState.step, SingleHash, hw', Step.map]
      exact ⟨_, rfl⟩
    · exact Or.inr ⟨h, rfl⟩
  | multiHash s =>
    have hin' : ∃ c, inp = some c ∧ c.closed = true := by
      rcases hin with h | h
      · simp [JobState.isFeed] at h
      · exact h
    simp only [JobState.returned, decide_eq_false_iff_not] at hnr
    rcases sendHashedStr_progress cap _ _ (MultiHash_sound hs) ⟨inp, s, out⟩ hok hopen hnr hin'
      with ⟨a, w', hw'⟩ | h
    · left
      refine ⟨a, ?_⟩
      simp only [JobState.step, MultiHash, hw', Step.map]
      exact ⟨_, rfl⟩
    · exact Or.inr ⟨h, rfl⟩
  | combine st =>
    have hin' : ∃ c, inp = some c ∧ c.closed = true := by
      rcases hin with h | h
      · simp [JobState.isFeed] at h
      · exact h
    simp only [JobState.returned, decide_eq_false_iff_not] at hnr
    obtain ⟨w', hw'⟩ := CombineResults_progress cap hcap ⟨inp, st, out⟩ hok hopen hnr hin'
    left
    refine ⟨.self, ?_⟩
    simp only [JobState.step, hw', Step.map]
    exact ⟨_, rfl⟩

theorem Stage_can_recv (cap : Nat) (hs : Hashes) (wg : Nat) (c : Chan) (st : Stage)
    (out : Chan) (hok : Stage.Ok hs (some c) st out) (hnf : st.job.isFeed = false)
    (hopen : c.closed = false) (hbuf : c.buf ≠ []) :
    ∃ a l', Stage.step cap hs a ⟨wg, some c, st, out⟩ = .next l' := by
  obtain ⟨a, w', hw'⟩ := JobState_can_recv cap hs c st.job out hok.1 hnf hopen hbuf
  have hrun : st.phase = .running := by
    have h2 := hok.2
    cases hp : st.phase with
    | running => rfl
    | closed =>
      rw [hp] at h2
      have hret := h2.2
      have hj := hok.1
      exfalso
      cases hjs : st.job with
      | feed xs i => simp [hjs, JobState.isFeed] at hnf
      | singleHash s =>
        rw [hjs] at hret hj
        simp only [JobState.returned, decide_eq_true_eq] at hret
        have := (hj.2.2.2.2.1 (by simp [hret])).1
        simp [hopen] at this
      | multiHash s =>
        rw [hjs] at hret hj
        simp only [JobState.returned, decide_eq_true_eq] at hret
        have := (hj.2.2.2.2.1 (by simp [hret])).1
        simp [hopen] at this
      | combine s =>
        rw [hjs] at hret hj
        simp only [JobState.returned, decide_eq_true_eq] at hret
        subst hret
        have := hj.1.1
        simp [hopen] at this
    | finished =>
      rw [hp] at h2
      have hret := h2.2
      have hj := hok.1
      exfalso
      cases hjs : st.job with
      | feed xs i => simp [hjs, JobState.isFeed] at hnf
      | singleHash s =>
        rw [hjs] at hret hj
        simp only [JobState.returned, decide_eq_true_eq] at hret
        have := (hj.2.2.2.2.1 (by simp [hret])).1
        simp [hopen] at this
      | multiHash s =>
        rw [hjs] at hret hj
        simp only [JobState.returned, decide_eq_true_eq] at hret
        have := (hj.2.2.2.2.1 (by simp [hret])).1
        simp [hopen] at this
      | combine s =>
        rw [hjs] at hret hj
        simp only [JobState.returned, decide_eq_true_eq] at hret
        subst hret
        have := hj.1.1
        simp [hopen] at this
  refine ⟨.job a, ?_⟩
  simp only [Stage.step, hrun, hw', Step.map]
  exact ⟨_, rfl⟩

theorem Stage_progress (cap : Nat) (hcap : 0 < cap) (hs : Hashes) (wg : Nat)
    (inp : Option Chan) (st : Stage) (out : Chan) (hok : Stage.Ok hs inp st out)
    (hlive : 0 < st.live) (hwg : 0 < wg)
    (hin : st.job.isFeed = true ∨ ∃ c, inp = some c ∧ c.closed = true) :
    (∃ a l', Stage.step cap hs a ⟨wg, inp, st, out⟩ = .next l')
      ∨ Blocked cap ⟨st, out⟩ := by
  have h2 := hok.2
  cases hp : st.phase with
  | finished => simp [Stage.live, hp] at hlive
  | closed =>
    left
    obtain ⟨n, hn⟩ : ∃ n, wg = n + 1 := ⟨wg - 1, by omega⟩
    refine ⟨.exit, ?_⟩
    simp only [Stage.step, hp, hn, wgDone, Step.map]
    exact ⟨_, rfl⟩
  | running =>
    rw [hp] at h2
    simp only at h2
    cases hret : st.job.returned with
    | true =>
      left
      refine ⟨.exit, ?_⟩
      simp only [Stage.step, hp, hret, if_true, Chan.close, h2, Step.map]
      exact ⟨_, rfl⟩
    | false =>
      rcases JobState_progress cap hcap hs inp st.job out hok.1 h2 hret hin with
        ⟨a, w', hw'⟩ | ⟨hfull, hnc⟩
      · left
        refine ⟨.job a, ?_⟩
        simp only [Stage.step, hp, hw', Step.map]
        exact ⟨_, rfl⟩
      · exact Or.inr ⟨hp, h2, hfull, hnc⟩

theorem stepCells_index (cap : Nat) (hs : Hashes) (a : StageAct) (i wg : Nat) :
    ∀ (cells : List Cell) (r : Nat × List Cell),
      stepCells cap hs a i wg cells = .next r → i < cells.length
  | [], r, h => by simp [stepCells] at h
  | c :: rest, r, h => by
    simp only [stepCells] at h
    split at h
    · rename_i hi
      simp [hi]
    · simp only [Step_map_eq_next] at h
      obtain ⟨x, hx, -⟩ := h
      have := stepCells_index cap hs a i wg rest x hx
      simp only [List.length_cons]
      omega

theorem liveCells_zero_finished (c : Cell) (rest : List Cell) (h : liveCells (c :: rest) = 0) :
    c.st.phase = .finished := by
  rw [liveCells_cons] at h
  have hc : c.st.live = 0 := by omega
  revert hc
  cases hp : c.st.phase <;> simp [Stage.live, hp]

theorem cells_progress (cap : Nat) (hcap : 0 < cap) (hs : Hashes) (wg : Nat) :
    ∀ (cells : List Cell), CellsOk hs cells → Fed cells → 0 < liveCells cells →
      liveCells cells ≤ wg →
      (∃ i a r, stepCells cap hs a i wg cells = .next r)
        ∨ (∃ c rest, cells = c :: rest ∧ Blocked cap c)
  | [], _, _, hl, _ => by simp [liveCells] at hl
  | c :: rest, hok, hfed, hl, hwg => by
    rw [liveCells_cons] at hl hwg
    by_cases hlr : 0 < liveCells rest
    · rcases cells_progress cap hcap hs wg rest hok.2 hfed.2 hlr (by omega) with
        ⟨i, a, r, h⟩ | ⟨p, rest', hrest, hb⟩
      · left
        have hi := stepCells_index cap hs a i wg rest r h
        refine ⟨i, a, ?_⟩
        simp only [stepCells, if_neg (Nat.ne_of_lt hi), h, Step.map]
        exact ⟨_, rfl⟩
      · left
        subst hrest
        obtain ⟨-, hopen, hfull, -⟩ := hb
        have hnf : c.st.job.isFeed = false := by
          have := hfed.1
          cases hq : c.st.job.isFeed with
          | false => rfl
          | true => simp [hq] at this
        have hst := hok.1
        simp only [lastOut] at hst
        have hbuf : p.out.buf ≠ [] := by
          intro h0
          rw [h0] at hfull
          simp only [List.length_nil] at hfull
          omega
        obtain ⟨a, l', hl'⟩ := Stage_can_recv cap hs wg p.out c.st c.out hst hnf hopen hbuf
        refine ⟨(p :: rest').length, a, ?_⟩
        simp only [stepCells, if_true, lastOut, hl', Step.map]
        exact ⟨_, rfl⟩
    · have hlc : 0 < c.st.live := by omega
      have hin : c.st.job.isFeed = true ∨ ∃ c0, lastOut rest = some c0 ∧ c0.closed = true := by
        cases rest with
        | nil => exact Or.inl (hfed.1.mp rfl)
        | cons p rest' =>
          right
          have hfin := liveCells_zero_finished p rest' (by omega)
          have hp := hok.2.1.2
          rw [hfin] at hp
          exact ⟨p.out, rfl, hp.1⟩
      rcases Stage_progress cap hcap hs wg (lastOut rest) c.st c.out hok.1 hlc (by omega) hin
        with ⟨a, l', hl'⟩ | hb
      · left
        refine ⟨rest.length, a, ?_⟩
        simp only [stepCells, if_true, hl', Step.map]
        exact ⟨_, rfl⟩
      · exact Or.inr ⟨c, rest, rfl, hb⟩

theorem Fed_of_jobs (xs : List Item) (tail : List Job) (hnf : ∀ j ∈ tail, ∀ ys, j ≠ .feed ys) :
    ∀ (cells : List Cell) (suffix : List Job),
      jobsOf cells ++ suffix = .feed xs :: tail → Fed cells
  | [], _, _ => trivial
  | c :: rest, suffix, h => by
    rw [jobsOf_cons, List.append_assoc] at h
    refine ⟨?_, Fed_of_jobs xs tail hnf rest _ h⟩
    cases rest with
    | nil =>
      simp only [jobsOf, List.map_nil, List.reverse_nil, List.nil_append, List.singleton_append,
        List.cons.injEq] at h
      have hj := h.1
      constructor
      · intro _
        cases hjs : c.st.job <;> simp_all [JobState.job, JobState.isFeed]
      · intro _
        rfl
    | cons p rest' =>
      constructor
      · intro h0
        simp at h0
      · intro hf
        exfalso
        rw [jobsOf_cons, List.append_assoc] at h
        have hmem : c.st.job.job ∈ tail := by
          cases hq : jobsOf rest' with
          | nil =>
            rw [hq] at h
            simp only [List.nil_append, List.singleton_append, List.cons.injEq] at h
            rw [← h.2]
            simp
          | cons j0 js =>
            rw [hq] at h
            simp only [List.cons_append, List.cons.injEq] at h
            rw [← h.2]
            simp
        cases hjs : c.st.job with
        | feed ys i =>
          rw [hjs] at hmem
          exact hnf _ hmem ys rfl
        | singleHash s => simp [hjs, JobState.isFeed] at hf
        | multiHash s => simp [hjs, JobState.isFeed] at hf
        | combine s => simp [hjs, JobState.isFeed] at hf

theorem Pipeline_progress (cap : Nat) (hcap : 0 < cap) (hs : Hashes) (jobs : List Job)
    (hwf : WellFormed jobs) (p : Pipeline) (hok : Pipeline.Ok hs jobs p)
    (hnr : p.main ≠ .returned) : ∃ lb p', Pipeline.step cap hs lb p = some p' := by
  obtain ⟨hcr, hcells, hwg, hjobs, hlast⟩ := hok
  obtain ⟨xs, mid, rfl, hmid⟩ := hwf
  have mainStep : ∀ s', p.stepMain = .next s' → ∃ lb p', Pipeline.step cap hs lb p = some p' := by
    intro s' h
    refine ⟨.main, s', ?_⟩
    simp [Pipeline.step, hcr, h]
  cases hm : p.main with
  | returned => exact absurd hm hnr
  | spawning todo =>
    cases todo with
    | nil => exact mainStep _ (by simp only [Pipeline.stepMain, hm]; rfl)
    | cons j rest => exact mainStep _ (by simp only [Pipeline.stepMain, hm]; rfl)
  | waiting =>
    by_cases hz : p.wg = 0
    · exact mainStep _ (by simp only [Pipeline.stepMain, hm, hz, if_true]; rfl)
    · rw [hm] at hwg hjobs
      simp only [Main.todo, List.length_nil, Nat.zero_add, List.append_nil] at hwg hjobs
      have hnf : ∀ j ∈ mid ++ [Job.CombineResults], ∀ ys, j ≠ .feed ys := by
        intro j hj ys
        rcases List.mem_append.mp hj with h | h
        · exact hmid j h ys
        · simp only [List.mem_singleton] at h
          subst h
          simp
      have hfed := Fed_of_jobs xs _ hnf p.cells [] (by simpa using hjobs)
      rcases cells_progress cap hcap hs p.wg p.cells hcells hfed (by omega) (by omega) with
        ⟨i, a, r, h⟩ | ⟨c, rest, hc, hb⟩
      · refine ⟨.stage i a, { p with wg := r.1, cells := r.2 }, ?_⟩
        simp [Pipeline.step, hcr, h]
      · exfalso
        rw [hc, jobsOf_cons] at hjobs
        have hlastj : c.st.job.job = .CombineResults := by
          have := congrArg List.reverse hjobs
          simp only [List.reverse_append, List.reverse_cons, List.reverse_nil, List.nil_append,
            List.singleton_append, List.cons_append, List.cons.injEq] at this
          exact this.1
        obtain ⟨st, hst⟩ := JobState_job_combine _ hlastj
        have := hb.2.2.2
        simp [hst, JobState.isCombine] at this

/-! ## Termination: every operation of a stage lowers the potential -/

theorem bufLen_recv (c c' : Chan) (x : Item) (h : c.recv = .next (some x, c')) :
    bufLen (some c) = bufLen (some c') + 1 := by
  obtain ⟨h1, -, -⟩ := Chan_recv_some c c' x h
  simp [bufLen, h1]

theorem sendHashedStr_cost {E C : Type} (cap : Nat) (f : HashFn E C) (todo : C → Nat)
    (W : Nat) (hinit : ∀ s, todo (f.init s) + 3 ≤ W)
    (hstep : ∀ a e c e' c', f.step a (e, c) = .next (e', c') → todo c' < todo c)
    (a : JobAct) (w w' : Wired (Send E C)) (h : sendHashedStr cap f a w = .next w') (U : Nat) :
    w'.out.buf.length + ((w'.st.tasks.map Task.unsent).sum + (bufLen w'.inp + U))
        = w.out.buf.length + ((w.st.tasks.map Task.unsent).sum + (bufLen w.inp + U))
      ∧ Send.cost todo w'.st + W * (bufLen w'.inp + U)
        < Send.cost todo w.st + W * (bufLen w.inp + U) := by
  cases a with
  | self =>
    simp only [sendHashedStr, sendHashedStr.stepSelf] at h
    split at h
    · rename_i hphase
      split at h
      · simp at h
      · rename_i c hinp
        split at h
        · rename_i x c' hrecv
          simp only [Step.next.injEq] at h
          subst h
          have hb := bufLen_recv c c' x hrecv
          have hi := hinit x.format
          simp only [hinp, Send.cost, hphase, List.map_append, List.sum_append, List.map_cons,
            List.map_nil, List.sum_cons, List.sum_nil, Task.unsent, Task.cost, hb]
          constructor
          · omega
          · have : W * (bufLen (some c') + 1 + U) = W * (bufLen (some c') + U) + W := by ring
            rw [this]
            omega
        · simp only [Step.next.injEq] at h
          subst h
          simp only [Send.cost, hphase]
          constructor
          · trivial
          · omega
        · simp at h
    · rename_i hphase
      split at h
      · simp only [Step.next.injEq] at h
        subst h
        simp only [Send.cost, hphase]
        constructor
        · trivial
        · omega
      · simp at h
    · simp at h
  | task k a =>
    simp only [sendHashedStr, sendHashedStr.stepTask] at h
    split at h
    · rename_i str c a' hget
      simp only [Step_map_eq_next] at h
      obtain ⟨⟨e', c'⟩, hst, rfl⟩ := h
      have hlt := hstep a' w.st.env c e' c' hst
      have h1 := sum_map_set (Task.cost todo) w.st.tasks k _ (Task.calling str c') hget
      have h2 := sum_map_set_same Task.unsent w.st.tasks k _ (Task.calling str c') hget rfl
      simp only [Task.cost] at h1
      simp only [Send.cost, h2]
      constructor
      · trivial
      · omega
    · rename_i str c hget
      split at h
      · rename_i r hres
        simp only [Step_map_eq_next] at h
        obtain ⟨o, hsend, rfl⟩ := h
        obtain ⟨-, -, -, s4, -⟩ := Chan_send_next cap _ _ _ hsend
        have h1 := sum_map_set (Task.cost todo) w.st.tasks k _ (Task.sent : Task C) hget
        have h2 := sum_map_set Task.unsent w.st.tasks k _ (Task.sent : Task C) hget
        simp only [Task.cost, Task.unsent] at h1 h2
        simp only [Send.cost, s4, List.length_append, List.length_singleton]
        constructor
        · omega
        · omega
      · simp at h
    · rename_i hget
      simp only [Step_map_eq_next] at h
      obtain ⟨n, -, rfl⟩ := h
      have h1 := sum_map_set (Task.cost todo) w.st.tasks k _ (Task.done : Task C) hget
      have h2 := sum_map_set_same Task.unsent w.st.tasks k _ (Task.done : Task C) hget rfl
      simp only [Task.cost] at h1
      simp only [Send.cost, h2]
      constructor
      · trivial
      · omega
    · simp at h

theorem CombineResults_cost (cap : Nat) (a : JobAct) (w w' : Wired Combine)
    (h : CombineResults cap a w = .next w') (U : Nat) :
    w'.out.buf.length + (JobState.combine w'.st).unsent (bufLen w'.inp + U)
        = w.out.buf.length + (JobState.combine w.st).unsent (bufLen w.inp + U)
      ∧ (JobState.combine w'.st).cost + 1 * (bufLen w'.inp + U)
        < (JobState.combine w.st).cost + 1 * (bufLen w.inp + U) := by
  cases a with
  | task k a => simp [CombineResults] at h
  | self =>
    simp only [CombineResults] at h
    split at h
    · rename_i results hst
      split at h
      · simp at h
      · rename_i c hinp
        split at h
        · rename_i x c' hrecv
          simp only [Step.next.injEq] at h
          subst h
          have hb := bufLen_recv c c' x hrecv
          simp only [hinp, hst, JobState.unsent, JobState.cost, hb]
          constructor
          · trivial
          · omega
        · simp only [Step.next.injEq] at h
          subst h
          simp only [hst, JobState.unsent, JobState.cost]
          constructor
          · trivial
          · omega
        · simp at h
    · rename_i v hst
      simp only [Step_map_eq_next] at h
      obtain ⟨o, hsend, rfl⟩ := h
      obtain ⟨-, -, -, s4, -⟩ := Chan_send_next cap _ _ _ hsend
      simp only [hst, JobState.unsent, JobState.cost, s4, List.length_append,
        List.length_singleton]
      constructor
      · trivial
      · omega
    · simp at h

theorem JobState_step_cost (cap : Nat) (hs : Hashes) (a : JobAct) (w w' : Wired JobState)
    (h : JobState.step cap hs a w = .next w') (U : Nat) :
    w'.out.buf.length + w'.st.unsent (bufLen w'.inp + U)
        = w.out.buf.length + w.st.unsent (bufLen w.inp + U)
      ∧ w'.st.cost + w'.st.weight * (bufLen w'.inp + U)
        < w.st.cost + w.st.weight * (bufLen w.inp + U) := by
  unfold JobState.step at h
  split at h
  · rename_i xs i hst
    split at h
    · rename_i x hget
      simp only [Step_map_eq_next] at h
      obtain ⟨o, hsend, rfl⟩ := h
      obtain ⟨-, -, -, s4, -⟩ := Chan_send_next cap _ _ _ hsend
      have hi : i < xs.length := by
        by_contra hcon
        rw [List.getElem?_eq_none (by omega)] at hget
        simp at hget
      simp only [hst, JobState.unsent, JobState.cost, JobState.weight, s4, List.length_append,
        List.length_singleton]
      constructor
      · omega
      · omega
    · simp at h
  · rename_i s hst
    simp only [Step_map_eq_next] at h
    obtain ⟨r, hstep, rfl⟩ := h
    have := sendHashedStr_cost cap (SingleHash.hashFn hs) SHCall.todo 10
      (fun _ => by simp [SingleHash.hashFn, SHCall.init, SHCall.todo])
      (fun a e c e' c' h => SHCall_step_todo hs a e e' c c' h) a ⟨w.inp, s, w.out⟩ r hstep U
    simpa only [hst, JobState.unsent, JobState.cost, JobState.weight] using this
  · rename_i s hst
    simp only [Step_map_eq_next] at h
    obtain ⟨r, hstep, rfl⟩ := h
    have := sendHashedStr_cost cap (MultiHash.hashFn hs) MHCall.todo 41
      (fun _ => by simp [MultiHash.hashFn, MHCall.init, MHCall.todo])
      (fun a e c e' c' h => MHCall_step_todo hs a e e' c c' h) a ⟨w.inp, s, w.out⟩ r hstep U
    simpa only [hst, JobState.unsent, JobState.cost, JobState.weight] using this
  · rename_i s hst
    simp only [Step_map_eq_next] at h
    obtain ⟨r, hstep, rfl⟩ := h
    have := CombineResults_cost cap a ⟨w.inp, s, w.out⟩ r hstep U
    simpa only [hst, JobState.weight] using this

theorem Stage_step_cost (cap : Nat) (hs : Hashes) (a : StageAct) (l l' : Local)
    (h : Stage.step cap hs a l = .next l') (U : Nat) :
    l'.out.buf.length + l'.st.job.unsent (bufLen l'.inp + U)
        = l.out.buf.length + l.st.job.unsent (bufLen l.inp + U)
      ∧ l'.st.cost + l'.st.job.weight * (bufLen l'.inp + U)
        < l.st.cost + l.st.job.weight * (bufLen l.inp + U) := by
  cases a with
  | job a =>
    simp only [Stage.step] at h
    split at h
    · rename_i hphase
      simp only [Step_map_eq_next] at h
      obtain ⟨r, hstep, rfl⟩ := h
      have := JobState_step_cost cap hs a ⟨l.inp, l.st.job, l.out⟩ r hstep U
      simp only [Stage.cost, hphase] at this ⊢
      omega
    · simp at h
  | exit =>
    simp only [Stage.step] at h
    split at h
    · rename_i hphase
      split at h
      · simp only [Step_map_eq_next] at h
        obtain ⟨o, hclose, rfl⟩ := h
        obtain ⟨-, -, -, c4, -⟩ := Chan_close_next _ _ hclose
        simp only [Stage.cost, hphase, c4]
        constructor
        · trivial
        · omega
      · simp at h
    · rename_i hphase
      simp only [Step_map_eq_next] at h
      obtain ⟨n, -, rfl⟩ := h
      simp only [Stage.cost, hphase]
      constructor
      · trivial
      · omega
    · simp at h

theorem incoming_eq (cells : List Cell) :
    incoming cells = bufLen (lastOut cells) + upstream cells := by
  cases cells <;> simp [incoming, bufLen, lastOut, upstream]

theorem upstream_setLastOut (o : Option Chan) (cells : List Cell) :
    upstream (setLastOut o cells) = upstream cells := by
  cases cells <;> cases o <;> simp [setLastOut, upstream]

theorem potential_setLastOut (o : Option Chan) (cells : List Cell) :
    potential (setLastOut o cells) = potential cells := by
  cases cells <;> cases o <;> simp [setLastOut, potential]

theorem stepCells_cost (cap : Nat) (hs : Hashes) (a : StageAct) (i : Nat) :
    ∀ (cells : List Cell) (wg wg' : Nat) (cells' : List Cell),
      CellsOk hs cells → stepCells cap hs a i wg cells = .next (wg', cells') →
      incoming cells' = incoming cells ∧ potential cells' < potential cells
  | [], wg, wg', cells', _, h => by simp [stepCells] at h
  | c :: rest, wg, wg', cells', hok, h => by
    simp only [stepCells] at h
    split at h
    · simp only [Step_map_eq_next, Prod.mk.injEq] at h
      obtain ⟨l, hstep, rfl, rfl⟩ := h
      obtain ⟨-, hcons, -, -, -⟩ :=
        Stage_step_ok cap hs a ⟨wg, lastOut rest, c.st, c.out⟩ l hok.1 hstep
      have hc := Stage_step_cost cap hs a ⟨wg, lastOut rest, c.st, c.out⟩ l hstep (upstream rest)
      simp only at hc hcons
      have hin : incoming (setLastOut l.inp rest) = bufLen l.inp + upstream rest := by
        rw [incoming_eq, lastOut_setLastOut _ _ hcons, upstream_setLastOut]
      simp only [incoming, potential, hin, potential_setLastOut, incoming_eq rest]
      omega
    · simp only [Step_map_eq_next, Prod.mk.injEq] at h
      obtain ⟨⟨w1, r1⟩, hstep, rfl, rfl⟩ := h
      obtain ⟨h1, h2⟩ := stepCells_cost cap hs a i rest wg w1 r1 hok.2 hstep
      have h1' : incoming r1 = incoming rest := h1
      have h2' : potential r1 < potential rest := h2
      show incoming (c :: r1) = incoming (c :: rest) ∧ potential (c :: r1) < potential (c :: rest)
      refine ⟨by simp only [incoming, h1'], ?_⟩
      simp only [potential, h1']
      exact Nat.add_lt_add_left h2' _

/-! ## Every run of a well-formed pipeline can be completed -/

theorem Pipeline_spawn_all (cap : Nat) (hs : Hashes) :
    ∀ (todo : List Job) (p : Pipeline), p.main = .spawning todo → p.crashed = false →
      ∃ p', Pipeline.run cap hs (List.replicate (todo.length + 1) .main) p = some p'
        ∧ p'.main = .waiting
  | [], p, hm, hcr => by
    obtain ⟨m, wg, cells, cr⟩ := p
    simp only at hm hcr
    subst hm hcr
    exact ⟨⟨.waiting, wg, cells, false⟩, rfl, rfl⟩
  | j :: rest, p, hm, hcr => by
    obtain ⟨m, wg, cells, cr⟩ := p
    simp only at hm hcr
    subst hm hcr
    obtain ⟨p', hp', hw⟩ := Pipeline_spawn_all cap hs rest
      ⟨.spawning rest, wg, ⟨⟨j.start, .running⟩, Chan.make⟩ :: cells, false⟩ rfl rfl
    exact ⟨p', hp', hw⟩

theorem Pipeline_completes_waiting (cap : Nat) (hcap : 0 < cap) (hs : Hashes)
    (jobs : List Job) (hwf : WellFormed jobs) :
    ∀ (n : Nat) (p : Pipeline), potential p.cells ≤ n → Pipeline.Ok hs jobs p →
      p.main = .waiting →
      ∃ sched p', Pipeline.run cap hs sched p = some p' ∧ p'.main = .returned
  | n, p, hn, hok, hm => by
    obtain ⟨m, wg, cells, cr⟩ := p
    have hcr : cr = false := hok.1
    simp only at hm hn
    subst hm hcr
    by_cases hz : wg = 0
    · subst hz
      exact ⟨[.main], ⟨.returned, 0, cells, false⟩, rfl, rfl⟩
    · obtain ⟨lb, p1, hstep⟩ := Pipeline_progress cap hcap hs jobs hwf _ hok (by simp)
      have hok1 := Pipeline_step_ok cap hs jobs lb _ p1 hok hstep
      cases lb with
      | main =>
        simp [Pipeline.step, Pipeline.stepMain, hz] at hstep
      | stage i a =>
        simp only [Pipeline.step, Bool.false_eq_true, if_false] at hstep
        cases hsc : stepCells cap hs a i wg cells with
        | blocked => simp [hsc] at hstep
        | panic =>
          simp only [hsc, Option.some.injEq] at hstep
          subst hstep
          have := hok1.1
          simp at this
        | next r =>
          simp only [hsc, Option.some.injEq] at hstep
          subst hstep
          obtain ⟨-, hlt⟩ := stepCells_cost cap hs a i cells wg r.1 r.2 hok.2.1 hsc
          cases n with
          | zero => omega
          | succ k =>
            obtain ⟨sched, p', hrun, hret⟩ :=
              Pipeline_completes_waiting cap hcap hs jobs hwf k
                ⟨.waiting, r.1, r.2, false⟩ (by simp only; omega) hok1 rfl
            refine ⟨.stage i a :: sched, p', ?_, hret⟩
            simp only [Pipeline.run, Pipeline.step, Bool.false_eq_true, if_false, hsc]
            exact hrun

theorem Pipeline_completes (cap : Nat) (hcap : 0 < cap) (hs : Hashes) (jobs : List Job)
    (hwf : WellFormed jobs) (p : Pipeline) (hok : Pipeline.Ok hs jobs p) :
    ∃ sched p', Pipeline.run cap hs sched p = some p' ∧ p'.main = .returned := by
  cases hm : p.main with
  | returned => exact ⟨[], p, rfl, hm⟩
  | waiting => exact Pipeline_completes_waiting cap hcap hs jobs hwf _ p (Nat.le_refl _) hok hm
  | spawning todo =>
    obtain ⟨p1, hrun1, hw1⟩ := Pipeline_spawn_all cap hs todo p hm hok.1
    have hok1 := Pipeline_run_ok cap hs jobs _ p p1 hok hrun1
    obtain ⟨sched, p', hrun, hret⟩ :=
      Pipeline_completes_waiting cap hcap hs jobs hwf _ p1 (Nat.le_refl _) hok1 hw1
    refine ⟨List.replicate (todo.length + 1) .main ++ sched, p', ?_, hret⟩
    rw [Pipeline_run_append, hrun1]
    exact hrun

theorem AllFinished_of_live (hs : Hashes) :
    ∀ (cells : List Cell), CellsOk hs cells → liveCells cells = 0 → AllFinished cells
  | [], _, _ => by
    intro c hc
    simp at hc
  | c :: rest, hok, hl => by
    have hfin := liveCells_zero_finished c rest hl
    rw [liveCells_cons] at hl
    have ih := AllFinished_of_live hs rest hok.2 (by omega)
    intro d hd
    rcases List.mem_cons.mp hd with rfl | hd
    · have h2 := hok.1.2
      rw [hfin] at h2
      exact ⟨hfin, h2.1, h2.2⟩
    · exact ih d hd

theorem AllFinished_of_returned (hs : Hashes) (jobs : List Job) (p : Pipeline)
    (hok : Pipeline.Ok hs jobs p) (hret : p.main = .returned) :
    p.wg = 0 ∧ jobsOf p.cells = jobs ∧ AllFinished p.cells := by
  obtain ⟨-, hcells, hwg, hjobs, -, hz⟩ := hok
  have h0 := hz hret
  rw [hret] at hwg hjobs
  simp only [Main.todo, List.length_nil, Nat.zero_add, List.append_nil] at hwg hjobs
  exact ⟨h0, hjobs, AllFinished_of_live hs p.cells hcells (by omega)⟩

/-! ## The claims on `CombineResults` and on the empty pipeline -/

/-- C3: `CombineResults`, fed any finite sequence `xs` of items on an input
that is then closed, emits exactly one item: run to its end (one loop
iteration per item, the loop exit, the send) it has returned with the single
output `strings.Join(sorted, "_")` where `sorted` is the ascending
rearrangement of the string forms of `xs`; at every point of every run its
output history is empty or that one item; and in every run of every pipeline
a `CombineResults` stage has sent nothing, or has drained its input and sent
the sorted join of every item ever sent to it. -/
theorem CombineResults_emits_sorted_join (cap : Nat) (hcap : 0 < cap) (xs : List Item) :
    (∃ w, runSteps (CombineResults cap) (List.replicate (xs.length + 2) .self) (Combine.fed xs)
          = some w
        ∧ w.st = .returned
        ∧ w.out.hist = [.str (String.intercalate "_" (sortStrings (xs.map Item.format)))])
    ∧ (∀ sched w, runSteps (CombineResults cap) sched (Combine.fed xs) = some w →
        w.out.hist = [] ∨
          w.out.hist = [.str (String.intercalate "_" (sortStrings (xs.map Item.format)))])
    ∧ (sortStrings (xs.map Item.format)).Sorted strLe
    ∧ (sortStrings (xs.map Item.format)).Perm (xs.map Item.format)
    ∧ (∀ hs jobs s pre c rest st, Reachable cap hs jobs s → s.cells = pre ++ c :: rest →
        c.st.job = .combine st →
        c.out.hist = [] ∨
          (Drained (lastOut rest) ∧
            c.out.hist = [.str (String.intercalate "_"
              (sortStrings ((histOf (lastOut rest)).map Item.format)))])) := by
  refine ⟨⟨_, CombineResults_run_fed cap hcap xs, rfl, rfl⟩,
    fun sched w h => CombineResults_fed_hist cap xs sched w h,
    sortStrings_sorted _, sortStrings_perm _, ?_⟩
  intro hs jobs s pre c rest st hr hcells hjob
  have hok := (Reachable_ok cap hs jobs s hr).2.1
  rw [hcells] at hok
  have hst := (CellsOk_split hs pre c rest hok).1
  rw [hjob] at hst
  simp only [JobState.Ok] at hst
  cases st with
  | ranging r => exact Or.inl hst.2
  | sending v => exact Or.inl hst.2.2
  | returned =>
    right
    refine ⟨hst.1, ?_⟩
    have hd := hst.1
    have ho := hst.2
    cases hinp : lastOut rest with
    | none => simp [hinp, Drained] at hd
    | some c0 =>
      rw [hinp] at hd ho
      simp only [Drained] at hd
      simp only [histOf, Chan.hist, hd.2, List.append_nil]
      exact ho

/-- Witness of C3 on a channel of capacity one and three items. -/
theorem CombineResults_emits_sorted_join_witness :
    0 < 1 ∧ ∃ w, runSteps (CombineResults 1) (List.replicate 5 .self)
        (Combine.fed [.str "b", .int 3, .str "a"]) = some w
      ∧ w.st = .returned ∧ w.out.hist = [.str "3_a_b"] :=
  ⟨by decide, (CombineResults_emits_sorted_join 1 (by decide) [.str "b", .int 3, .str "a"]).1⟩

/-- C4: feeding `CombineResults` a permutation `ys` of the strings `xs` makes
it emit the same joined string: there is one string `v` such that both runs,
carried to their end, have emitted exactly `v`, and no run on either input
ever emits anything else. -/
theorem CombineResults_permutation_invariant (cap : Nat) (hcap : 0 < cap)
    (xs ys : List String) (hperm : xs.Perm ys) :
    ∃ v,
      (∃ w, runSteps (CombineResults cap) (List.replicate (xs.length + 2) .self)
          (Combine.fed (xs.map .str)) = some w ∧ w.out.hist = [.str v])
      ∧ (∃ w, runSteps (CombineResults cap) (List.replicate (ys.length + 2) .self)
          (Combine.fed (ys.map .str)) = some w ∧ w.out.hist = [.str v])
      ∧ (∀ sched w, runSteps (CombineResults cap) sched (Combine.fed (xs.map .str)) = some w →
          w.out.hist = [] ∨ w.out.hist = [.str v])
      ∧ (∀ sched w, runSteps (CombineResults cap) sched (Combine.fed (ys.map .str)) = some w →
          w.out.hist = [] ∨ w.out.hist = [.str v]) := by
  have hx : (xs.map Item.str).map Item.format = xs := by
    simp [Function.comp_def, Item.format]
  have hy : (ys.map Item.str).map Item.format = ys := by
    simp [Function.comp_def, Item.format]
  have hv := CombineResults_value_congr xs ys hperm
  have rx := CombineResults_run_fed cap hcap (xs.map .str)
  have ry := CombineResults_run_fed cap hcap (ys.map .str)
  rw [hx] at rx
  rw [hy, ← hv] at ry
  simp only [List.length_map] at rx ry
  refine ⟨CombineResults.value xs, ⟨_, rx, rfl⟩, ⟨_, ry, rfl⟩, ?_, ?_⟩
  · intro sched w h
    have := CombineResults_fed_hist cap _ sched w h
    rwa [hx] at this
  · intro sched w h
    have := CombineResults_fed_hist cap _ sched w h
    rwa [hy, ← hv] at this

/-- Witness of C4 on two orders of the same three strings. -/
theorem CombineResults_permutation_invariant_witness :
    0 < 2 ∧ ["b", "c", "a"].Perm ["a", "b", "c"] ∧
      ∃ v,
        (∃ w, runSteps (CombineResults 2) (List.replicate 5 .self)
            (Combine.fed [.str "b", .str "c", .str "a"]) = some w ∧ w.out.hist = [.str v])
        ∧ (∃ w, runSteps (CombineResults 2) (List.replicate 5 .self)
            (Combine.fed [.str "a", .str "b", .str "c"]) = some w ∧ w.out.hist = [.str v]) := by
  have hp : ["b", "c", "a"].Perm ["a", "b", "c"] := by decide
  obtain ⟨v, h1, h2, -, -⟩ :=
    CombineResults_permutation_invariant 2 (by decide) ["b", "c", "a"] ["a", "b", "c"] hp
  exact ⟨by decide, hp, v, h1, h2⟩

/-- C7: `ExecutePipeline()` with no job creates no channel and starts no
stage goroutine, never blocks and returns: its loop exits at once, the
wait-group counter is zero so `wg.Wait()` returns immediately, and in every
state of every run there is no stage, the counter is zero, nothing has
panicked and, until it has returned, the caller can take its next step. -/
theorem ExecutePipeline_empty (cap : Nat) (hs : Hashes) :
    ExecutePipeline [] = ⟨.spawning [], 0, [], false⟩
    ∧ Pipeline.run cap hs [.main, .main] (ExecutePipeline []) = some ⟨.returned, 0, [], false⟩
    ∧ (∀ s, Reachable cap hs [] s →
        s.cells = [] ∧ s.wg = 0 ∧ s.crashed = false
        ∧ (s.main ≠ .returned → ∃ s', Pipeline.step cap hs .main s = some s')
        ∧ ∀ i a, Pipeline.step cap hs (.stage i a) s = none) := by
  refine ⟨rfl, rfl, ?_⟩
  intro s hr
  obtain ⟨hcr, -, hwg, hjobs, -⟩ := Reachable_ok cap hs [] s hr
  have hc : s.cells = [] := jobsOf_eq_nil _ (List.append_eq_nil.mp hjobs).1
  have ht : s.main.todo = [] := (List.append_eq_nil.mp hjobs).2
  have hw : s.wg = 0 := by
    rw [hwg, ht, hc]
    rfl
  refine ⟨hc, hw, hcr, ?_, ?_⟩
  · intro hne
    cases hm : s.main with
    | spawning todo =>
      rw [hm] at ht
      simp only [Main.todo] at ht
      subst ht
      simp [Pipeline.step, Pipeline.stepMain, hcr, hm]
    | waiting => simp [Pipeline.step, Pipeline.stepMain, hcr, hm, hw]
    | returned => exact absurd hm hne
  · intro i a
    simp [Pipeline.step, hcr, hc, stepCells]

/-! ## The claims on the two hash closures -/

/-- C1: the value `SingleHash` emits for an item of string form `s` is
`DataSignerCrc32(s) ++ "~" ++ DataSignerCrc32(DataSignerMd5(s))`, whichever
of the two goroutines of the call moves first.  For every schedule of the
goroutines of the closure call on `s`: if the call has returned, it has
returned exactly that string; if it has not, some goroutine can move; and no
schedule is longer than seven operations, so every run that is carried on
returns that string.  And in every run of every pipeline, every value ever
sent on the output of a `SingleHash` stage is that string for the string form
of an item the stage has received. -/
theorem SingleHash_emits_item (hs : Hashes) (s : String) :
    (∀ sched e c, runSteps (SHCall.step hs) sched (false, SHCall.init s) = some (e, c) →
        (∀ r, c.result = some r →
          r = hs.DataSignerCrc32 s ++ "~" ++ hs.DataSignerCrc32 (hs.DataSignerMd5 s))
        ∧ (c.result = none → ∃ a x, SHCall.step hs a (e, c) = .next x)
        ∧ sched.length ≤ 7)
    ∧ (∀ cap jobs p pre c rest st v, Reachable cap hs jobs p → p.cells = pre ++ c :: rest →
        c.st.job = .singleHash st → v ∈ c.out.hist →
        ∃ x ∈ takenOf (lastOut rest),
          v = .str (hs.DataSignerCrc32 x.format ++ "~"
            ++ hs.DataSignerCrc32 (hs.DataSignerMd5 x.format))) := by
  constructor
  · intro sched e c h
    obtain ⟨hok, hh, hlen⟩ :=
      SHCall_run_ok hs s sched false e (SHCall.init s) c (SHCall_init_ok hs s) rfl h
    refine ⟨fun r hr => (SHCall_result_ok hs s c r hok hr).1,
      fun hr => SHCall_progress hs s e c hok (by omega) hr, ?_⟩
    have : (SHCall.init s).todo = 7 := rfl
    omega
  · intro cap jobs p pre c rest st v hr hcells hjob hv
    have hok := (Reachable_ok cap hs jobs p hr).2.1
    rw [hcells] at hok
    have hst := (CellsOk_split hs pre c rest hok).1
    rw [hjob] at hst
    exact Send_mem_hist (SingleHash.spec hs) _ st c.out hst v hv

/-- Witness of C1: two schedules of one call, the md5 goroutine first in
one and the crc32 goroutine first in the other, return the same string. -/
theorem SingleHash_emits_item_witness :
    runSteps (SHCall.step Hashes.sample)
        [.worker 1, .worker 1, .worker 1, .worker 1, .worker 0, .body, .body]
        (false, SHCall.init "7") = some (false, ⟨"7", .done, .done, .returned "c7~cm7"⟩)
    ∧ runSteps (SHCall.step Hashes.sample)
        [.worker 0, .body, .worker 1, .worker 1, .worker 1, .worker 1, .body]
        (false, SHCall.init "7") = some (false, ⟨"7", .done, .done, .returned "c7~cm7"⟩)
    ∧ "c7~cm7" = Hashes.sample.DataSignerCrc32 "7" ++ "~"
        ++ Hashes.sample.DataSignerCrc32 (Hashes.sample.DataSignerMd5 "7") :=
  have h1 : runSteps (SHCall.step Hashes.sample)
      [.worker 1, .worker 1, .worker 1, .worker 1, .worker 0, .body, .body]
      (false, SHCall.init "7") = some (false, ⟨"7", .done, .done, .returned "c7~cm7"⟩) := by
    decide
  ⟨h1, by decide, ((SingleHash_emits_item Hashes.sample "7").1 _ _ _ h1).1 "c7~cm7" rfl⟩

/-- C2: the value `MultiHash` emits for an item of string form `s` is the
concatenation, without separator, of `DataSignerCrc32(decimal(i) ++ s)` for
`i = 0, ..., 5` in ascending order, in whatever order the six goroutines
complete.  For every schedule of the goroutines of the closure call on `s`:
the slice has six slots; if the call has returned, it has returned exactly
that string; if it has not, some goroutine can move; and no schedule is
longer than thirty-eight operations.  And in every run of every pipeline,
every value ever sent on the output of a `MultiHash` stage is that string for
the string form of an item the stage has received. -/
theorem MultiHash_emits_item (hs : Hashes) (s : String) :
    (∀ sched u c, runSteps (MHCall.step hs) sched ((), MHCall.init s) = some (u, c) →
        c.multiHash.length = 6
        ∧ (∀ r, c.result = some r →
          r = hs.DataSignerCrc32 ("0" ++ s) ++ hs.DataSignerCrc32 ("1" ++ s)
            ++ hs.DataSignerCrc32 ("2" ++ s) ++ hs.DataSignerCrc32 ("3" ++ s)
            ++ hs.DataSignerCrc32 ("4" ++ s) ++ hs.DataSignerCrc32 ("5" ++ s))
        ∧ (c.result = none → ∃ a x, MHCall.step hs a (u, c) = .next x)
        ∧ sched.length ≤ 38)
    ∧ (∀ cap jobs p pre c rest st v, Reachable cap hs jobs p → p.cells = pre ++ c :: rest →
        c.st.job = .multiHash st → v ∈ c.out.hist →
        ∃ x ∈ takenOf (lastOut rest),
          v = .str (hs.DataSignerCrc32 ("0" ++ x.format) ++ hs.DataSignerCrc32 ("1" ++ x.format)
            ++ hs.DataSignerCrc32 ("2" ++ x.format) ++ hs.DataSignerCrc32 ("3" ++ x.format)
            ++ hs.DataSignerCrc32 ("4" ++ x.format) ++ hs.DataSignerCrc32 ("5" ++ x.format))) := by
  constructor
  · intro sched u c h
    obtain ⟨hok, hlen⟩ :=
      MHCall_run_ok hs s sched () u (MHCall.init s) c (MHCall_init_ok hs s) h
    refine ⟨hok.2.1, fun r hr => MHCall_result_ok hs s c r hok hr,
      fun hr => MHCall_progress hs s u c hok hr, ?_⟩
    have : (MHCall.init s).todo = 38 := rfl
    omega
  · intro cap jobs p pre c rest st v hr hcells hjob hv
    have hok := (Reachable_ok cap hs jobs p hr).2.1
    rw [hcells] at hok
    have hst := (CellsOk_split hs pre c rest hok).1
    rw [hjob] at hst
    exact Send_mem_hist (MultiHash.spec hs) _ st c.out hst v hv

/-- Witness of C2: a schedule of one call in which the goroutine of salt 5
runs first and the one of salt 0 last returns the hashes in index order. -/
theorem MultiHash_emits_item_witness :
    runSteps (MHCall.step Hashes.sample)
        (List.replicate 7 CallAct.body
          ++ ([5, 4, 3, 2, 1, 0].flatMap fun n => List.replicate 5 (CallAct.worker n))
          ++ [CallAct.body])
        ((), MHCall.init "x")
      = some ((), ⟨"x", ["c0x", "c1x", "c2x", "c3x", "c4x", "c5x"], false, 0,
          List.replicate 6 .done, .returned "c0xc1xc2xc3xc4xc5x"⟩)
    ∧ "c0xc1xc2xc3xc4xc5x"
      = Hashes.sample.DataSignerCrc32 ("0" ++ "x") ++ Hashes.sample.DataSignerCrc32 ("1" ++ "x")
        ++ Hashes.sample.DataSignerCrc32 ("2" ++ "x") ++ Hashes.sample.DataSignerCrc32 ("3" ++ "x")
        ++ Hashes.sample.DataSignerCrc32 ("4" ++ "x")
        ++ Hashes.sample.DataSignerCrc32 ("5" ++ "x") :=
  have h1 : runSteps (MHCall.step Hashes.sample)
      (List.replicate 7 CallAct.body
        ++ ([5, 4, 3, 2, 1, 0].flatMap fun n => List.replicate 5 (CallAct.worker n))
        ++ [CallAct.body])
      ((), MHCall.init "x")
      = some ((), ⟨"x", ["c0x", "c1x", "c2x", "c3x", "c4x", "c5x"], false, 0,
          List.replicate 6 .done, .returned "c0xc1xc2xc3xc4xc5x"⟩) := by
    decide
  ⟨h1, ((MultiHash_emits_item Hashes.sample "x").1 _ _ _ h1).2.1 "c0xc1xc2xc3xc4xc5x" rfl⟩

/-! ## The claims on the stages inside a pipeline -/

/-- C9: a hashing stage (`SingleHash` or `MultiHash`, both `sendHashedStr`
with their per-item closure) emits one item per item read, none lost and none
duplicated, under every interleaving.  In every state of every run, the items
sent so far on its output are, as a multiset, among the images of the items
it has received; once it has closed its output, the items it has sent are
exactly a rearrangement of the images of all the items ever sent on its
input, so there are as many outputs as inputs; and in a pipeline that starts
with a feeder, has no other feeder and ends with `CombineResults`, with
queues of positive capacity, every run can be carried on to a state where
every stage has closed its output, so that every hashing stage does emit the
image of each of its inputs. -/
theorem hashing_stage_outputs (cap : Nat) (hs : Hashes) (jobs : List Job) (p : Pipeline)
    (pre : List Cell) (c : Cell) (rest : List Cell)
    (hr : Reachable cap hs jobs p) (hcells : p.cells = pre ++ c :: rest) :
    (∀ st, c.st.job = .singleHash st →
      c.out.hist.Subperm
        ((takenOf (lastOut rest)).map fun x => Item.str (SingleHash.item hs x.format))
      ∧ (c.out.closed = true →
          c.out.hist.Perm
            ((histOf (lastOut rest)).map fun x => Item.str (SingleHash.item hs x.format))
          ∧ c.out.hist.length = (histOf (lastOut rest)).length))
    ∧ (∀ st, c.st.job = .multiHash st →
      c.out.hist.Subperm
        ((takenOf (lastOut rest)).map fun x => Item.str (MultiHash.item hs x.format))
      ∧ (c.out.closed = true →
          c.out.hist.Perm
            ((histOf (lastOut rest)).map fun x => Item.str (MultiHash.item hs x.format))
          ∧ c.out.hist.length = (histOf (lastOut rest)).length))
    ∧ (WellFormed jobs → 0 < cap →
        ∃ sched q, Pipeline.run cap hs sched p = some q ∧ q.main = .returned
          ∧ jobsOf q.cells = jobs
          ∧ ∀ pre' d rest', q.cells = pre' ++ d :: rest' →
              d.out.closed = true
              ∧ (∀ st, d.st.job = .singleHash st →
                  d.out.hist.Perm ((histOf (lastOut rest')).map
                    fun x => Item.str (SingleHash.item hs x.format)))
              ∧ (∀ st, d.st.job = .multiHash st →
                  d.out.hist.Perm ((histOf (lastOut rest')).map
                    fun x => Item.str (MultiHash.item hs x.format)))) := by
  have hpok := Reachable_ok cap hs jobs p hr
  have hok := hpok.2.1
  rw [hcells] at hok
  have hst := CellsOk_split hs pre c rest hok
  refine ⟨?_, ?_, ?_⟩
  · intro st hj
    have h1 := hst.1
    rw [hj] at h1
    refine ⟨Send_subperm (SingleHash.spec hs) _ st c.out h1, fun hc => ?_⟩
    have hp := (Stage_singleHash_closed hs _ c.st c.out st hst hj hc).1
    exact ⟨hp, by simpa using hp.length_eq⟩
  · intro st hj
    have h1 := hst.1
    rw [hj] at h1
    refine ⟨Send_subperm (MultiHash.spec hs) _ st c.out h1, fun hc => ?_⟩
    have hp := (Stage_multiHash_closed hs _ c.st c.out st hst hj hc).1
    exact ⟨hp, by simpa using hp.length_eq⟩
  · intro hwf hcap
    obtain ⟨sched, q, hrun, hret⟩ := Pipeline_completes cap hcap hs jobs hwf p hpok
    have hqok := Pipeline_run_ok cap hs jobs sched p q hpok hrun
    obtain ⟨-, hj, hfin⟩ := AllFinished_of_returned hs jobs q hqok hret
    refine ⟨sched, q, hrun, hret, hj, ?_⟩
    intro pre' d rest' hq
    have hd := hfin d (by rw [hq]; simp)
    have hcq := hqok.2.1
    rw [hq] at hcq
    have hsd := CellsOk_split hs pre' d rest' hcq
    exact ⟨hd.2.1,
      fun st hjst => (Stage_singleHash_closed hs _ d.st d.out st hsd hjst hd.2.1).1,
      fun st hjst => (Stage_multiHash_closed hs _ d.st d.out st hsd hjst hd.2.1).1⟩

/-- Witness of C9: a complete run of a feeder of two items followed by
`SingleHash`, in which the second item is hashed and sent first. -/
theorem hashing_stage_outputs_witness :
    Reachable 2 Hashes.sample [.feed [.int 1, .str "a"], .SingleHash] Sched.hashTwoEnd
      ∧ [Item.str "ca~cma", Item.str "c1~cm1"].Perm
          ([Item.int 1, Item.str "a"].map
            fun x => Item.str (SingleHash.item Hashes.sample x.format))
      ∧ [Item.str "ca~cma", Item.str "c1~cm1"].length = [Item.int 1, Item.str "a"].length :=
  have hreach : Reachable 2 Hashes.sample [.feed [.int 1, .str "a"], .SingleHash]
      Sched.hashTwoEnd := ⟨Sched.hashTwo, by decide⟩
  ⟨hreach,
    ((hashing_stage_outputs 2 Hashes.sample _ Sched.hashTwoEnd []
      ⟨⟨.singleHash ⟨false, .returned, 0, [.done, .done]⟩, .finished⟩,
        ⟨[], [.str "ca~cma", .str "c1~cm1"], true⟩⟩
      [⟨⟨.feed [.int 1, .str "a"] 2, .finished⟩, ⟨[.int 1, .str "a"], [], true⟩⟩]
      hreach rfl).1 _ rfl).2 rfl⟩

/-- C5: the final value of the pipeline feeder, `SingleHash`, `MultiHash`,
`CombineResults` depends on the batch only.  In every state of every run,
whatever the order in which the items crossed the stage boundaries, the
output of `CombineResults` is empty or holds the single string obtained by
sorting and joining with `_` the strings `MultiHash.item (SingleHash.item s)`
for the string forms `s` of the items of the batch; hence any two runs that
emit a final value emit the same one; and with queues of positive capacity
every run can be carried on until `ExecutePipeline` returns, at which point
`CombineResults` has emitted exactly that string. -/
theorem pipeline_final_value (cap : Nat) (hcap : 0 < cap) (hs : Hashes) (xs : List Item)
    (p : Pipeline)
    (hr : Reachable cap hs [.feed xs, .SingleHash, .MultiHash, .CombineResults] p) :
    (∀ c ∈ p.cells, c.st.job.job = .CombineResults →
      c.out.hist = [] ∨
        c.out.hist = [.str (String.intercalate "_" (sortStrings
          (xs.map fun x => MultiHash.item hs (SingleHash.item hs x.format))))])
    ∧ (∀ q, Reachable cap hs [.feed xs, .SingleHash, .MultiHash, .CombineResults] q →
        ∀ c ∈ p.cells, ∀ d ∈ q.cells, c.st.job.job = .CombineResults →
          d.st.job.job = .CombineResults → c.out.hist ≠ [] → d.out.hist ≠ [] →
          c.out.hist = d.out.hist)
    ∧ (∃ sched q c rest, Pipeline.run cap hs sched p = some q ∧ q.main = .returned
        ∧ q.cells = c :: rest ∧ c.st.job.job = .CombineResults
        ∧ c.out.hist = [.str (String.intercalate "_" (sortStrings
            (xs.map fun x => MultiHash.item hs (SingleHash.item hs x.format))))]) := by
  have key : ∀ q d, Pipeline.Ok hs [.feed xs, .SingleHash, .MultiHash, .CombineResults] q →
      d ∈ q.cells → d.st.job.job = .CombineResults →
      (d.out.hist = [] ∨
        d.out.hist = [.str (CombineResults.value
          (xs.map fun x => MultiHash.item hs (SingleHash.item hs x.format)))]) := by
    intro q d hq hd hdj
    obtain ⟨-, hok, -, hjobs, -⟩ := hq
    obtain ⟨c2, c1, c0, hcells, h2, h1, h0⟩ := cells_of_combine xs q.cells _ hjobs d hd hdj
    rw [hcells] at hok
    obtain ⟨st, hst⟩ := JobState_job_combine _ hdj
    have h3 := hok.1.1
    rw [hst] at h3
    simp only [JobState.Ok, lastOut] at h3
    cases st with
    | ranging r => exact Or.inl h3.2
    | sending v => exact Or.inl h3.2.2
    | returned =>
      right
      rw [h3.2]
      simp only [takenOf]
      rw [pipeline_value hs xs d c2 c1 c0 hok h2 h1 h0 h3.1]
  have hpok := Reachable_ok cap hs _ p hr
  refine ⟨fun c hc hj => key p c hpok hc hj, ?_, ?_⟩
  · intro q hq c hc d hd hj hdj hne hne'
    rcases key p c hpok hc hj with h | h
    · exact absurd h hne
    · rcases key q d (Reachable_ok cap hs _ q hq) hd hdj with h' | h'
      · exact absurd h' hne'
      · rw [h, h']
  · have hwf : WellFormed [.feed xs, .SingleHash, .MultiHash, .CombineResults] :=
      ⟨xs, [.SingleHash, .MultiHash], rfl, by simp⟩
    obtain ⟨sched, q, hrun, hret⟩ := Pipeline_completes cap hcap hs _ hwf p hpok
    have hqok := Pipeline_run_ok cap hs _ sched p q hpok hrun
    obtain ⟨-, hj, hfin⟩ := AllFinished_of_returned hs _ q hqok hret
    cases hq : q.cells with
    | nil => simp [hq, jobsOf] at hj
    | cons c rest =>
      rw [hq, jobsOf_cons] at hj
      have hcj : c.st.job.job = .CombineResults := by
        have := congrArg List.reverse hj
        simp only [List.reverse_append, List.reverse_cons, List.reverse_nil, List.nil_append,
          List.singleton_append, List.cons_append, List.cons.injEq] at this
        exact this.1
      have hc : c ∈ q.cells := by rw [hq]; simp
      refine ⟨sched, q, c, rest, hrun, hret, hq, hcj, ?_⟩
      rcases key q c hqok hc hcj with h | h
      · exfalso
        obtain ⟨st, hst⟩ := JobState_job_combine _ hcj
        have hret' := (hfin c hc).2.2
        have hcok := hqok.2.1
        rw [hq] at hcok
        have h3 := hcok.1.1
        rw [hst] at hret' h3
        simp only [JobState.returned, decide_eq_true_eq] at hret'
        subst hret'
        simp only [JobState.Ok, Combine.Ok] at h3
        rw [h3.2] at h
        simp at h
      · exact h

/-- Witness of C5: a complete run on a batch of one item. -/
theorem pipeline_final_value_witness :
    0 < 1
      ∧ Reachable 1 Hashes.sample [.feed [.int 0], .SingleHash, .MultiHash, .CombineResults]
        Sched.signOneEnd
      ∧ ([Item.str "c0c0~cm0c1c0~cm0c2c0~cm0c3c0~cm0c4c0~cm0c5c0~cm0"] = [] ∨
          [Item.str "c0c0~cm0c1c0~cm0c2c0~cm0c3c0~cm0c4c0~cm0c5c0~cm0"]
            = [.str (String.intercalate "_" (sortStrings
                ([Item.int 0].map fun x =>
                  MultiHash.item Hashes.sample (SingleHash.item Hashes.sample x.format))))]) :=
  have hreach : Reachable 1 Hashes.sample
      [.feed [.int 0], .SingleHash, .MultiHash, .CombineResults] Sched.signOneEnd :=
    ⟨Sched.signOne, by decide⟩
  ⟨by decide, hreach,
    (pipeline_final_value 1 (by decide) Hashes.sample [.int 0] Sched.signOneEnd hreach).1
      ⟨⟨.combine .returned, .finished⟩,
        ⟨[], [.str "c0c0~cm0c1c0~cm0c2c0~cm0c3c0~cm0c4c0~cm0c5c0~cm0"], true⟩⟩
      (List.mem_cons_self _ _) rfl⟩

/-! ## The claims on mutual exclusion and on closing -/

/-- Counterexample to C6: in a pipeline with two `SingleHash` stages each
stage has its own mutex (it is created inside `SingleHash`), and a run
reaches, without any panic, a state in which two calls of `DataSignerMd5`
are in progress at the same time, one in each stage; so it is not true that
in every run of every list of stages at most one call is in progress. -/
theorem md5_calls_overlap :
    (Pipeline.run 2 Hashes.sample Sched.overlap
        (ExecutePipeline [.feed [.int 0, .int 1], .SingleHash, .SingleHash])).map
      (fun p => (p.crashed, p.md5Running)) = some (false, 2)
    ∧ ¬ (∀ cap hs jobs p, Reachable cap hs jobs p → p.md5Running ≤ 1) := by
  have h : (Pipeline.run 2 Hashes.sample Sched.overlap
        (ExecutePipeline [.feed [.int 0, .int 1], .SingleHash, .SingleHash])).map
      (fun p => (p.crashed, p.md5Running)) = some (false, 2) := by decide
  refine ⟨h, fun hall => ?_⟩
  cases hrun : Pipeline.run 2 Hashes.sample Sched.overlap
      (ExecutePipeline [.feed [.int 0, .int 1], .SingleHash, .SingleHash]) with
  | none => simp [hrun] at h
  | some p =>
    have h1 := hall 2 Hashes.sample _ p ⟨Sched.overlap, hrun⟩
    simp only [hrun, Option.map_some', Option.some.injEq, Prod.mk.injEq] at h
    omega

/-- C6, amended: in every state of every run of `ExecutePipeline`, for every
list of stages, each `SingleHash` stage has at most one call of
`DataSignerMd5` in progress (its calls are serialised by the mutex of that
stage), the other stages have none, and so the number of calls in progress in
the whole program is at most the number of `SingleHash` stages of the
pipeline: at most one when the pipeline has a single `SingleHash` stage. -/
theorem md5_exclusive_per_stage (cap : Nat) (hs : Hashes) (jobs : List Job) (p : Pipeline)
    (hr : Reachable cap hs jobs p) :
    (∀ c ∈ p.cells, c.st.job.md5Running ≤ 1
      ∧ (c.st.job.job ≠ .SingleHash → c.st.job.md5Running = 0))
    ∧ p.md5Running ≤ (jobs.filter Job.isSingleHash).length
    ∧ ((jobs.filter Job.isSingleHash).length ≤ 1 → p.md5Running ≤ 1) := by
  obtain ⟨-, hok, -, hjobs, -⟩ := Reachable_ok cap hs jobs p hr
  have htot : p.md5Running ≤ (jobs.filter Job.isSingleHash).length := by
    have h1 := md5Running_cells_le hs p.cells hok
    rw [← hjobs, List.filter_append, List.length_append]
    simp only [Pipeline.md5Running]
    omega
  refine ⟨?_, htot, fun h => by omega⟩
  intro c hc
  obtain ⟨inp, hst⟩ := CellsOk_mem hs p.cells hok c hc
  have h1 := JobState_md5Running_le hs inp c.st.job c.out hst.1
  constructor
  · split at h1 <;> omega
  · intro hne
    cases hj : c.st.job <;> simp_all [JobState.md5Running, JobState.job]

/-- Witness of the amended C6: a run stopped inside `DataSignerMd5`. -/
theorem md5_exclusive_per_stage_witness :
    Reachable 1 Hashes.sample [.feed [.int 1], .SingleHash] Sched.insideMd5End
      ∧ Sched.insideMd5End.md5Running = 1
      ∧ Sched.insideMd5End.md5Running
          ≤ ([Job.feed [.int 1], Job.SingleHash].filter Job.isSingleHash).length :=
  have hreach : Reachable 1 Hashes.sample [.feed [.int 1], .SingleHash] Sched.insideMd5End :=
    ⟨Sched.insideMd5, by decide⟩
  ⟨hreach, by decide,
    (md5_exclusive_per_stage 1 Hashes.sample _ Sched.insideMd5End hreach).2.1⟩

/-- C8: in every state of every run of `ExecutePipeline`, for every stage:
nothing has panicked and no step panics, so no output is closed twice and
nothing is sent on a closed output; the output of the stage is closed exactly
when its goroutine has left the job function; when it is closed the job
function has returned, a hashing stage has drained its input and every task
goroutine it started has sent its result and finished, `CombineResults` has
drained its input and sent its one item, and the stage performs no further
job operation; the deferred `close(out)` is blocked while the job function
has not returned and is performed, leaving the items sent untouched, as soon
as it has; and in a pipeline that starts with a feeder, has no other feeder
and ends with `CombineResults`, with queues of positive capacity, every run
can be carried on until `ExecutePipeline` returns, with every stage finished
and every output closed. -/
theorem stage_output_closed_once (cap : Nat) (hs : Hashes) (jobs : List Job) (p : Pipeline)
    (pre : List Cell) (c : Cell) (rest : List Cell)
    (hr : Reachable cap hs jobs p) (hcells : p.cells = pre ++ c :: rest) :
    p.crashed = false
    ∧ (∀ lb p', Pipeline.step cap hs lb p = some p' → p'.crashed = false)
    ∧ (c.out.closed = true ↔ c.st.phase ≠ .running)
    ∧ (c.out.closed = true →
        c.st.job.returned = true
        ∧ (∀ st, c.st.job = .singleHash st → Drained (lastOut rest) ∧ st.allDone)
        ∧ (∀ st, c.st.job = .multiHash st → Drained (lastOut rest) ∧ st.allDone)
        ∧ (∀ st, c.st.job = .combine st → Drained (lastOut rest) ∧ c.out.hist.length = 1)
        ∧ (∀ a, Stage.step cap hs (.job a) ⟨p.wg, lastOut rest, c.st, c.out⟩ = .blocked))
    ∧ (c.st.job.returned = false →
        Stage.step cap hs .exit ⟨p.wg, lastOut rest, c.st, c.out⟩ = .blocked)
    ∧ (c.st.phase = .running → c.st.job.returned = true →
        ∃ l, Stage.step cap hs .exit ⟨p.wg, lastOut rest, c.st, c.out⟩ = .next l
          ∧ l.out.closed = true ∧ l.out.hist = c.out.hist)
    ∧ (WellFormed jobs → 0 < cap →
        ∃ sched q, Pipeline.run cap hs sched p = some q ∧ q.main = .returned
          ∧ q.crashed = false ∧ jobsOf q.cells = jobs ∧ AllFinished q.cells) := by
  have hpok := Reachable_ok cap hs jobs p hr
  have hok := hpok.2.1
  rw [hcells] at hok
  have hst := CellsOk_split hs pre c rest hok
  refine ⟨hpok.1, ?_, Stage_closed_iff hs _ c.st c.out hst, ?_, ?_, ?_, ?_⟩
  · intro lb p' hstep
    exact (Reachable_ok cap hs jobs p' (Reachable_step cap hs jobs p p' lb hr hstep)).1
  · intro hc
    obtain ⟨hph, hret⟩ := Stage_closed_returned hs _ c.st c.out hst hc
    refine ⟨hret, ?_, ?_, ?_, ?_⟩
    · intro st hj
      obtain ⟨-, h1, h2⟩ := Stage_singleHash_closed hs _ c.st c.out st hst hj hc
      exact ⟨h2, h1⟩
    · intro st hj
      obtain ⟨-, h1, h2⟩ := Stage_multiHash_closed hs _ c.st c.out st hst hj hc
      exact ⟨h2, h1⟩
    · intro st hj
      have h1 := hst.1
      rw [hj] at h1 hret
      simp only [JobState.returned, decide_eq_true_eq] at hret
      subst hret
      simp only [JobState.Ok, Combine.Ok] at h1
      exact ⟨h1.1, by rw [h1.2]; rfl⟩
    · intro a
      cases hp : c.st.phase with
      | running => exact absurd hp hph
      | closed => simp only [Stage.step, hp]
      | finished => simp only [Stage.step, hp]
  · intro hnr
    have h2 := hst.2
    cases hp : c.st.phase with
    | running => simp [Stage.step, hp, hnr]
    | closed =>
      rw [hp] at h2
      rw [hnr] at h2
      exact absurd h2.2 (by simp)
    | finished =>
      rw [hp] at h2
      rw [hnr] at h2
      exact absurd h2.2 (by simp)
  · intro hp hret
    have h2 := hst.2
    rw [hp] at h2
    simp only at h2
    refine ⟨⟨p.wg, lastOut rest, { c.st with phase := .closed }, { c.out with closed := true }⟩,
      ?_, rfl, rfl⟩
    simp [Stage.step, hp, hret, Chan.close, h2, Step.map]
  · intro hwf hcap
    obtain ⟨sched, q, hrun, hret⟩ := Pipeline_completes cap hcap hs jobs hwf p hpok
    have hqok := Pipeline_run_ok cap hs jobs sched p q hpok hrun
    obtain ⟨-, hj, hfin⟩ := AllFinished_of_returned hs jobs q hqok hret
    exact ⟨sched, q, hrun, hret, hqok.1, hj, hfin⟩

/-- Witness of C8: the feeder has returned and its output is about to be
closed by the deferred call. -/
theorem stage_output_closed_once_witness :
    Reachable 1 Hashes.sample [.feed [.int 1], .SingleHash] Sched.beforeCloseEnd
      ∧ Sched.beforeCloseEnd.crashed = false
      ∧ ∃ l, Stage.step 1 Hashes.sample .exit
            ⟨2, none, ⟨.feed [.int 1] 1, .running⟩, ⟨[], [.int 1], false⟩⟩ = .next l
          ∧ l.out.closed = true ∧ l.out.hist = [.int 1] :=
  have hreach : Reachable 1 Hashes.sample [.feed [.int 1], .SingleHash]
      Sched.beforeCloseEnd := ⟨Sched.beforeClose, by decide⟩
  have h := stage_output_closed_once 1 Hashes.sample _ Sched.beforeCloseEnd
    [⟨⟨.singleHash ⟨false, .ranging, 0, []⟩, .running⟩, ⟨[], [], false⟩⟩]
    ⟨⟨.feed [.int 1] 1, .running⟩, ⟨[], [.int 1], false⟩⟩ [] hreach rfl
  ⟨hreach, h.1, h.2.2.2.2.2.1 rfl rfl⟩

end Signer

/-! # Theorems on the directory printer -/

namespace DirTree

theorem join_cons (a : String) (l : List String) : String.join (a :: l) = a ++ String.join l := by
  apply String.ext
  simp [String.join_eq]

theorem join_append (l₁ l₂ : List String) :
    String.join (l₁ ++ l₂) = String.join l₁ ++ String.join l₂ := by
  apply String.ext
  simp [String.join_eq]

theorem printNodes_children (f : FileInfo) (ch : List Node) (pre cp pp : String) :
    printNode (.mk f ch) pre cp pp
      = pp ++ pre ++ (Node.mk f ch).Name ++ "\n"
          ++ (if f.IsDir then printNodes ch (pp ++ cp) else "") := by
  rfl

theorem name_eq (f : FileInfo) (ch : List Node) : (Node.mk f ch).Name = Spec.name f := by
  simp only [Node.Name, Node.Size, Node.File, Spec.name]
  split
  · rfl
  · split
    · simp [String.append_assoc]
    · simp only [String.append_assoc]
      rfl

mutual
theorem printNode_spec (node : Node) (i n : Nat) (pp : String) :
    printNode node (Spec.connector i n) (if i = n - 1 then "\t" else "│\t") pp
      = String.join (Spec.nodeLines node i n pp) := by
  match node with
  | .mk f ch =>
    rw [printNodes_children, Spec.nodeLines, join_cons, name_eq]
    congr 1
    by_cases hd : f.IsDir = true
    · have ih := printLoop_spec ch 0 ch.length (pp ++ if i = n - 1 then "\t" else "│\t") (by simp)
      simp only [hd, if_true, printNodes, Spec.childPrefix]
      rw [ih]
      split <;> rfl
    · simp [hd, String.join]
termination_by structural node
theorem printLoop_spec (nodes : List Node) (i n : Nat) (pp : String) (h : i + nodes.length = n) :
    printLoop nodes ((n : Int) - 1) i "├───" "│\t" pp
      = String.join (Spec.siblingLines nodes i n pp) := by
  match nodes with
  | [] => simp [printLoop, Spec.siblingLines, String.join]
  | node :: rest =>
    rw [printLoop, Spec.siblingLines, join_append]
    have hi : ((i : Int) = (n : Int) - 1) ↔ i = n - 1 := by
      simp only [List.length_cons] at h
      omega
    simp only [hi]
    have h1 := printNode_spec node i n pp
    simp only [Spec.connector] at h1
    cases rest with
    | nil =>
      simp only [List.length_cons, List.length_nil] at h
      have : i = n - 1 := by omega
      simp only [this, if_true] at h1 ⊢
      rw [h1]
      simp [printLoop, Spec.siblingLines, String.join]
    | cons b rest2 =>
      simp only [List.length_cons] at h
      have : ¬ i = n - 1 := by omega
      simp only [this, if_false] at h1 ⊢
      rw [h1, printLoop_spec (b :: rest2) (i + 1) n pp (by simp only [List.length_cons]; omega)]
termination_by structural nodes
end

mutual
theorem nodeLines_length (node : Node) (i n : Nat) (pp : String) :
    (Spec.nodeLines node i n pp).length = node.visited := by
  match node with
  | .mk f ch =>
    rw [Spec.nodeLines, Node.visited]
    by_cases hd : f.IsDir = true
    · simp only [hd, if_true, List.length_cons]
      rw [siblingLines_length ch 0 ch.length _]
      omega
    · simp [hd]
termination_by structural node
theorem siblingLines_length (nodes : List Node) (i n : Nat) (pp : String) :
    (Spec.siblingLines nodes i n pp).length = visitedAll nodes := by
  match nodes with
  | [] => simp [Spec.siblingLines, visitedAll]
  | node :: rest =>
    rw [Spec.siblingLines, visitedAll, List.length_append, nodeLines_length node i n pp,
      siblingLines_length rest (i + 1) n pp]
termination_by structural nodes
end

/-- Evaluation of the printer on a directory with two files next to a file. -/
theorem printNodes_sample :
    printNodes
        [.mk ⟨"a", true, 0⟩ [.mk ⟨"x", false, 5⟩ [], .mk ⟨"y", false, 0⟩ []],
         .mk ⟨"b", false, 3⟩ [.mk ⟨"hidden", false, 1⟩ []]] ""
      = "├───a\n│\t├───x (5b)\n│\t└───y (empty)\n└───b (3b)\n" := by
  decide

/-- C10: `printNodes` writes exactly the lines of the specification, one per
visited node in pre-order: the text written is the concatenation of
`Spec.lines`, where the line of the sibling at index `i` of `n` is
`parentPrefix ++ connector ++ name ++ "\n"` with the connector `└───` exactly
when `i = n - 1`, the children of a directory follow its line under the
prefix extended by a tab when `i = n - 1` and by `│` and a tab otherwise, the
children of a non-directory are not printed, and the name is the bare name
of a directory, `name (Nb)` for a file of positive size `N` and
`name (empty)` for any other file. -/
theorem printNodes_writes_spec_lines (nodes : List Node) (parentPrefix : String) :
    printNodes nodes parentPrefix = String.join (Spec.lines nodes parentPrefix)
    ∧ (Spec.lines nodes parentPrefix).length = visitedAll nodes
    ∧ (∀ f ch, (Node.mk f ch).Name = Spec.name f)
    ∧ (∀ f ch pre cp, printNode (.mk f ch) pre cp parentPrefix
        = parentPrefix ++ pre ++ (Node.mk f ch).Name ++ "\n"
            ++ (if f.IsDir then printNodes ch (parentPrefix ++ cp) else "")) := by
  refine ⟨?_, siblingLines_length nodes 0 nodes.length parentPrefix, name_eq, ?_⟩
  · have h := printLoop_spec nodes 0 nodes.length parentPrefix (by simp)
    simpa [printNodes, Spec.lines] using h
  · intro f ch pre cp
    exact printNodes_children f ch pre cp parentPrefix

end DirTree
